import Mathlib

/-!
# ElGamal_in_C : a shallow embedding of `intChain.c` and the two drivers

An `intChain` is a singly linked list of 64-bit nodes, least significant node first,
terminated by the shared self-referential node `rootZero` (data `0`).  The embedding
represents a chain by the list of the `data` words of its nodes, in chain order.  The
head fields `size` and `last` are functions of that list in every state accepted by
`intCheck` (`size` is the length, `last` the final node), and every public function
starts with `assert(!intCheck(X))`; the theorems therefore carry `Canonical` hypotheses.

Machine words are natural numbers below `2^64`; every C operation that can wrap is
written with an explicit `% WORD`.
-/

namespace ElGamal

/-- The C macro `INT_SIZE`. -/
def INT_SIZE : Nat := 64

/-- The modulus of `uint64_t` arithmetic, `2^INT_SIZE`. -/
def WORD : Nat := 2 ^ 64

/-- The C macro `UINT_MAX`, redefined in `intChain.c` as `UINT64_MAX`. -/
def UINT_MAX : Nat := 2 ^ 64 - 1

/-- The integer denoted by a chain: digit `i` has weight `2^(64 i)`. -/
def value : List Nat → Nat
  | [] => 0
  | d :: ds => d + WORD * value ds

/-- Every node holds a 64-bit word. -/
def Words (X : List Nat) : Prop := ∀ d ∈ X, d < WORD

/-- The state accepted by `intCheck`: 64-bit nodes and no zero node at the end of the chain. -/
def Canonical (X : List Nat) : Prop := Words X ∧ X.getLast? ≠ some 0

instance (X : List Nat) : Decidable (Words X) := by unfold Words; infer_instance

instance (X : List Nat) : Decidable (Canonical X) := by unfold Canonical; infer_instance

/-- How a call ends.  `ret` is a normal return with the terminator `rootZero` intact.
`hang` is a loop whose state repeats, so the call never returns.  `clobber x rz` is a
return after the call stored into the shared terminator: `x` is the chain left in the
first argument and `rz` the word left in `rootZero.data`; what later calls do with a
nonzero terminator is outside the embedding.  `abort` is a failed `assert`.  `fuel`
marks a run of a loop driven by a random source that was cut off by the model. -/
inductive Outcome (α : Type) where
  | ret (a : α)
  | hang
  | clobber (x : List Nat) (rz : Nat)
  | abort
  | fuel
  deriving DecidableEq, Repr

namespace Outcome

/-- Sequencing: anything but a normal return ends the run. -/
def bind {α β : Type} (o : Outcome α) (f : α → Outcome β) : Outcome β :=
  match o with
  | ret a => f a
  | hang => hang
  | clobber x rz => clobber x rz
  | abort => abort
  | fuel => fuel

end Outcome

/-! ## Addition -/

/-- One pass of the body of the loop of `intAdd` on the words `x`, `y` and the carry:
`sum = x + carry; carry = (sum < x); sum += y; carry = (sum < y) + carry`. -/
def addStep (x y c : Nat) : Nat × Nat :=
  let sum := (x + c) % WORD
  let c1 := if sum < x then 1 else 0
  let sum2 := (sum + y) % WORD
  let c2 := (if sum2 < y then 1 else 0) + c1
  (sum2, c2)

/-- The loop of `intAdd` once `currentNodeY` is `rootZero`: it goes on while the carry is
set, reading `0` from `rootZero` and appending a fresh zero node when `X` is used up.
A pass on a fresh node leaves carry `0` (`addStep_fresh`), so the loop ends after it. -/
def addCarry : List Nat → Nat → List Nat
  | xs, 0 => xs
  | [], c + 1 => [(addStep 0 0 (c + 1)).1]
  | x :: xs, c + 1 => (addStep x 0 (c + 1)).1 :: addCarry xs (addStep x 0 (c + 1)).2

/-- The loop of `intAdd` while `Y` has nodes left. -/
def addLoop : List Nat → List Nat → Nat → List Nat
  | xs, [], c => addCarry xs c
  | xs, y :: ys, c =>
    (addStep (xs.headD 0) y c).1 :: addLoop xs.tail ys (addStep (xs.headD 0) y c).2

/-- `intAdd(X, Y)`: the chain left in `X`. -/
def intAdd (X Y : List Nat) : List Nat := addLoop X Y 0

/-- `intIncrement(X)` is `intAdd(X, &chainOne)`. -/
def intIncrement (X : List Nat) : List Nat := intAdd X [1]

/-! ## Subtraction -/

/-- One pass of the body of the loop of `intSub`:
`newCarry = (x < y); x -= y + carry; carry = newCarry + (x == UINT_MAX)`. -/
def subStep (x y c : Nat) : Nat × Nat :=
  let newCarry := if x < y then 1 else 0
  let x1 := (x + WORD - (y + c) % WORD) % WORD
  (x1, newCarry + (if x1 = UINT_MAX then 1 else 0))

/-- Remove the zero nodes at the end of a chain (`nodeFree(lastNonZeroNode->next)`). -/
def trim : List Nat → List Nat
  | [] => []
  | d :: ds =>
    match trim ds with
    | [] => if d = 0 then [] else [d]
    | t :: ts => d :: t :: ts

/-- The loop of `intSub` when both cursors stand on `rootZero`: `x` and `y` are then the
same word `rz`.  With the carry clear the loop is over; the cursor of `X` has passed the
end of the chain through `rootZero`, and the head is left with `last = &rootZero`.  With
carry `1` a pass maps every state to `(UINT_MAX, 1)`, which it maps to itself
(`subStep_sentinel_fixed`): the loop never ends.  With carry `2` one pass ends the loop
and leaves a nonzero word in `rootZero.data`. -/
def subSentinel (done : List Nat) (rz c : Nat) : Outcome (List Nat) :=
  if c = 0 then Outcome.clobber done rz
  else if (subStep rz rz c).2 = 0 then Outcome.clobber done (subStep rz rz c).1
  else Outcome.hang

/-- The loop of `intSub` after `X` is used up while `Y` still has nodes: each pass reads
and writes `rootZero.data` (`rz`) in place of a node of `X`. -/
def subPastEnd (done : List Nat) : List Nat → Nat → Nat → Outcome (List Nat)
  | [], rz, c => subSentinel done rz c
  | y :: ys, rz, c => subPastEnd done ys (subStep rz y c).1 (subStep rz y c).2

/-- The loop of `intSub` once `Y` is used up: it goes on while the carry is set, reading
`0` for `y`.  `acc` holds the nodes already passed, last first. -/
def subCarry (acc : List Nat) : List Nat → Nat → Outcome (List Nat)
  | xs, 0 => Outcome.ret (if xs = [] then trim acc.reverse else acc.reverse ++ xs)
  | [], c + 1 => subSentinel acc.reverse 0 (c + 1)
  | x :: xs, c + 1 => subCarry ((subStep x 0 (c + 1)).1 :: acc) xs (subStep x 0 (c + 1)).2

/-- The loop of `intSub` while `Y` has nodes left. -/
def subLoop (acc : List Nat) : List Nat → List Nat → Nat → Outcome (List Nat)
  | xs, [], c => subCarry acc xs c
  | [], y :: ys, c => subPastEnd acc.reverse (y :: ys) 0 c
  | x :: xs, y :: ys, c => subLoop ((subStep x y c).1 :: acc) xs ys (subStep x y c).2

/-- `intSub(X, Y)`: the chain left in `X`.  When the loop stops at the end of `X` the
chain is cut after the last nonzero node passed. -/
def intSub (X Y : List Nat) : Outcome (List Nat) := subLoop [] X Y 0

/-- `intDecrement(X)` is `intSub(X, &chainOne)`. -/
def intDecrement (X : List Nat) : Outcome (List Nat) := intSub X [1]

/-! ## Shifts -/

/-- `intRShiftLarge(X, n)`: drop the first `n` nodes; the zero chain when `n >= X->size`. -/
def intRShiftLarge (X : List Nat) (n : Nat) : List Nat :=
  if n ≥ X.length then [] else X.drop n

/-- The loop of `intRShiftSmall`: every node but the last becomes
`(data >> n) + (next->data << (INT_SIZE - n))`; the last becomes `data >> n` and is
freed when that is zero. -/
def rshiftNodes (n : Nat) : List Nat → List Nat
  | [] => []
  | [d] => if d >>> n = 0 then [] else [d >>> n]
  | d :: e :: rest =>
    ((d >>> n) + (e <<< (INT_SIZE - n)) % WORD) % WORD :: rshiftNodes n (e :: rest)

/-- `intRShiftSmall(X, n)` for `n < INT_SIZE`. -/
def intRShiftSmall (X : List Nat) (n : Nat) : List Nat := rshiftNodes n X

/-- `intRShift(X, n)`. -/
def intRShift (X : List Nat) (n : Nat) : List Nat :=
  if X = [] then X
  else
    let X1 := if n / INT_SIZE ≠ 0 then intRShiftLarge X (n / INT_SIZE) else X
    if X1 = [] then X1
    else if n % INT_SIZE ≠ 0 then intRShiftSmall X1 (n % INT_SIZE) else X1

/-- `intLShiftLarge(X, n)`: `n` zero nodes in front of a nonzero chain. -/
def intLShiftLarge (X : List Nat) (n : Nat) : List Nat :=
  if X = [] then X else List.replicate n 0 ++ X

/-- The loop of `intLShiftSmall`: `newOverflow = data >> (INT_SIZE - n); data <<= n;
data += overflow`; a node holding the last overflow is appended when it is not zero. -/
def lshiftNodes (n : Nat) : List Nat → Nat → List Nat
  | [], overflow => if overflow ≠ 0 then [overflow] else []
  | d :: rest, overflow =>
    ((d <<< n) % WORD + overflow) % WORD :: lshiftNodes n rest (d >>> (INT_SIZE - n))

/-- `intLShiftSmall(X, n)` for `n < INT_SIZE`. -/
def intLShiftSmall (X : List Nat) (n : Nat) : List Nat := lshiftNodes n X 0

/-- `intLShift(X, n)`. -/
def intLShift (X : List Nat) (n : Nat) : List Nat :=
  let X1 := if n / INT_SIZE ≠ 0 then intLShiftLarge X (n / INT_SIZE) else X
  if n % INT_SIZE ≠ 0 then intLShiftSmall X1 (n % INT_SIZE) else X1

/-! ## Comparison -/

/-- The loop of `highestBitSignificance`: shift `x` left until bit 63 is set, counting
down from `INT_SIZE`.  The count can not pass 64 passes for a nonzero word; the C loop
does not end for `x = 0`, which the `assert` excludes. -/
def hbsLoop : Nat → Nat → Nat → Nat
  | 0, _, h => h
  | k + 1, x, h => if x &&& 0x8000000000000000 ≠ 0 then h else hbsLoop k ((x <<< 1) % WORD) (h - 1)

/-- `highestBitSignificance(x)`: the bit length of a nonzero 64-bit word. -/
def highestBitSignificance (x : Nat) : Nat := hbsLoop 64 x INT_SIZE

/-- The C macro `INT_MIN`. -/
def INT_MIN : Int := -(2 ^ 63)

/-- The C macro `INT_MAX`. -/
def INT_MAX : Int := 2 ^ 63 - 1

/-- `intCompare(X, Y)`, the difference of the bit lengths.  The C code forms
`INT_SIZE * (X->size - Y->size)` in 64-bit arithmetic; no wrap occurs for chains of
fewer than `2^57` nodes, and the embedding uses the exact integer. -/
def intCompare (X Y : List Nat) : Int :=
  if X = [] ∧ Y = [] then 0
  else if X = [] then INT_MIN
  else if Y = [] then INT_MAX
  else (INT_SIZE : Int) * ((X.length : Int) - (Y.length : Int))
        + (highestBitSignificance (X.getLastD 0) : Int)
        - (highestBitSignificance (Y.getLastD 0) : Int)

/-- `intMagnitude(X)` is `intCompare(X, &chainOne)`. -/
def intMagnitude (X : List Nat) : Int := intCompare X [1]

/-- `X->last->data`.  For a zero chain `last` points at the head itself, and the word read
at the offset of `data` is the head field `last`, that is, the address `addr` of the head. -/
def lastData (addr : Nat) (X : List Nat) : Nat := X.getLastD addr

/-- `intHeadCompare(X, Y)`; `ax` and `ay` are the addresses of the two heads. -/
def intHeadCompare (ax ay : Nat) (X Y : List Nat) : Nat :=
  if X.length > Y.length then 1
  else if Y.length > X.length then 2
  else if lastData ax X > lastData ay Y then 1
  else if lastData ay Y > lastData ax X then 2
  else 0

/-- The loop of `intFineCompare`: it runs over every node of `X` but the last, and the
later (more significant) difference overwrites the earlier one. -/
def fineLoop : List Nat → List Nat → Nat → Nat
  | [], _, c => c
  | [_], _, c => c
  | x :: x1 :: xs, ys, c =>
    fineLoop (x1 :: xs) ys.tail
      (if x > ys.headD 0 then 1 else if x < ys.headD 0 then 2 else c)

/-- `intFineCompare(X, Y)`; `ax` and `ay` are the addresses of the two heads. -/
def intFineCompareAt (ax ay : Nat) (X Y : List Nat) : Nat :=
  if intHeadCompare ax ay X Y ≠ 0 then intHeadCompare ax ay X Y
  else fineLoop X Y (intHeadCompare ax ay X Y)

/-- `intFineCompare(X, Y)` where at least one chain is not zero: the head addresses are
then never read (`intFineCompareAt_spec`). -/
def intFineCompare (X Y : List Nat) : Nat := intFineCompareAt 0 0 X Y

/-! ## Division -/

/-- The loop `while (exponent--)` of `intMod`: halve `Y`, and subtract it from `X` when
`intFineCompare(X, Y) < 2`.  The result is the pair of chains left in `X` and `Y`. -/
def modLoop : Nat → List Nat → List Nat → Outcome (List Nat × List Nat)
  | 0, X, Y => Outcome.ret (X, Y)
  | e + 1, X, Y =>
    if intFineCompare X (intRShiftSmall Y 1) < 2 then
      (intSub X (intRShiftSmall Y 1)).bind (fun X1 => modLoop e X1 (intRShiftSmall Y 1))
    else modLoop e X (intRShiftSmall Y 1)

/-- `intMod(X, Y)`: the chains left in `X` and in `Y`. -/
def intMod (X Y : List Nat) : Outcome (List Nat × List Nat) :=
  if Y = [] then Outcome.abort
  else if intCompare X Y < 0 then Outcome.ret (X, Y)
  else modLoop (intCompare X Y + 2).toNat X (intLShift Y (intCompare X Y + 2).toNat)

/-- The loop `while (exponent--)` of `intDiv`, on `X`, `Y`, `currentPower`, `quotient`. -/
def divLoop : Nat → List Nat → List Nat → List Nat → List Nat →
    Outcome (List Nat × List Nat × List Nat)
  | 0, X, Y, _, Q => Outcome.ret (Q, X, Y)
  | e + 1, X, Y, P, Q =>
    if intFineCompare X (intRShift Y 1) < 2 then
      (intSub X (intRShift Y 1)).bind
        (fun X1 => divLoop e X1 (intRShift Y 1) (intRShift P 1) (intAdd Q (intRShift P 1)))
    else divLoop e X (intRShift Y 1) (intRShift P 1) Q

/-- `intDiv(X, Y)`: the returned quotient and the chains left in `X` and in `Y`. -/
def intDiv (X Y : List Nat) : Outcome (List Nat × List Nat × List Nat) :=
  if Y = [] then Outcome.abort
  else if X = [] then Outcome.ret ([], X, Y)
  else if intCompare X Y < 0 then Outcome.ret ([], X, Y)
  else divLoop (intCompare X Y + 2).toNat X (intLShift Y (intCompare X Y + 2).toNat)
        (intLShift [1] (intCompare X Y + 2).toNat) []

/-! ## Multiplication -/

/-- One pass of the body of the loop of `intScale` on the node word `x`, the halves
`scalarLow`, `scalarHigh` of the scalar and the carry: the new node word and carry. -/
def scaleStep (x scalarLow scalarHigh carry : Nat) : Nat × Nat :=
  let nodeDataLow := x % 2 ^ 32
  let nodeDataHigh := x >>> 32
  let lowTerm := (nodeDataLow * scalarLow) % WORD
  let middleTerm := ((nodeDataLow * scalarHigh) % WORD + (nodeDataHigh * scalarLow) % WORD) % WORD
  let highTerm := (nodeDataHigh * scalarHigh) % WORD
  let data1 := (middleTerm <<< 32) % WORD
  let data2 := (data1 + carry) % WORD
  let carry1 := if data2 < carry then 1 else 0
  let data3 := (data2 + lowTerm) % WORD
  let carry2 := (carry1 + (if data3 < lowTerm then 1 else 0)) % WORD
  let carry3 :=
    (carry2 + ((if middleTerm < (nodeDataLow * scalarHigh) % WORD then 1 else 0) <<< 32) % WORD)
      % WORD
  let carry4 := (carry3 + middleTerm >>> 32) % WORD
  let carry5 := (carry4 + highTerm) % WORD
  (data3, carry5)

/-- The loop of `intScale` once `X` is used up: while the carry is not zero a fresh zero
node is appended and one pass is made on it.  That pass stores the carry and leaves
carry `0` (`scaleStep_fresh`), so the loop ends after it. -/
def scaleCarry (scalarLow scalarHigh carry : Nat) : List Nat :=
  if carry = 0 then [] else [(scaleStep 0 scalarLow scalarHigh carry).1]

/-- The loop of `intScale` while `X` has nodes left. -/
def scaleLoop (scalarLow scalarHigh : Nat) : List Nat → Nat → List Nat
  | [], carry => scaleCarry scalarLow scalarHigh carry
  | x :: xs, carry =>
    (scaleStep x scalarLow scalarHigh carry).1 ::
      scaleLoop scalarLow scalarHigh xs (scaleStep x scalarLow scalarHigh carry).2

/-- `intScale(X, scalar)`: the chain left in `X`. -/
def intScale (X : List Nat) (scalar : Nat) : List Nat :=
  if scalar = 0 then []
  else if X = [] ∨ scalar = 1 then X
  else scaleLoop (scalar % 2 ^ 32) (scalar >>> (INT_SIZE / 2)) X 0

/-- `intOverwrite(X, Y)`: the chain left in `X` has the words of `Y`. -/
def intOverwrite (_X Y : List Nat) : List Nat := Y

/-- The loop of `intMult` over the nodes of `X`: `Component` is overwritten with `Y`,
scaled by the node, shifted by `significance` nodes and added to `Product`. -/
def multLoop (Y : List Nat) : List Nat → Nat → List Nat → List Nat → List Nat
  | [], _, Product, _ => Product
  | x :: xs, significance, Product, Component =>
    multLoop Y xs (significance + 1)
      (intAdd Product (intLShiftLarge (intScale (intOverwrite Component Y) x) significance))
      (intLShiftLarge (intScale (intOverwrite Component Y) x) significance)

/-- `intMult(X, Y)`: the new chain returned; `X` and `Y` are only read. -/
def intMult (X Y : List Nat) : List Nat :=
  if Y = [] ∨ X = [] then [] else multLoop Y X 0 [] []

/-! ## Modular exponentiation -/

/-- The loop `while (bitCounter--)` of `intModExp` on `nodeBits`, `W`, `Result`, `Z`. -/
def modExpBits : Nat → Nat → List Nat → List Nat → List Nat →
    Outcome (List Nat × List Nat × List Nat)
  | 0, _, W, R, Z => Outcome.ret (W, R, Z)
  | k + 1, nodeBits, W, R, Z =>
    (intMod W Z).bind fun wz =>
      if nodeBits &&& 1 ≠ 0 then
        (intMod R wz.2).bind fun rz =>
          modExpBits k (nodeBits >>> 1) (intMult wz.1 wz.1) (intMult rz.1 wz.1) rz.2
      else modExpBits k (nodeBits >>> 1) (intMult wz.1 wz.1) R wz.2

/-- The loop of `intModExp` over the nodes of the exponent `Y`. -/
def modExpNodes : List Nat → List Nat → List Nat → List Nat →
    Outcome (List Nat × List Nat × List Nat)
  | [], W, R, Z => Outcome.ret (W, R, Z)
  | y :: ys, W, R, Z =>
    (modExpBits INT_SIZE y W R Z).bind fun s => modExpNodes ys s.1 s.2.1 s.2.2

/-- `intModExp(X, Y, Z)`: the chain returned, and the chain left in `Z`. -/
def intModExp (X Y Z : List Nat) : Outcome (List Nat × List Nat) :=
  (modExpNodes Y X [1] Z).bind fun s => intMod s.2.1 s.2.2

/-! ## Random sources -/

/-- The two random sources of the C library and the kernel, and the libc constant
`RAND_MAX`: `rand i` is the value of the `i`-th call of `rand()`, and `getrandom i j` is
byte `j` of the buffer `randomData` after the `i`-th call of `getrandom`. -/
structure Sources where
  RAND_MAX : Nat
  rand : Nat → Nat
  getrandom : Nat → Nat → Nat

/-- The loop `while (j--)` of `intCryptoRandomNodes`: `newData <<= 8; newData +=
randomData[j]`, for `j` from `INT_SIZE / 8 - 1` down to `0`. -/
def loadBytes (bytes : Nat → Nat) : Nat → Nat → Nat
  | 0, newData => newData
  | j + 1, newData => loadBytes bytes j (((newData <<< 8) % WORD + bytes j % 256) % WORD)

/-- The loop `while (k--)` of `intCryptoRandomNodes`, from call number `i` of `getrandom`:
the nodes made, in chain order. -/
def cryptoNodes (S : Sources) : Nat → Nat → List Nat
  | 0, _ => []
  | k + 1, i => loadBytes (S.getrandom i) (INT_SIZE / 8) 0 :: cryptoNodes S k (i + 1)

/-- `intCryptoRandomNodes(k)`: the chain is cut after the last nonzero node. -/
def intCryptoRandomNodes (S : Sources) (k i : Nat) : List Nat := trim (cryptoNodes S k i)

/-- `intCryptoRandom(X)` from call number `i` of `getrandom`: the chain returned, the chain
left in `X`, and the next call number.  For the zero chain `X->last->data` is the address
of the head, the shift is by less than 64, and the `assert` of `intMod` fails. -/
def intCryptoRandom (S : Sources) (X : List Nat) (i : Nat) :
    Outcome (List Nat × List Nat × Nat) :=
  if X = [] then Outcome.abort
  else
    (intMod (intRShift (intCryptoRandomNodes S X.length i)
        (INT_SIZE - highestBitSignificance (X.getLastD 0))) X).bind
      fun r => Outcome.ret (r.1, r.2, i + X.length)

/-- The loop `while (j--)` of `intPseudoRandom`: `newData <<= RAND_WIDTH; newData +=
rand()`, from call number `i` of `rand`. -/
def loadRand (S : Sources) (width : Nat) : Nat → Nat → Nat → Nat
  | 0, _, newData => newData
  | j + 1, i, newData =>
    loadRand S width j (i + 1) (((newData <<< width) % WORD + S.rand i % (S.RAND_MAX + 1)) % WORD)

/-- The number of calls of `rand()` for one node,
`(INT_SIZE / RAND_WIDTH) + (INT_SIZE % RAND_WIDTH)`. -/
def randCalls (S : Sources) : Nat :=
  INT_SIZE / highestBitSignificance S.RAND_MAX + INT_SIZE % highestBitSignificance S.RAND_MAX

/-- The loop `while (k--)` of `intPseudoRandom`, from call number `i` of `rand`. -/
def pseudoNodes (S : Sources) : Nat → Nat → List Nat
  | 0, _ => []
  | k + 1, i =>
    loadRand S (highestBitSignificance S.RAND_MAX) (randCalls S) i 0 ::
      pseudoNodes S k (i + randCalls S)

/-- `intPseudoRandom(X)` from call number `i` of `rand`: the chain returned, the chain left
in `X`, and the next call number.  The function calls itself when `intMagnitude(Y) < 4`;
the first argument bounds the number of such restarts followed by the model. -/
def intPseudoRandom (S : Sources) : Nat → List Nat → Nat → Outcome (List Nat × List Nat × Nat)
  | 0, _, _ => Outcome.fuel
  | fuel + 1, X, i =>
    (intMod (trim (pseudoNodes S X.length i)) X).bind fun r =>
      if intMagnitude r.1 < 4 then intPseudoRandom S fuel r.2 (i + X.length * randCalls S)
      else Outcome.ret (r.1, r.2, i + X.length * randCalls S)

/-! ## Primes -/

/-- `intIsEven(X)`; `addr` is the address of the head, read when the chain is zero. -/
def intIsEven (addr : Nat) (X : List Nat) : Nat :=
  if lastData addr X &&& 1 ≠ 0 then 0 else 1

/-- The loop `while (intIsEven(OddPart))` of `intIsPrime`, on `OddPart` and `twoExponent`.
A nonzero chain of `n` nodes leaves the loop within `64 n` passes, the bound given as
first argument.  On the zero chain the word tested is the address of a head returned by
`malloc`, which is even, and the shift leaves the chain zero: the loop never ends. -/
def oddPartLoop : Nat → List Nat → Nat → Outcome (List Nat × Nat)
  | 0, _, _ => Outcome.hang
  | k + 1, OddPart, twoExponent =>
    if OddPart = [] then Outcome.hang
    else if intIsEven 0 OddPart ≠ 0 then oddPartLoop k (intRShift OddPart 1) (twoExponent + 1)
    else Outcome.ret (OddPart, twoExponent)

/-- The loop `while (currentExponent--)` of a round of `intIsPrime`: square the witness,
reduce it, and leave with `true` when it equals `XMinusOne`; `false` when the loop runs
out.  The second component is the chain left in `X`. -/
def squareLoop (XMinusOne : List Nat) : Nat → List Nat → List Nat → Outcome (Bool × List Nat)
  | 0, _, X => Outcome.ret (false, X)
  | e + 1, Witness, X =>
    (intMod (intMult Witness Witness) X).bind fun r =>
      if intFineCompare r.1 XMinusOne = 0 then Outcome.ret (true, r.2)
      else squareLoop XMinusOne e r.1 r.2

/-- The loop `while (confidence--)` of `intIsPrime` with its two labels: a round that
passes jumps back to the loop test, a round that fails returns `0`, and the loop running
out returns `1`.  `fuel` bounds the restarts of each call of `intPseudoRandom`, `i` is
the call number of `rand`. -/
def primeRounds (S : Sources) (fuel : Nat) (XMinusOne OddPart : List Nat) (twoExponent : Nat) :
    Nat → List Nat → List Nat → Nat → Outcome (Nat × Nat)
  | 0, _, _, i => Outcome.ret (1, i)
  | confidence + 1, X, XMinusTwo, i =>
    (intPseudoRandom S fuel XMinusTwo i).bind fun w =>
      (intModExp w.1 OddPart X).bind fun m =>
        if intFineCompare m.1 [1] = 0 ∨ intFineCompare m.1 XMinusOne = 0 then
          primeRounds S fuel XMinusOne OddPart twoExponent confidence m.2 w.2.1 w.2.2
        else
          (squareLoop XMinusOne twoExponent m.1 m.2).bind fun q =>
            if q.1 then
              primeRounds S fuel XMinusOne OddPart twoExponent confidence q.2 w.2.1 w.2.2
            else Outcome.ret (0, w.2.2)

/-- The C macro `PRIME_CONFIDENCE`. -/
def PRIME_CONFIDENCE : Nat := 50

/-- `intIsPrime(X)` from call number `i` of `rand`: the verdict and the next call number. -/
def intIsPrime (S : Sources) (fuel : Nat) (X : List Nat) (i : Nat) : Outcome (Nat × Nat) :=
  (intDecrement X).bind fun XMinusOne =>
    (intDecrement XMinusOne).bind fun XMinusTwo =>
      (oddPartLoop (INT_SIZE * XMinusOne.length) XMinusOne 0).bind fun d =>
        primeRounds S fuel XMinusOne d.1 d.2 PRIME_CONFIDENCE X XMinusTwo i

/-- The state of the loop of `intMakePrime`: the candidate `X`, the flag `isRandom`, and
the call numbers of `getrandom` and `rand`. -/
structure PrimeSearch where
  X : List Nat
  isRandom : Bool
  calls : Nat
  rcalls : Nat

/-- The candidate drawn by `intMakePrime`: `intCryptoRandom(LowerBound)`, shifted left by
one and incremented. -/
def drawCandidate (S : Sources) (LowerBound : List Nat) (i : Nat) :
    Outcome (List Nat × List Nat × Nat) :=
  (intCryptoRandom S LowerBound i).bind fun r =>
    Outcome.ret (intIncrement (intLShift r.1 1), r.2.1, r.2.2)

/-- The loop of `intMakePrime`.  The test is `intFineCompare(LowerBound, X) != 2 ||
intFineCompare(X, UpperBound) != 2 || !intIsPrime(X)`, evaluated left to right; the first
argument bounds the number of candidates followed by the model. -/
def makePrimeLoop (S : Sources) (fuel : Nat) :
    Nat → List Nat → List Nat → PrimeSearch → Outcome (List Nat)
  | 0, _, _, _ => Outcome.fuel
  | n + 1, LowerBound, UpperBound, st =>
    let next : Nat → Outcome (List Nat) := fun rcalls =>
      if st.isRandom then
        (intMod (intIncrement (intLShift st.X 1)) UpperBound).bind fun r =>
          makePrimeLoop S fuel n LowerBound r.2 ⟨r.1, false, st.calls, rcalls⟩
      else
        (drawCandidate S LowerBound st.calls).bind fun r =>
          makePrimeLoop S fuel n r.2.1 UpperBound ⟨r.1, true, r.2.2, rcalls⟩
    if intFineCompare LowerBound st.X ≠ 2 ∨ intFineCompare st.X UpperBound ≠ 2 then
      next st.rcalls
    else
      (intIsPrime S fuel st.X st.rcalls).bind fun v =>
        if v.1 = 0 then next v.2 else Outcome.ret st.X

/-- `intMakePrime(size)`.  `LowerBound` is one shifted left by `size - 1`, `UpperBound` is
`LowerBound` shifted left by one. -/
def intMakePrime (S : Sources) (fuel n : Nat) (size : Nat) : Outcome (List Nat) :=
  if ¬ size > 2 then Outcome.abort
  else
    (drawCandidate S (intLShift (intIncrement []) (size - 1)) 0).bind fun r =>
      makePrimeLoop S fuel n r.2.1 (intLShift (intLShift (intIncrement []) (size - 1)) 1)
        ⟨r.1, true, r.2.2, 0⟩

/-- The loop of `intFindPrimitiveRoot`: while `intCompare(&chainOne, W)` is not zero a new
`G` is drawn below `P` and `W = intModExp(G, Phi, P)` is formed again.  The first argument
bounds the number of draws followed by the model. -/
def rootLoop (S : Sources) : Nat → List Nat → List Nat → List Nat → List Nat → Nat →
    Outcome (List Nat)
  | 0, _, _, _, _, _ => Outcome.fuel
  | n + 1, P, Phi, G, W, i =>
    if intCompare [1] W ≠ 0 then
      (intCryptoRandom S P i).bind fun g =>
        (intModExp g.1 Phi g.2.1).bind fun w => rootLoop S n w.2 Phi g.1 w.1 g.2.2
    else Outcome.ret G

/-- `intFindPrimitiveRoot(P)`, with `assert(intIsPrime(P))`. -/
def intFindPrimitiveRoot (S : Sources) (fuel n : Nat) (P : List Nat) : Outcome (List Nat) :=
  (intIsPrime S fuel P 0).bind fun v =>
    if v.1 = 0 then Outcome.abort
    else
      (intDecrement P).bind fun Phi =>
        (intCryptoRandom S Phi 0).bind fun g =>
          (intModExp g.1 g.2.1 P).bind fun w => rootLoop S n w.2 g.2.1 g.1 w.1 g.2.2

/-! ## Strings

A C string is the list of its bytes; reading stops at the first zero byte, or at the end
of the list, where the terminator stands. -/

/-- The bytes of a buffer up to the terminator. -/
def cstr (buffer : List Nat) : List Nat := buffer.takeWhile (· ≠ 0)

/-- The conversion `uint32_t newData = *(buffer++)` of a `char` holding the byte `b`.
Where plain `char` is signed (as on x86 Linux) a byte above `0x7F` is a negative `char`
and converts to `2^32 - 256 + b`; where it is unsigned the byte converts to itself. -/
def charToU32 (charSigned : Bool) (b : Nat) : Nat :=
  if charSigned ∧ b % 256 ≥ 128 then 2 ^ 32 - 256 + b % 256 else b % 256

/-- The loop `while (j--)` of `intEncodeString` on the rest of the buffer and the word of
the new node: the word, the rest of the buffer and `stillRunning`. -/
def encodeNode (charSigned : Bool) : Nat → List Nat → Nat → Nat × List Nat × Bool
  | 0, buffer, data => (data, buffer, true)
  | j + 1, buffer, data =>
    if charToU32 charSigned (buffer.headD 0) = 0 then
      ((data <<< (8 * (j + 1))) % WORD, buffer.tail, false)
    else
      encodeNode charSigned j buffer.tail
        (((data <<< 8) % WORD + charToU32 charSigned (buffer.headD 0)) % WORD)

/-- The loop `while (stillRunning)` of `intEncodeString`: the nodes made, in chain order.
Each pass takes at least one byte or meets the terminator, so a bound of one more than
the length of the buffer is never reached. -/
def encodeLoop (charSigned : Bool) : Nat → List Nat → List Nat
  | 0, _ => []
  | k + 1, buffer =>
    (encodeNode charSigned (INT_SIZE / 8) buffer 0).1 ::
      (if (encodeNode charSigned (INT_SIZE / 8) buffer 0).2.2 then
        encodeLoop charSigned k (encodeNode charSigned (INT_SIZE / 8) buffer 0).2.1
      else [])

/-- `intEncodeString(buffer)`: the chain is cut after the last nonzero node. -/
def intEncodeString (charSigned : Bool) (buffer : List Nat) : List Nat :=
  trim (encodeLoop charSigned (buffer.length + 1) buffer)

/-- The loop `while (j--)` of `intDecodeString`: `(unsigned char)(data >> 56)`, then
`data <<= 8`. -/
def decodeNode : Nat → Nat → List Nat
  | 0, _ => []
  | j + 1, data => (data >>> (8 * (INT_SIZE / 8 - 1))) % 256 :: decodeNode j ((data <<< 8) % WORD)

/-- `intDecodeString(X)`: the buffer returned, with its terminator. -/
def intDecodeString (X : List Nat) : List Nat :=
  (X.map (decodeNode (INT_SIZE / 8))).flatten ++ [0]

/-- The loop `while (currentNibble--)` of `textify`: the hexadecimal digit of the low
nibble, then `data >>= 4`. -/
def textifyNode : Nat → Nat → List Nat
  | 0, _ => []
  | k + 1, data =>
    (if data &&& 0xF < 10 then (data &&& 0xF) + 48 else (data &&& 0xF) + 55) ::
      textifyNode k (data >>> 4)

/-- `textify(currentNode, buffer)`: a space and sixteen digits, low nibble first, for
each node in chain order. -/
def textify : List Nat → List Nat
  | [] => []
  | d :: ds => 32 :: textifyNode 16 d ++ textify ds

/-- `intToString(X)`: the buffer returned.  The zero chain gives `"0"`; otherwise the
first byte written by `textify` is replaced by the terminator and the buffer reversed. -/
def intToString (X : List Nat) : List Nat :=
  if X = [] then [48, 0] else ((textify X).set 0 0).reverse

/-- The value of a character of `[0-9A-F]` as tested by `intFromString`. -/
def hexDigit (c : Nat) : Option Nat :=
  if 48 ≤ c ∧ c ≤ 57 then some (c - 48)
  else if 65 ≤ c ∧ c ≤ 70 then some (c - 55)
  else none

/-- Add `currentDigit << 4 * currentNibble` to the word of `currentNode`. -/
def addNibble (chain : List Nat) (d nibble : Nat) : List Nat :=
  match chain with
  | [] => []
  | h :: t => (h + (d <<< (4 * nibble)) % WORD) % WORD :: t

/-- The loop of `intFromString` on the rest of the buffer: `chain` is the list of nodes
from `currentNode` on (a new node goes in front), and `lastNode` is the head exactly when
`chain` is empty.  The result is the chain and `currentNibble`. -/
def fromStringLoop : List Nat → List Nat → Nat → List Nat × Nat
  | [], chain, nibble => (chain, nibble)
  | c :: cs, chain, nibble =>
    if c = 0 then (chain, nibble)
    else
      match hexDigit c with
      | none => fromStringLoop cs chain nibble
      | some d =>
        if chain = [] ∧ d = 0 then fromStringLoop cs chain nibble
        else if nibble = 0 then
          fromStringLoop cs (addNibble (0 :: chain) d (INT_SIZE / 4 - 1)) (INT_SIZE / 4 - 1)
        else fromStringLoop cs (addNibble chain d (nibble - 1)) (nibble - 1)

/-- `intFromString(buffer)`. -/
def intFromString (buffer : List Nat) : List Nat :=
  intRShift (fromStringLoop buffer [] 0).1 (4 * (fromStringLoop buffer [] 0).2)

/-! ## The drivers -/

/-- The arithmetic of `encryptWord` once `IntWord` and `Scramble` are known:
`ScrambleCipher`, `WordCipher`, and the chain left in `PrimeModulus`. -/
def encryptBlock (PrimeModulus Generator Exponential IntWord Scramble : List Nat) :
    Outcome (List Nat × List Nat × List Nat) :=
  (intModExp Generator Scramble PrimeModulus).bind fun c1 =>
    (intModExp Exponential Scramble c1.2).bind fun s =>
      (intMod (intMult IntWord s.1) s.2).bind fun c2 => Outcome.ret (c1.1, c2.1, c2.2)

/-- `encryptWord(word)`: the two strings printed.  `i` is the call number of `getrandom`. -/
def encryptWord (S : Sources) (charSigned : Bool) (PrimeModulus Generator Exponential : List Nat)
    (word : List Nat) (i : Nat) : Outcome (List Nat × List Nat) :=
  (intCryptoRandom S PrimeModulus i).bind fun k =>
    (encryptBlock k.2.1 Generator Exponential (intEncodeString charSigned word) k.1).bind
      fun c => Outcome.ret (intToString c.1, intToString c.2.1)

/-- The arithmetic of `decryptWord`: the chain `EncodedPlaintext`. -/
def decryptBlock (PrimeModulus Exponent ScrambleCipher WordCipher : List Nat) :
    Outcome (List Nat) :=
  (intDecrement PrimeModulus).bind fun p1 =>
    (intDecrement p1).bind fun PrimeModulusMinusTwo =>
      (intModExp ScrambleCipher Exponent PrimeModulus).bind fun Cipher =>
        (intModExp Cipher.1 PrimeModulusMinusTwo Cipher.2).bind fun CipherInverse =>
          (intMod (intMult WordCipher CipherInverse.1) CipherInverse.2).bind fun r =>
            Outcome.ret r.1

/-- `decryptWord(ScrambleCipher, WordCipher)`: the string printed. -/
def decryptWord (PrimeModulus Exponent ScrambleCipher WordCipher : List Nat) :
    Outcome (List Nat) :=
  (decryptBlock PrimeModulus Exponent ScrambleCipher WordCipher).bind fun m =>
    Outcome.ret (cstr (intDecodeString m))

/-! ## The number read by `intFromString` -/

/-- The number read from a string by `intFromString`, used in the proof of the round
trip: each character of `[0-9A-F]` appends a hexadecimal digit to `V`, every other
character is skipped. -/
def hexFold : List Nat → Nat → Nat
  | [], V => V
  | c :: cs, V =>
    match hexDigit c with
    | some d => hexFold cs (16 * V + d)
    | none => hexFold cs V

/-- The state of the loop of `intFromString` after reading the number `V`: the chain holds
`V * 16^currentNibble` in 64-bit words, its last node is not zero, and no node has been
made exactly when `currentNibble` is still `0` with `V = 0`. -/
def FromInv (chain : List Nat) (nibble V : Nat) : Prop :=
  Canonical chain ∧ value chain = V * 16 ^ nibble ∧ nibble < 16 ∧ (chain = [] → nibble = 0)

/-! ## Inputs of the runs evaluated below -/

/-- Random sources for the run of claim C9: `RAND_MAX` is the value of glibc, the fourth
call of `rand()` returns `16` and every other call `0`, so that the first witness of
`intIsPrime` on a chain of two nodes is `16`. -/
def sixteenSources : Sources := ⟨2147483647, fun i => if i = 3 then 16 else 0, fun _ _ => 0⟩

/-- Random sources for the runs of claims C8 and C10: `RAND_MAX` is the value of glibc,
every call of `rand()` returns `5`, and every call of `getrandom` delivers seven zero bytes
followed by the byte `b`, so that each node drawn by `intCryptoRandomNodes` is `b * 2^56`. -/
def fiveSources (b : Nat) : Sources :=
  ⟨2147483647, fun _ => 5, fun _ j => if j = 7 then b else 0⟩

/-! ## A device for evaluating powers in proofs -/

/-- Square-and-multiply on natural numbers, used only to evaluate powers modulo `m` in
the certificates of primality below: `acc * b ^ e` modulo `m`, for `e < 2 ^ fuel`. -/
def powModAux : Nat → Nat → Nat → Nat → Nat → Nat
  | 0, _, _, _, acc => acc
  | f + 1, b, e, m, acc =>
    powModAux f (b * b % m) (e / 2) m (if e % 2 = 1 then acc * b % m else acc)

/-! ## Calls of `getrandom` -/

/-- Random bytes for the run of claim C19: the first call of `getrandom` delivers zero
bytes only, and the second delivers seven zero bytes followed by `0xC0`, so that the two
nodes drawn by `intCryptoRandomNodes` are `0` and `3 * 2^62`. -/
def stuckSources : Sources :=
  ⟨2147483647, fun _ => 0, fun i j => if i = 1 ∧ j = 7 then 0xC0 else 0⟩

/-- One call `syscall(SYS_getrandom, &randomData, INT_SIZE / 4, 0)` as the kernel answers
it: `status` is the value the call returns, the number of bytes stored or `-1` for a
failure, `delivered` are the bytes the kernel has to give, and `stack` is the content of
the local array `randomData` before the call. -/
structure GetrandomCall where
  status : Int
  delivered : Nat → Nat
  stack : Nat → Nat

/-- The array `randomData` after the call: the kernel stores the first `status` bytes and
leaves the others as they were; `intCryptoRandomNodes` does not look at `status`. -/
def GetrandomCall.buffer (c : GetrandomCall) (j : Nat) : Nat :=
  if (j : Int) < c.status then c.delivered j else c.stack j

/-- The random sources seen by the program when call `i` of `getrandom` is `calls i`. -/
def callSources (calls : Nat → GetrandomCall) : Sources :=
  ⟨2147483647, fun _ => 0, fun i j => (calls i).buffer j⟩

/-- A failed call of `getrandom`: it returns `-1` and stores nothing, while the array
`randomData` holds seven zero bytes and the byte `0x28` left there by earlier code. -/
def failedCall (delivered : Nat → Nat) : GetrandomCall :=
  ⟨-1, delivered, fun j => if j = 7 then 0x28 else 0⟩

/-! ## The ends of a call of `intSub` -/

/-- How a call of `intSub` can end: a return, a loop without end, or a return after a
store into `rootZero`. -/
def SubEnds (o : Outcome (List Nat)) : Prop :=
  (∃ R, o = Outcome.ret R) ∨ o = Outcome.hang ∨ ∃ x r, o = Outcome.clobber x r

/-! ## The documented result of a comparison -/

/-- The result documented for `intFineCompare`: `0` if the two values are equal, `1` if
the first is greater, and `2` else. -/
def compareCode (a b : Nat) : Nat := if a = b then 0 else if a > b then 1 else 2

/-! ## The numbers the specification reads from and writes to strings -/

/-- The characters of a string that lie in `[0-9A-F]`, in order, as the specification of
the decoder selects them. -/
def specHexChars (s : List Nat) : List Nat :=
  s.filter fun c => (48 ≤ c ∧ c ≤ 57) ∨ (65 ≤ c ∧ c ≤ 70)

/-- The value of a character of `[0-9A-F]` as a hexadecimal digit. -/
def specHexValue (c : Nat) : Nat := if c ≤ 57 then c - 48 else c - 55

/-- The big-endian hexadecimal number formed by the characters of `s` in `[0-9A-F]`, as
the specification of the decoder states it. -/
def specHexNumber (s : List Nat) : Nat :=
  (specHexChars s).foldl (fun v c => 16 * v + specHexValue c) 0

/-- Random sources for the run of claim C28: `RAND_MAX` is the value of glibc; the fourth
call of `rand()` returns `8` and the eighth returns `20`, every other call `0`, so that
the first node drawn by `intPseudoRandom` is `8` and the second is `20`. -/
def eightSources : Sources :=
  ⟨2147483647, fun i => if i = 3 then 8 else if i = 7 then 20 else 0, fun _ _ => 0⟩

/-- The big-endian base-256 number of a list of bytes, first byte most significant, as the
specification of the packing states it. -/
def specBigEndian (bytes : List Nat) : Nat := bytes.foldl (fun v b => 256 * v + b) 0

/-- The character of a hexadecimal digit, `0-9` then uppercase `A-F`. -/
def specHexChar (v : Nat) : Nat := if v < 10 then v + 48 else v + 55

/-- The uppercase big-endian hexadecimal numeral of `n` written with `k` digits: the `k`
low digits of `n`, padded with zeros on the left when `n` has fewer. -/
def specHexNumeral : Nat → Nat → List Nat
  | 0, _ => []
  | k + 1, n => specHexNumeral k (n / 16) ++ [specHexChar (n % 16)]

/-- Groups of characters separated by exactly one space. -/
def specSpaced : List (List Nat) → List Nat
  | [] => []
  | [g] => g
  | g :: h :: t => g ++ 32 :: specSpaced (h :: t)

/-- Random sources for the second run of claim C28: `RAND_MAX` is the value of glibc, and
the calls of `rand()` are such that the three nodes drawn by `intPseudoRandom` are `3`,
`2^64 - 2` and `2`. -/
def aboveSources : Sources :=
  ⟨2147483647,
    fun i => if i = 3 then 3 else if i = 5 then 3 else if i = 6 then 2147483647
      else if i = 7 then 2147483646 else if i = 11 then 2 else 0,
    fun _ _ => 0⟩

/-! ## `intIsPrime` with the test of the witness against one

The source keeps, inside a comment, the test `if (intFineCompare(Witness, &chainOne) == 0)
{ intFree(Witness); goto NOT_PRIME; } else` in front of the test against `XMinusOne` in
the squaring loop.  The three definitions below are `squareLoop`, `primeRounds` and
`intIsPrime` with that test put back. -/

/-- The loop `while (currentExponent--)` with the commented-out test put back: a squared
witness equal to one leaves the loop with `false` at once. -/
def squareLoopShort (XMinusOne : List Nat) :
    Nat → List Nat → List Nat → Outcome (Bool × List Nat)
  | 0, _, X => Outcome.ret (false, X)
  | e + 1, Witness, X =>
    (intMod (intMult Witness Witness) X).bind fun r =>
      if intFineCompare r.1 [1] = 0 then Outcome.ret (false, r.2)
      else if intFineCompare r.1 XMinusOne = 0 then Outcome.ret (true, r.2)
      else squareLoopShort XMinusOne e r.1 r.2

/-- The loop `while (confidence--)` over `squareLoopShort`. -/
def primeRoundsShort (S : Sources) (fuel : Nat) (XMinusOne OddPart : List Nat)
    (twoExponent : Nat) : Nat → List Nat → List Nat → Nat → Outcome (Nat × Nat)
  | 0, _, _, i => Outcome.ret (1, i)
  | confidence + 1, X, XMinusTwo, i =>
    (intPseudoRandom S fuel XMinusTwo i).bind fun w =>
      (intModExp w.1 OddPart X).bind fun m =>
        if intFineCompare m.1 [1] = 0 ∨ intFineCompare m.1 XMinusOne = 0 then
          primeRoundsShort S fuel XMinusOne OddPart twoExponent confidence m.2 w.2.1 w.2.2
        else
          (squareLoopShort XMinusOne twoExponent m.1 m.2).bind fun q =>
            if q.1 then
              primeRoundsShort S fuel XMinusOne OddPart twoExponent confidence q.2 w.2.1 w.2.2
            else Outcome.ret (0, w.2.2)

/-- The function `intIsPrime(X)` over `primeRoundsShort`. -/
def intIsPrimeShort (S : Sources) (fuel : Nat) (X : List Nat) (i : Nat) :
    Outcome (Nat × Nat) :=
  (intDecrement X).bind fun XMinusOne =>
    (intDecrement XMinusOne).bind fun XMinusTwo =>
      (oddPartLoop (INT_SIZE * XMinusOne.length) XMinusOne 0).bind fun d =>
        primeRoundsShort S fuel XMinusOne d.1 d.2 PRIME_CONFIDENCE X XMinusTwo i

/-! # Theorems -/

/-! ## Sequencing -/

theorem Outcome.ret_bind {α β : Type} (a : α) (f : α → Outcome β) :
    (Outcome.ret a).bind f = f a := rfl

theorem Outcome.bind_assoc {α β γ : Type} (o : Outcome α) (f : α → Outcome β)
    (g : β → Outcome γ) : (o.bind f).bind g = o.bind fun a => (f a).bind g := by
  cases o <;> rfl

/-- The loop `while (bitCounter--)` run for `a + b` passes is the run for `a` passes
followed by the run for `b` passes on the bits left. -/
theorem modExpBits_add (a b : Nat) : ∀ bits W R Z : _, modExpBits (a + b) bits W R Z =
    (modExpBits a bits W R Z).bind fun s => modExpBits b (bits >>> a) s.1 s.2.1 s.2.2 := by
  induction a with
  | zero => intro bits W R Z; simp [modExpBits, Outcome.ret_bind]
  | succ a ih =>
    intro bits W R Z
    have hs : ∀ n : Nat, (n >>> 1) >>> a = n >>> (a + 1) := by
      intro n; rw [← Nat.shiftRight_add, Nat.add_comm]
    rw [show a + 1 + b = (a + b) + 1 by omega]
    simp only [modExpBits, Outcome.bind_assoc]
    congr 1
    funext wz
    by_cases hc : bits &&& 1 ≠ 0
    · simp only [if_pos hc, Outcome.bind_assoc]
      congr 1
      funext rz
      rw [ih, hs]
    · simp only [if_neg hc]
      rw [ih, hs]

theorem modExpBits_chain (a b bits : Nat) (W R Z : List Nat)
    (s1 s2 : List Nat × List Nat × List Nat)
    (h1 : modExpBits a bits W R Z = Outcome.ret s1)
    (h2 : modExpBits b (bits >>> a) s1.1 s1.2.1 s1.2.2 = Outcome.ret s2) :
    modExpBits (a + b) bits W R Z = Outcome.ret s2 := by
  rw [modExpBits_add, h1, Outcome.ret_bind, h2]

/-! ## Certificates of primality -/

theorem powModAux_eq (f : Nat) : ∀ b e m acc : Nat, e < 2 ^ f →
    powModAux f b e m acc % m = acc * b ^ e % m := by
  induction f with
  | zero =>
    intro b e m acc h
    have : e = 0 := by simpa using h
    subst this; simp [powModAux]
  | succ f ih =>
    intro b e m acc h
    have h2 : e / 2 < 2 ^ f := by
      rw [pow_succ] at h; omega
    rw [powModAux, ih _ _ _ _ h2]
    have hsq : Nat.ModEq m ((b * b % m) ^ (e / 2)) ((b * b) ^ (e / 2)) :=
      Nat.ModEq.pow _ (Nat.mod_modEq _ _)
    rcases Nat.mod_two_eq_zero_or_one e with h0 | h1
    · rw [if_neg (by omega)]
      have he : b ^ e = (b * b) ^ (e / 2) := by
        rw [← pow_two, ← pow_mul]; congr 1; omega
      rw [he]
      exact Nat.ModEq.mul_left _ hsq
    · rw [if_pos h1]
      have he : b ^ e = b * (b * b) ^ (e / 2) := by
        rw [← pow_two, ← pow_mul, ← pow_succ']; congr 1; omega
      rw [he, ← mul_assoc]
      exact Nat.ModEq.mul (Nat.mod_modEq _ _) hsq

/-- An evaluated power, moved to `ZMod p`. -/
theorem zmod_pow_eq (p b e v : Nat) (h : powModAux 128 b e p 1 % p = v % p)
    (he : e < 2 ^ 128) : ((b : ZMod p)) ^ e = (v : ZMod p) := by
  rw [powModAux_eq 128 b e p 1 he, one_mul] at h
  have := (ZMod.natCast_eq_natCast_iff' (b ^ e) v p).2 h
  simpa using this

/-- An evaluated power that is not `1` modulo `p`. -/
theorem zmod_pow_ne_one (p b e v : Nat) (h : powModAux 128 b e p 1 % p = v % p)
    (he : e < 2 ^ 128) (hv : v % p ≠ 1 % p) : ((b : ZMod p)) ^ e ≠ 1 := by
  rw [zmod_pow_eq p b e v h he]
  intro h1
  exact hv ((ZMod.natCast_eq_natCast_iff' v 1 p).1 (by simpa using h1))

theorem keyPrime_sub : 16210220612075905069 - 1 = 2 ^ 2 * 3 ^ 39 := by decide

theorem keyPrime_fermat :
    ((10 : Nat) : ZMod 16210220612075905069) ^ (16210220612075905069 - 1) = 1 := by
  rw [zmod_pow_eq 16210220612075905069 10 _ 1 (by decide!) (by decide)]; simp

theorem keyPrime_lucas (q : Nat) (hq : q.Prime) (hd : q ∣ 16210220612075905069 - 1) :
    ((10 : Nat) : ZMod 16210220612075905069) ^ ((16210220612075905069 - 1) / q) ≠ 1 := by
  rw [keyPrime_sub] at hd
  rcases (Nat.Prime.dvd_mul hq).1 hd with h | h
  · have := (Nat.prime_dvd_prime_iff_eq hq Nat.prime_two).1 (hq.dvd_of_dvd_pow h)
    subst this
    exact zmod_pow_ne_one _ 10 _ (16210220612075905069 - 1) (by decide!) (by decide) (by decide)
  · have := (Nat.prime_dvd_prime_iff_eq hq Nat.prime_three).1 (hq.dvd_of_dvd_pow h)
    subst this
    exact zmod_pow_ne_one _ 10 _ 8105110302551168133 (by decide!) (by decide) (by decide)

/-- `2^2 * 3^39 + 1` is prime (Lucas test with base 10). -/
theorem keyPrime_prime : Nat.Prime 16210220612075905069 :=
  lucas_primality _ _ keyPrime_fermat keyPrime_lucas

/-- `10` is a primitive root modulo `2^2 * 3^39 + 1`. -/
theorem keyPrime_root :
    orderOf ((10 : Nat) : ZMod 16210220612075905069) = 16210220612075905069 - 1 :=
  orderOf_eq_of_pow_and_pow_div_prime (by decide) keyPrime_fermat keyPrime_lucas


theorem rejectedPrime_sub : 75064475242840781251 - 1 = 2 * 3 ^ 29 * 5 ^ 7 * 7 := by decide

theorem rejectedPrime_fermat :
    ((3 : Nat) : ZMod 75064475242840781251) ^ (75064475242840781251 - 1) = 1 := by
  rw [zmod_pow_eq 75064475242840781251 3 _ 1 (by decide!) (by decide)]; simp

theorem rejectedPrime_lucas (q : Nat) (hq : q.Prime) (hd : q ∣ 75064475242840781251 - 1) :
    ((3 : Nat) : ZMod 75064475242840781251) ^ ((75064475242840781251 - 1) / q) ≠ 1 := by
  rw [rejectedPrime_sub] at hd
  rcases (Nat.Prime.dvd_mul hq).1 hd with h | h
  · rcases (Nat.Prime.dvd_mul hq).1 h with h | h
    · rcases (Nat.Prime.dvd_mul hq).1 h with h | h
      · have := (Nat.prime_dvd_prime_iff_eq hq Nat.prime_two).1 h
        subst this
        exact zmod_pow_ne_one _ 3 _ 75064475242840781250 (by decide!) (by decide) (by decide)
      · have := (Nat.prime_dvd_prime_iff_eq hq Nat.prime_three).1 (hq.dvd_of_dvd_pow h)
        subst this
        exact zmod_pow_ne_one _ 3 _ 25115230338840355180 (by decide!) (by decide) (by decide)
    · have := (Nat.prime_dvd_prime_iff_eq hq Nat.prime_five).1 (hq.dvd_of_dvd_pow h)
      subst this
      exact zmod_pow_ne_one _ 3 _ 67727010093150135741 (by decide!) (by decide) (by decide)
  · have := (Nat.prime_dvd_prime_iff_eq hq (by norm_num : Nat.Prime 7)).1 h
    subst this
    exact zmod_pow_ne_one _ 3 _ 6311876436138057433 (by decide!) (by decide) (by decide)

/-- `2 * 3^29 * 5^7 * 7 + 1` is prime (Lucas test with base 3). -/
theorem rejectedPrime_prime : Nat.Prime 75064475242840781251 :=
  lucas_primality _ _ rejectedPrime_fermat rejectedPrime_lucas

/-! ## The borrow of `intSub` -/

/-- A pass of `intAdd` on a fresh node (`x = 0`, `y = 0`) leaves no carry. -/
theorem addStep_fresh (c : Nat) : (addStep 0 0 c).2 = 0 := by
  simp [addStep]

/-- With both cursors of `intSub` on `rootZero` and carry `1`, the state `(UINT_MAX, 1)`
is a fixed point of the pass. -/
theorem subStep_sentinel_fixed : subStep UINT_MAX UINT_MAX 1 = (UINT_MAX, 1) := by
  decide

/-- With both cursors of `intSub` on `rootZero`, a pass that leaves the carry set leaves
the fixed point `(UINT_MAX, 1)`, whatever word the terminator held. -/
theorem subStep_sentinel_hang (rz c : Nat)
    (h : (subStep rz rz c).2 ≠ 0) : subStep rz rz c = (UINT_MAX, 1) := by
  unfold subStep UINT_MAX WORD at *
  simp only [lt_self_iff_false, if_false, zero_add] at h ⊢
  split at h
  · next h1 => norm_num at h1 ⊢; omega
  · exact absurd rfl h

/-- The pass of `intSub` reports a borrow that did not happen: `UINT_MAX - 0` with no
carry in leaves `UINT_MAX` and carry `1`. -/
theorem subStep_false_borrow : subStep UINT_MAX 0 0 = (UINT_MAX, 1) := by
  decide

/-- The pass of `intSub` reports a double borrow: `0 - 1` with no carry in leaves
`UINT_MAX` and carry `2`. -/
theorem subStep_double_borrow : subStep 0 1 0 = (UINT_MAX, 2) := by
  decide

/-! ## Values and words -/

theorem WORD_eq : WORD = 18446744073709551616 := by decide

theorem WORD_pos : 0 < WORD := by decide

theorem words_nil : Words [] := by
  intro d hd; cases hd

theorem words_cons {x : Nat} {xs : List Nat} : Words (x :: xs) ↔ x < WORD ∧ Words xs := by
  unfold Words
  simp

theorem words_tail {X : List Nat} (h : Words X) : Words X.tail := by
  cases X with
  | nil => exact h
  | cons x xs => exact (words_cons.1 h).2

theorem headD_lt {X : List Nat} (h : Words X) : X.headD 0 < WORD := by
  cases X with
  | nil => exact WORD_pos
  | cons x xs => exact (words_cons.1 h).1

theorem value_headD_tail (X : List Nat) : X.headD 0 + WORD * value X.tail = value X := by
  cases X <;> simp [value]

theorem words_append {X Y : List Nat} : Words (X ++ Y) ↔ Words X ∧ Words Y := by
  unfold Words
  simp only [List.mem_append]
  constructor
  · intro h; exact ⟨fun d hd => h d (Or.inl hd), fun d hd => h d (Or.inr hd)⟩
  · rintro ⟨h1, h2⟩ d (hd | hd)
    · exact h1 d hd
    · exact h2 d hd

theorem value_append (X Y : List Nat) :
    value (X ++ Y) = value X + WORD ^ X.length * value Y := by
  induction X with
  | nil => simp [value]
  | cons x xs ih =>
    show x + WORD * value (xs ++ Y) = x + WORD * value xs + WORD ^ (xs.length + 1) * value Y
    rw [ih, pow_succ]; ring

theorem value_replicate_zero (n : Nat) : value (List.replicate n 0) = 0 := by
  induction n with
  | zero => rfl
  | succ n ih => simp [List.replicate_succ, value, ih]

/-! ## `intAdd` -/

theorem addStep_spec (x y c : Nat) (hx : x < WORD) (hy : y < WORD) (hc : c ≤ 1) :
    (addStep x y c).1 + WORD * (addStep x y c).2 = x + y + c ∧
    (addStep x y c).1 < WORD ∧ (addStep x y c).2 ≤ 1 := by
  unfold addStep
  simp only [WORD_eq] at *
  split_ifs <;> omega

theorem addCarry_spec : ∀ (xs : List Nat) (c : Nat), Words xs → c ≤ 1 →
    value (addCarry xs c) = value xs + c ∧ Words (addCarry xs c) := by
  intro xs
  induction xs with
  | nil =>
    intro c _ hc
    cases c with
    | zero => exact ⟨rfl, words_nil⟩
    | succ c =>
      have h := addStep_spec 0 0 (c + 1) WORD_pos WORD_pos hc
      have h0 := addStep_fresh (c + 1)
      simp only [addCarry, value]
      rw [h0] at h
      refine ⟨by omega, ?_⟩
      exact words_cons.2 ⟨h.2.1, words_nil⟩
  | cons x xs ih =>
    intro c hw hc
    cases c with
    | zero => exact ⟨rfl, hw⟩
    | succ c =>
      obtain ⟨hx, hxs⟩ := words_cons.1 hw
      have h := addStep_spec x 0 (c + 1) hx WORD_pos hc
      obtain ⟨hv, hw2⟩ := ih (addStep x 0 (c + 1)).2 hxs h.2.2
      simp only [addCarry, value, hv]
      refine ⟨?_, words_cons.2 ⟨h.2.1, hw2⟩⟩
      have := h.1
      rw [Nat.mul_add]
      omega

theorem addLoop_spec : ∀ (ys xs : List Nat) (c : Nat), Words xs → Words ys → c ≤ 1 →
    value (addLoop xs ys c) = value xs + value ys + c ∧ Words (addLoop xs ys c) := by
  intro ys
  induction ys with
  | nil =>
    intro xs c hx _ hc
    simpa [addLoop, value] using addCarry_spec xs c hx hc
  | cons y ys ih =>
    intro xs c hx hy hc
    obtain ⟨hy0, hys⟩ := words_cons.1 hy
    have h := addStep_spec (xs.headD 0) y c (headD_lt hx) hy0 hc
    obtain ⟨hv, hw⟩ := ih xs.tail (addStep (xs.headD 0) y c).2 (words_tail hx) hys h.2.2
    simp only [addLoop, value, hv]
    refine ⟨?_, words_cons.2 ⟨h.2.1, hw⟩⟩
    have h1 := h.1
    have h2 := value_headD_tail xs
    rw [Nat.mul_add, Nat.mul_add]
    omega

/-- `intAdd` adds: on chains of 64-bit words the chain left in `X` denotes the sum. -/
theorem intAdd_value (X Y : List Nat) (hX : Words X) (hY : Words Y) :
    value (intAdd X Y) = value X + value Y ∧ Words (intAdd X Y) := by
  simpa [intAdd] using addLoop_spec Y X 0 hX hY (Nat.zero_le 1)

/-! ## `intScale` -/

theorem scaleStep_spec (x scalarLow scalarHigh carry : Nat) (hx : x < WORD)
    (hl : scalarLow < 2 ^ 32) (hh : scalarHigh < 2 ^ 32) (hc : carry < WORD) :
    (scaleStep x scalarLow scalarHigh carry).1 + WORD * (scaleStep x scalarLow scalarHigh carry).2 =
      x * (scalarLow + 2 ^ 32 * scalarHigh) + carry ∧
    (scaleStep x scalarLow scalarHigh carry).1 < WORD ∧
    (scaleStep x scalarLow scalarHigh carry).2 < WORD := by
  have hxl : x % 2 ^ 32 ≤ 2 ^ 32 - 1 := by omega
  have hxh : x / 2 ^ 32 ≤ 2 ^ 32 - 1 := by
    rw [WORD_eq] at hx; omega
  have hsl : scalarLow ≤ 2 ^ 32 - 1 := by omega
  have hsh : scalarHigh ≤ 2 ^ 32 - 1 := by omega
  have ha : x % 2 ^ 32 * scalarLow ≤ (2 ^ 32 - 1) * (2 ^ 32 - 1) := Nat.mul_le_mul hxl hsl
  have hb : x % 2 ^ 32 * scalarHigh ≤ (2 ^ 32 - 1) * (2 ^ 32 - 1) := Nat.mul_le_mul hxl hsh
  have hcc : x / 2 ^ 32 * scalarLow ≤ (2 ^ 32 - 1) * (2 ^ 32 - 1) := Nat.mul_le_mul hxh hsl
  have hd : x / 2 ^ 32 * scalarHigh ≤ (2 ^ 32 - 1) * (2 ^ 32 - 1) := Nat.mul_le_mul hxh hsh
  have hprod : x * (scalarLow + 2 ^ 32 * scalarHigh) =
      x % 2 ^ 32 * scalarLow + 2 ^ 32 * (x % 2 ^ 32 * scalarHigh + x / 2 ^ 32 * scalarLow) +
        2 ^ 64 * (x / 2 ^ 32 * scalarHigh) := by
    have hx2 : x = x % 2 ^ 32 + 2 ^ 32 * (x / 2 ^ 32) := (Nat.mod_add_div x (2 ^ 32)).symm
    generalize x % 2 ^ 32 = xl at hx2 ⊢
    generalize x / 2 ^ 32 = xh at hx2 ⊢
    subst hx2
    ring
  rw [hprod]
  unfold scaleStep
  simp only [Nat.shiftRight_eq_div_pow, Nat.shiftLeft_eq]
  generalize x % 2 ^ 32 * scalarLow = a at ha ⊢
  generalize x % 2 ^ 32 * scalarHigh = b at hb ⊢
  generalize x / 2 ^ 32 * scalarLow = c at hcc ⊢
  generalize x / 2 ^ 32 * scalarHigh = d at hd ⊢
  simp only [WORD_eq] at *
  norm_num at *
  split_ifs <;> omega

/-- A pass of `intScale` on a fresh node stores the carry and leaves no carry. -/
theorem scaleStep_fresh (scalarLow scalarHigh carry : Nat) (hc : carry < WORD) :
    scaleStep 0 scalarLow scalarHigh carry = (carry, 0) := by
  unfold scaleStep
  simp only [WORD_eq] at *
  norm_num
  have := Nat.mod_eq_of_lt hc
  constructor
  · omega
  · rw [this]; simp

theorem scaleLoop_spec (scalarLow scalarHigh : Nat) (hl : scalarLow < 2 ^ 32)
    (hh : scalarHigh < 2 ^ 32) : ∀ (xs : List Nat) (carry : Nat), Words xs → carry < WORD →
    value (scaleLoop scalarLow scalarHigh xs carry) =
      value xs * (scalarLow + 2 ^ 32 * scalarHigh) + carry ∧
    Words (scaleLoop scalarLow scalarHigh xs carry) := by
  intro xs
  induction xs with
  | nil =>
    intro carry _ hc
    unfold scaleLoop scaleCarry
    by_cases h0 : carry = 0
    · simp [h0, value, words_nil]
    · rw [if_neg h0, scaleStep_fresh _ _ _ hc]
      simp only [value]
      exact ⟨by omega, words_cons.2 ⟨hc, words_nil⟩⟩
  | cons x xs ih =>
    intro carry hw hc
    obtain ⟨hx, hxs⟩ := words_cons.1 hw
    have h := scaleStep_spec x scalarLow scalarHigh carry hx hl hh hc
    obtain ⟨hv, hw2⟩ := ih (scaleStep x scalarLow scalarHigh carry).2 hxs h.2.2
    simp only [scaleLoop, value, hv]
    refine ⟨?_, words_cons.2 ⟨h.2.1, hw2⟩⟩
    have h1 := h.1
    generalize scalarLow + 2 ^ 32 * scalarHigh = s at h1 ⊢
    generalize (scaleStep x scalarLow scalarHigh carry).1 = d at h1 ⊢
    generalize (scaleStep x scalarLow scalarHigh carry).2 = c at h1 ⊢
    have : WORD * (value xs * s + c) = WORD * c + WORD * value xs * s := by ring
    rw [this, Nat.add_mul]
    have : WORD * value xs * s = WORD * value xs * s := rfl
    omega

/-- `intScale` multiplies by the scalar. -/
theorem intScale_value (X : List Nat) (scalar : Nat) (hX : Words X) (hs : scalar < WORD) :
    value (intScale X scalar) = value X * scalar ∧ Words (intScale X scalar) := by
  unfold intScale
  by_cases h0 : scalar = 0
  · simp [h0, value, words_nil]
  · rw [if_neg h0]
    by_cases h1 : X = [] ∨ scalar = 1
    · rw [if_pos h1]
      rcases h1 with h | h
      · subst h; simp [value, words_nil]
      · subst h; simp [hX]
    · rw [if_neg h1]
      have hl : scalar % 2 ^ 32 < 2 ^ 32 := Nat.mod_lt _ (by norm_num)
      have hh : scalar >>> (INT_SIZE / 2) < 2 ^ 32 := by
        rw [Nat.shiftRight_eq_div_pow]
        rw [WORD_eq] at hs
        show scalar / 2 ^ 32 < 2 ^ 32
        omega
      have hsum : scalar % 2 ^ 32 + 2 ^ 32 * (scalar >>> (INT_SIZE / 2)) = scalar := by
        rw [Nat.shiftRight_eq_div_pow]
        exact Nat.mod_add_div scalar (2 ^ 32)
      have h := scaleLoop_spec _ _ hl hh X 0 hX WORD_pos
      rw [hsum] at h
      simpa using h

/-! ## `intLShiftLarge` -/

theorem intLShiftLarge_value (X : List Nat) (n : Nat) (hX : Words X) :
    value (intLShiftLarge X n) = value X * WORD ^ n ∧ Words (intLShiftLarge X n) := by
  unfold intLShiftLarge
  by_cases h : X = []
  · subst h; simp [value, words_nil]
  · rw [if_neg h, value_append, value_replicate_zero, List.length_replicate]
    refine ⟨by ring, words_append.2 ⟨?_, hX⟩⟩
    intro d hd
    rw [(List.mem_replicate.1 hd).2]
    exact WORD_pos

/-! ## `intMult` -/

theorem multLoop_spec (Y : List Nat) (hY : Words Y) :
    ∀ (xs : List Nat) (significance : Nat) (Product Component : List Nat),
    Words xs → Words Product →
    value (multLoop Y xs significance Product Component) =
      value Product + value xs * WORD ^ significance * value Y ∧
    Words (multLoop Y xs significance Product Component) := by
  intro xs
  induction xs with
  | nil =>
    intro significance Product Component _ hP
    simp [multLoop, value, hP]
  | cons x xs ih =>
    intro significance Product Component hw hP
    obtain ⟨hx, hxs⟩ := words_cons.1 hw
    have hs := intScale_value (intOverwrite Component Y) x hY hx
    have hl := intLShiftLarge_value (intScale (intOverwrite Component Y) x) significance hs.2
    have ha := intAdd_value Product _ hP hl.2
    obtain ⟨hv, hw2⟩ := ih (significance + 1) _
      (intLShiftLarge (intScale (intOverwrite Component Y) x) significance) hxs ha.2
    simp only [multLoop]
    refine ⟨?_, hw2⟩
    rw [hv, ha.1, hl.1, hs.1]
    simp only [intOverwrite, value, pow_succ]
    ring

/-- `intMult` multiplies: on chains of 64-bit words the chain returned denotes the
product. -/
theorem intMult_value (X Y : List Nat) (hX : Words X) (hY : Words Y) :
    value (intMult X Y) = value X * value Y ∧ Words (intMult X Y) := by
  unfold intMult
  by_cases h : Y = [] ∨ X = []
  · rw [if_pos h]
    rcases h with h | h <;> subst h <;> simp [value, words_nil]
  · rw [if_neg h]
    have := multLoop_spec Y hY X 0 [] [] hX words_nil
    simpa [value] using this

/-! ## Canonical chains -/

theorem getLast?_cons_ne_nil {x : Nat} {xs : List Nat} (h : xs ≠ []) :
    (x :: xs).getLast? = xs.getLast? := by
  cases xs with
  | nil => exact absurd rfl h
  | cons y ys => rfl

theorem canonical_nil : Canonical [] := ⟨words_nil, by simp⟩

theorem canonical_tail {x : Nat} {xs : List Nat} (h : Canonical (x :: xs)) : Canonical xs := by
  refine ⟨(words_cons.1 h.1).2, ?_⟩
  cases xs with
  | nil => simp
  | cons y ys => exact h.2

theorem canonical_value_zero : ∀ X : List Nat, Canonical X → value X = 0 → X = [] := by
  intro X
  induction X with
  | nil => intros; rfl
  | cons x xs ih =>
    intro hc hv
    simp only [value] at hv
    have hW := WORD_pos
    have hx : x = 0 := by omega
    have hxs : value xs = 0 := by
      rcases Nat.eq_zero_or_pos (value xs) with h | h
      · exact h
      · have : 0 < WORD * value xs := Nat.mul_pos hW h
        omega
    have := ih (canonical_tail hc) hxs
    subst this; subst hx
    exact absurd rfl hc.2

/-- A number has one canonical chain. -/
theorem canonical_unique : ∀ X Y : List Nat, Canonical X → Canonical Y →
    value X = value Y → X = Y := by
  intro X
  induction X with
  | nil =>
    intro Y _ hY hv
    exact (canonical_value_zero Y hY hv.symm).symm
  | cons x xs ih =>
    intro Y hX hY hv
    cases Y with
    | nil => exact canonical_value_zero _ hX hv
    | cons y ys =>
      simp only [value] at hv
      have hx := (words_cons.1 hX.1).1
      have hy := (words_cons.1 hY.1).1
      have h1 : x = y := by
        have := congrArg (· % WORD) hv
        simp only [Nat.add_mul_mod_self_left] at this
        rwa [Nat.mod_eq_of_lt hx, Nat.mod_eq_of_lt hy] at this
      subst h1
      have h2 : value xs = value ys := by
        have : WORD * value xs = WORD * value ys := by omega
        exact Nat.eq_of_mul_eq_mul_left WORD_pos this
      rw [ih ys (canonical_tail hX) (canonical_tail hY) h2]

/-! ## `intRShiftSmall` -/

theorem rshift_arith (p q d e v : Nat) (hp : 0 < p) :
    (d + p * q * (e + p * q * v)) / p = d / p + e % p * q + p * q * ((e + p * q * v) / p) := by
  have h1 : (d + p * q * (e + p * q * v)) / p = d / p + q * (e + p * q * v) := by
    rw [show p * q * (e + p * q * v) = p * (q * (e + p * q * v)) by ring,
      Nat.add_mul_div_left _ _ hp]
  have h2 : (e + p * q * v) % p = e % p := by
    rw [show p * q * v = p * (q * v) by ring, Nat.add_mul_mod_self_left]
  have h3 := Nat.mod_add_div (e + p * q * v) p
  rw [h2] at h3
  rw [h1]
  conv_lhs => rw [← h3]
  ring

theorem rshiftNodes_eq_nil (n x : Nat) (xs : List Nat) :
    rshiftNodes n (x :: xs) = [] ↔ xs = [] ∧ x >>> n = 0 := by
  cases xs with
  | nil =>
    simp only [rshiftNodes, true_and]
    split_ifs with h <;> simp [h]
  | cons y ys => simp [rshiftNodes]

theorem rshiftNodes_spec (n : Nat) (hn0 : 0 < n) (hn : n < 64) : ∀ X : List Nat,
    Canonical X → value (rshiftNodes n X) = value X / 2 ^ n ∧ Canonical (rshiftNodes n X) := by
  have hpq : 2 ^ n * 2 ^ (64 - n) = WORD := by
    rw [← pow_add, WORD]; congr 1; omega
  have hp : 0 < 2 ^ n := pow_pos (by norm_num) n
  have hq : 0 < 2 ^ (64 - n) := pow_pos (by norm_num) _
  intro X
  induction X with
  | nil => intro _; exact ⟨by simp [rshiftNodes, value], canonical_nil⟩
  | cons d rest ih =>
    intro hc
    have hd := (words_cons.1 hc.1).1
    cases rest with
    | nil =>
      have hd0 : d ≠ 0 := by
        intro h; subst h; exact hc.2 rfl
      simp only [rshiftNodes, Nat.shiftRight_eq_div_pow]
      split_ifs with h
      · simp [value, h, canonical_nil]
      · simp only [value, Nat.mul_zero, Nat.add_zero, true_and]
        refine ⟨words_cons.2 ⟨lt_of_le_of_lt (Nat.div_le_self _ _) hd, words_nil⟩, ?_⟩
        simp [h]
    | cons e rest =>
      have hct := canonical_tail hc
      have he := (words_cons.1 hct.1).1
      obtain ⟨ihv, ihc⟩ := ih hct
      have hhead : ((d >>> n) + (e <<< (INT_SIZE - n)) % WORD) % WORD =
          d / 2 ^ n + e % 2 ^ n * 2 ^ (64 - n) := by
        rw [Nat.shiftRight_eq_div_pow, Nat.shiftLeft_eq]
        show (d / 2 ^ n + e * 2 ^ (64 - n) % WORD) % WORD = _
        rw [← hpq, Nat.mul_mod_mul_right]
        apply Nat.mod_eq_of_lt
        have h1 : d / 2 ^ n < 2 ^ (64 - n) := by
          rw [Nat.div_lt_iff_lt_mul hp, Nat.mul_comm, hpq]; exact hd
        have h2 : e % 2 ^ n ≤ 2 ^ n - 1 := by
          have := Nat.mod_lt e hp; omega
        calc d / 2 ^ n + e % 2 ^ n * 2 ^ (64 - n)
            < 2 ^ (64 - n) + (2 ^ n - 1) * 2 ^ (64 - n) :=
              Nat.add_lt_add_of_lt_of_le h1 (Nat.mul_le_mul_right _ h2)
          _ = 2 ^ n * 2 ^ (64 - n) := by
              rw [Nat.sub_mul, Nat.one_mul]
              have : 2 ^ (64 - n) ≤ 2 ^ n * 2 ^ (64 - n) := Nat.le_mul_of_pos_left _ hp
              omega
      have hlt : d / 2 ^ n + e % 2 ^ n * 2 ^ (64 - n) < WORD := by
        rw [← hhead]; exact Nat.mod_lt _ WORD_pos
      rw [show rshiftNodes n (d :: e :: rest) =
        ((d >>> n) + (e <<< (INT_SIZE - n)) % WORD) % WORD :: rshiftNodes n (e :: rest) from rfl,
        hhead]
      refine ⟨?_, words_cons.2 ⟨hlt, ihc.1⟩, ?_⟩
      · simp only [value] at ihv ⊢
        rw [ihv, ← hpq]
        exact (rshift_arith (2 ^ n) (2 ^ (64 - n)) d e (value rest) hp).symm
      · by_cases hnil : rshiftNodes n (e :: rest) = []
        · rw [hnil]
          obtain ⟨hr, hz⟩ := (rshiftNodes_eq_nil n e rest).1 hnil
          subst hr
          have he0 : e ≠ 0 := by
            intro h; subst h; exact hct.2 rfl
          rw [Nat.shiftRight_eq_div_pow] at hz
          have hlt2 : e < 2 ^ n := (Nat.div_eq_zero_iff hp).1 hz
          rw [Nat.mod_eq_of_lt hlt2]
          simp only [List.getLast?_singleton, ne_eq, Option.some.injEq]
          have hpos : 0 < e * 2 ^ (64 - n) := Nat.mul_pos (Nat.pos_of_ne_zero he0) hq
          intro h0
          have := Nat.le_add_left (e * 2 ^ (64 - n)) (d / 2 ^ n)
          rw [h0] at this
          exact absurd hpos (Nat.not_lt.2 this)
        · rw [getLast?_cons_ne_nil hnil]
          exact ihc.2

/-! ## Canonical results of `intAdd`, `intScale`, `intLShiftLarge`, `intMult` -/

theorem getLast?_cons_rest {d : Nat} {rest : List Nat} (h1 : rest = [] → d ≠ 0)
    (h2 : rest.getLast? ≠ some 0) : (d :: rest).getLast? ≠ some 0 := by
  cases rest with
  | nil =>
    simp only [List.getLast?_singleton, ne_eq, Option.some.injEq]
    exact h1 rfl
  | cons y ys => exact h2

theorem getLast?_tail {X : List Nat} (h : X.getLast? ≠ some 0) : X.tail.getLast? ≠ some 0 := by
  cases X with
  | nil => exact h
  | cons x xs =>
    cases xs with
    | nil => simp
    | cons y ys => exact h

theorem head_ne_zero_of_tail_nil {X : List Nat} (h : X.getLast? ≠ some 0) (hne : X ≠ [])
    (ht : X.tail = []) : X.headD 0 ≠ 0 := by
  cases X with
  | nil => exact absurd rfl hne
  | cons x xs =>
    simp only [List.tail_cons] at ht
    subst ht
    intro h0
    simp only [List.headD_cons] at h0
    subst h0
    exact h rfl

theorem addCarry_eq_nil {xs : List Nat} {c : Nat} (h : addCarry xs c = []) :
    xs = [] ∧ c = 0 := by
  cases xs <;> cases c <;> simp_all [addCarry]

theorem addCarry_last : ∀ (xs : List Nat) (c : Nat), Words xs → c ≤ 1 →
    xs.getLast? ≠ some 0 → (addCarry xs c).getLast? ≠ some 0 := by
  intro xs
  induction xs with
  | nil =>
    intro c _ hc _
    cases c with
    | zero => simp [addCarry]
    | succ c =>
      have h := addStep_spec 0 0 (c + 1) WORD_pos WORD_pos hc
      rw [addStep_fresh] at h
      simp only [addCarry, List.getLast?_singleton, ne_eq, Option.some.injEq]
      omega
  | cons x xs ih =>
    intro c hw hc hl
    cases c with
    | zero => exact hl
    | succ c =>
      obtain ⟨hx, hxs⟩ := words_cons.1 hw
      have h := addStep_spec x 0 (c + 1) hx WORD_pos hc
      simp only [addCarry]
      apply getLast?_cons_rest
      · intro hnil
        obtain ⟨h1, h2⟩ := addCarry_eq_nil hnil
        rw [h2] at h
        omega
      · exact ih _ hxs h.2.2 (getLast?_tail hl)

theorem addLoop_last : ∀ (ys xs : List Nat) (c : Nat), Words xs → Words ys → c ≤ 1 →
    xs.getLast? ≠ some 0 → ys.getLast? ≠ some 0 → (addLoop xs ys c).getLast? ≠ some 0 := by
  intro ys
  induction ys with
  | nil =>
    intro xs c hx _ hc hlx _
    exact addCarry_last xs c hx hc hlx
  | cons y ys ih =>
    intro xs c hx hy hc hlx hly
    obtain ⟨hy0, hys⟩ := words_cons.1 hy
    have h := addStep_spec (xs.headD 0) y c (headD_lt hx) hy0 hc
    simp only [addLoop]
    apply getLast?_cons_rest
    · intro hnil
      cases ys with
      | nil =>
        have hyne : y ≠ 0 := by
          intro h0; subst h0; exact hly rfl
        have hnil2 : addCarry xs.tail (addStep (xs.headD 0) y c).2 = [] := hnil
        obtain ⟨_, h2⟩ := addCarry_eq_nil hnil2
        rw [h2] at h
        omega
      | cons z zs => simp [addLoop] at hnil
    · exact ih _ _ (words_tail hx) hys h.2.2 (getLast?_tail hlx) (getLast?_tail hly)

/-- `intAdd` keeps the chain canonical. -/
theorem intAdd_canonical (X Y : List Nat) (hX : Canonical X) (hY : Canonical Y) :
    Canonical (intAdd X Y) :=
  ⟨(intAdd_value X Y hX.1 hY.1).2, addLoop_last Y X 0 hX.1 hY.1 (Nat.zero_le 1) hX.2 hY.2⟩

theorem scaleLoop_eq_nil {sl sh : Nat} {xs : List Nat} {c : Nat}
    (h : scaleLoop sl sh xs c = []) : xs = [] ∧ c = 0 := by
  cases xs with
  | nil =>
    refine ⟨rfl, ?_⟩
    by_contra hc
    simp [scaleLoop, scaleCarry, hc] at h
  | cons x xs => simp [scaleLoop] at h

theorem scaleLoop_last (scalarLow scalarHigh : Nat) (hl : scalarLow < 2 ^ 32)
    (hh : scalarHigh < 2 ^ 32) (hs : 0 < scalarLow + 2 ^ 32 * scalarHigh) :
    ∀ (xs : List Nat) (carry : Nat), Words xs → carry < WORD → xs.getLast? ≠ some 0 →
    (scaleLoop scalarLow scalarHigh xs carry).getLast? ≠ some 0 := by
  intro xs
  induction xs with
  | nil =>
    intro carry _ hc _
    unfold scaleLoop scaleCarry
    by_cases h0 : carry = 0
    · simp [h0]
    · rw [if_neg h0, scaleStep_fresh _ _ _ hc]
      simpa using h0
  | cons x xs ih =>
    intro carry hw hc hlast
    obtain ⟨hx, hxs⟩ := words_cons.1 hw
    have h := scaleStep_spec x scalarLow scalarHigh carry hx hl hh hc
    simp only [scaleLoop]
    apply getLast?_cons_rest
    · intro hnil
      obtain ⟨h1, h2⟩ := scaleLoop_eq_nil hnil
      subst h1
      have hx0 : x ≠ 0 := by
        intro h0; subst h0; exact hlast rfl
      have hpos : 0 < x * (scalarLow + 2 ^ 32 * scalarHigh) :=
        Nat.mul_pos (Nat.pos_of_ne_zero hx0) hs
      have h1 := h.1
      rw [h2] at h1
      omega
    · exact ih _ hxs h.2.2 (getLast?_tail hlast)

/-- `intScale` keeps the chain canonical. -/
theorem intScale_canonical (X : List Nat) (scalar : Nat) (hX : Canonical X)
    (hs : scalar < WORD) : Canonical (intScale X scalar) := by
  refine ⟨(intScale_value X scalar hX.1 hs).2, ?_⟩
  unfold intScale
  by_cases h0 : scalar = 0
  · simp [h0]
  · rw [if_neg h0]
    by_cases h1 : X = [] ∨ scalar = 1
    · rw [if_pos h1]; exact hX.2
    · rw [if_neg h1]
      have hl : scalar % 2 ^ 32 < 2 ^ 32 := Nat.mod_lt _ (by norm_num)
      have hh : scalar >>> (INT_SIZE / 2) < 2 ^ 32 := by
        rw [Nat.shiftRight_eq_div_pow]
        rw [WORD_eq] at hs
        show scalar / 2 ^ 32 < 2 ^ 32
        omega
      have hsum : scalar % 2 ^ 32 + 2 ^ 32 * (scalar >>> (INT_SIZE / 2)) = scalar := by
        rw [Nat.shiftRight_eq_div_pow]
        exact Nat.mod_add_div scalar (2 ^ 32)
      exact scaleLoop_last _ _ hl hh (by rw [hsum]; exact Nat.pos_of_ne_zero h0) X 0 hX.1
        WORD_pos hX.2

theorem getLast?_replicate_append (n : Nat) {X : List Nat} (h : X ≠ []) :
    (List.replicate n 0 ++ X).getLast? = X.getLast? := by
  induction n with
  | zero => rfl
  | succ n ih =>
    rw [List.replicate_succ, List.cons_append, getLast?_cons_ne_nil (by simp [h]), ih]

/-- `intLShiftLarge` keeps the chain canonical. -/
theorem intLShiftLarge_canonical (X : List Nat) (n : Nat) (hX : Canonical X) :
    Canonical (intLShiftLarge X n) := by
  refine ⟨(intLShiftLarge_value X n hX.1).2, ?_⟩
  unfold intLShiftLarge
  by_cases h : X = []
  · rw [if_pos h]; exact hX.2
  · rw [if_neg h, getLast?_replicate_append n h]; exact hX.2

theorem multLoop_canonical (Y : List Nat) (hY : Canonical Y) :
    ∀ (xs : List Nat) (significance : Nat) (Product Component : List Nat),
    Words xs → Canonical Product → Canonical (multLoop Y xs significance Product Component) := by
  intro xs
  induction xs with
  | nil => intro _ P _ _ hP; exact hP
  | cons x xs ih =>
    intro significance Product Component hw hP
    obtain ⟨hx, hxs⟩ := words_cons.1 hw
    simp only [multLoop]
    exact ih _ _ _ hxs (intAdd_canonical _ _ hP
      (intLShiftLarge_canonical _ _ (intScale_canonical _ x hY hx)))

/-- `intMult` returns a canonical chain. -/
theorem intMult_canonical (X Y : List Nat) (hX : Canonical X) (hY : Canonical Y) :
    Canonical (intMult X Y) := by
  unfold intMult
  by_cases h : Y = [] ∨ X = []
  · rw [if_pos h]; exact canonical_nil
  · rw [if_neg h]; exact multLoop_canonical Y hY X 0 [] [] hX.1 canonical_nil

/-! ## Claim C5: `intMult` -/

/-- C5: for canonical `X` and `Y`, `intMult(X, Y)` returns a canonical chain whose value is
the product of the values; the chain is zero when an operand is zero and is the other
operand when an operand is one.  `X` and `Y` are only read by `intMult`. -/
theorem C5_intMult (X Y : List Nat) (hX : Canonical X) (hY : Canonical Y) :
    value (intMult X Y) = value X * value Y ∧ Canonical (intMult X Y) ∧
    (value X = 0 ∨ value Y = 0 → intMult X Y = []) ∧
    (value X = 1 → intMult X Y = Y) ∧ (value Y = 1 → intMult X Y = X) := by
  have hv := (intMult_value X Y hX.1 hY.1).1
  have hc := intMult_canonical X Y hX hY
  refine ⟨hv, hc, ?_, ?_, ?_⟩
  · intro h
    apply canonical_value_zero _ hc
    rcases h with h | h <;> simp [hv, h]
  · intro h
    exact canonical_unique _ _ hc hY (by simp [hv, h])
  · intro h
    exact canonical_unique _ _ hc hX (by simp [hv, h])

theorem C5_intMult_witness :
    Canonical [2 ^ 64 - 1, 7] ∧ Canonical [3, 2 ^ 63] ∧
    value (intMult [2 ^ 64 - 1, 7] [3, 2 ^ 63]) = value [2 ^ 64 - 1, 7] * value [3, 2 ^ 63] :=
  ⟨by decide, by decide, (C5_intMult [2 ^ 64 - 1, 7] [3, 2 ^ 63] (by decide) (by decide)).1⟩

/-! ## `intFromString` -/

theorem hexDigit_lt {c d : Nat} (h : hexDigit c = some d) : d < 16 := by
  unfold hexDigit at h
  split_ifs at h <;> simp at h <;> omega

theorem fromInv_step (chain : List Nat) (nibble V d : Nat) (hd : d < 16)
    (h : FromInv chain nibble V) (hskip : ¬ (chain = [] ∧ d = 0)) :
    FromInv (if nibble = 0 then addNibble (0 :: chain) d (INT_SIZE / 4 - 1)
              else addNibble chain d (nibble - 1))
      (if nibble = 0 then INT_SIZE / 4 - 1 else nibble - 1) (16 * V + d) := by
  obtain ⟨hc, hv, hn, he⟩ := h
  by_cases h0 : nibble = 0
  · subst h0
    simp only [if_true, addNibble, INT_SIZE, Nat.shiftLeft_eq]
    norm_num at hv ⊢
    have hW := WORD_eq
    have hhead : d * 1152921504606846976 % WORD = d * 1152921504606846976 := by
      rw [hW]; omega
    rw [hhead]
    unfold FromInv
    refine ⟨⟨words_cons.2 ⟨by rw [hW]; omega, hc.1⟩, ?_⟩, ?_, by norm_num, by simp⟩
    · by_cases hnil : chain = []
      · subst hnil
        have : d ≠ 0 := fun h => hskip ⟨rfl, h⟩
        simp only [List.getLast?_singleton, ne_eq, Option.some.injEq]
        omega
      · rw [getLast?_cons_ne_nil hnil]; exact hc.2
    · simp only [value, hv, hW]; ring
  · simp only [if_neg h0]
    cases chain with
    | nil => exact absurd (he rfl) h0
    | cons x t =>
      have hx := (words_cons.1 hc.1).1
      have hW := WORD_eq
      simp only [value] at hv
      simp only [addNibble, Nat.shiftLeft_eq]
      have key : (x + d * 2 ^ (4 * (nibble - 1)) % WORD) % WORD = x + d * 2 ^ (4 * (nibble - 1)) ∧
          x + d * 2 ^ (4 * (nibble - 1)) + WORD * value t = (16 * V + d) * 16 ^ (nibble - 1) := by
        generalize value t = vt at hv
        rw [hW] at hx hv ⊢
        have h1 : 1 ≤ nibble := Nat.pos_of_ne_zero h0
        interval_cases nibble <;> norm_num at hv ⊢ <;> omega
      rw [key.1]
      unfold FromInv
      refine ⟨⟨words_cons.2 ⟨?_, (words_cons.1 hc.1).2⟩, ?_⟩, ?_, by omega, by simp⟩
      · rw [← key.1]; exact Nat.mod_lt _ WORD_pos
      · cases t with
        | nil =>
          have hx0 : x ≠ 0 := by
            intro h; subst h; exact hc.2 rfl
          simp only [List.getLast?_singleton, ne_eq, Option.some.injEq]
          omega
        | cons y ys => exact hc.2
      · simp only [value]; exact key.2

theorem fromStringLoop_inv : ∀ s : List Nat, (∀ c ∈ s, c ≠ 0) →
    ∀ (chain : List Nat) (nibble V : Nat) (rest : List Nat), FromInv chain nibble V →
    FromInv (fromStringLoop (s ++ 0 :: rest) chain nibble).1
      (fromStringLoop (s ++ 0 :: rest) chain nibble).2 (hexFold s V) := by
  intro s
  induction s with
  | nil =>
    intro _ chain nibble V rest h
    simpa [fromStringLoop, hexFold] using h
  | cons c cs ih =>
    intro hs chain nibble V rest h
    have hc : c ≠ 0 := hs c (List.mem_cons_self _ _)
    have hcs : ∀ c ∈ cs, c ≠ 0 := fun x hx => hs x (List.mem_cons_of_mem _ hx)
    rw [List.cons_append, fromStringLoop, if_neg hc]
    cases hd : hexDigit c with
    | none =>
      simp only [hexFold, hd]
      exact ih hcs chain nibble V rest h
    | some d =>
      simp only [hexFold, hd]
      by_cases hskip : chain = [] ∧ d = 0
      · rw [if_pos hskip]
        apply ih hcs chain nibble _ rest
        obtain ⟨h1, h2⟩ := hskip
        subst h1; subst h2
        obtain ⟨hcan, hv, hn, he⟩ := h
        have hV : V = 0 := by
          simp only [value] at hv
          have hp : 0 < 16 ^ nibble := pow_pos (by norm_num) _
          rcases Nat.eq_zero_or_pos V with h0 | h0
          · exact h0
          · have := Nat.mul_pos h0 hp; omega
        subst hV
        exact ⟨hcan, by simp [value], hn, he⟩
      · rw [if_neg hskip]
        have step := fromInv_step chain nibble V d (hexDigit_lt hd) h hskip
        by_cases h0 : nibble = 0
        · rw [if_pos h0]
          rw [if_pos h0, if_pos h0] at step
          exact ih hcs _ _ _ rest step
        · rw [if_neg h0]
          rw [if_neg h0, if_neg h0] at step
          exact ih hcs _ _ _ rest step

/-- `intFromString` on a string without zero byte before its terminator returns the
canonical chain of the number read. -/
theorem intFromString_spec (s rest : List Nat) (hs : ∀ c ∈ s, c ≠ 0) :
    Canonical (intFromString (s ++ 0 :: rest)) ∧
    value (intFromString (s ++ 0 :: rest)) = hexFold s 0 := by
  have h0 : FromInv [] 0 0 := ⟨canonical_nil, by simp [value], by norm_num, fun _ => rfl⟩
  have h := fromStringLoop_inv s hs [] 0 0 rest h0
  unfold intFromString
  generalize (fromStringLoop (s ++ 0 :: rest) [] 0).1 = chain at h ⊢
  generalize (fromStringLoop (s ++ 0 :: rest) [] 0).2 = nibble at h ⊢
  obtain ⟨hcan, hv, hn, he⟩ := h
  unfold intRShift
  by_cases hnil : chain = []
  · subst hnil
    have := he rfl
    subst this
    simp only [if_true]
    exact ⟨canonical_nil, by simpa using hv⟩
  · rw [if_neg hnil]
    have hdiv : 4 * nibble / INT_SIZE = 0 := by
      unfold INT_SIZE; omega
    have hmod : 4 * nibble % INT_SIZE = 4 * nibble := by
      unfold INT_SIZE; omega
    simp only [hdiv, hmod, ne_eq, not_true_eq_false, if_false, if_neg hnil]
    by_cases hz : nibble = 0
    · subst hz
      simp only [Nat.mul_zero, not_true_eq_false, if_false]
      exact ⟨hcan, by simpa using hv⟩
    · have hne : ¬ 4 * nibble = 0 := by omega
      rw [if_pos hne]
      have hr := rshiftNodes_spec (4 * nibble) (by omega) (by omega) chain hcan
      refine ⟨hr.2, ?_⟩
      unfold intRShiftSmall
      rw [hr.1, hv, show (16 : Nat) ^ nibble = 2 ^ (4 * nibble) by
        rw [pow_mul]; norm_num]
      exact Nat.mul_div_cancel _ (pow_pos (by norm_num) _)

/-! ## `intToString` -/

theorem hexFold_append (A B : List Nat) : ∀ V : Nat,
    hexFold (A ++ B) V = hexFold B (hexFold A V) := by
  induction A with
  | nil => intro V; rfl
  | cons c cs ih =>
    intro V
    show hexFold (c :: (cs ++ B)) V = hexFold B (hexFold (c :: cs) V)
    simp only [hexFold]
    cases hexDigit c <;> simp only [ih]

theorem and_fifteen (data : Nat) : data &&& 0xF = data % 16 :=
  Nat.and_pow_two_sub_one_eq_mod data 4

/-- The character written by `textify` for a nibble is read back by `intFromString` as
that nibble, and is not the terminator. -/
theorem hexDigit_textify (v : Nat) (hv : v < 16) :
    hexDigit (if v < 10 then v + 48 else v + 55) = some v ∧
    (if v < 10 then v + 48 else v + 55) ≠ 0 := by
  interval_cases v <;> decide

theorem textifyNode_ne_zero : ∀ (k data : Nat), ∀ c ∈ textifyNode k data, c ≠ 0 := by
  intro k
  induction k with
  | zero => intro data c hc; cases hc
  | succ k ih =>
    intro data c hc
    simp only [textifyNode, and_fifteen, List.mem_cons] at hc
    rcases hc with h | h
    · rw [h]; exact (hexDigit_textify _ (Nat.mod_lt _ (by norm_num))).2
    · exact ih _ c h

theorem hexFold_textifyNode : ∀ (k data V : Nat),
    hexFold (textifyNode k data).reverse V = V * 16 ^ k + data % 16 ^ k := by
  intro k
  induction k with
  | zero => intro data V; simp [textifyNode, hexFold, Nat.mod_one]
  | succ k ih =>
    intro data V
    simp only [textifyNode, and_fifteen, List.reverse_cons, hexFold_append, ih, hexFold,
      (hexDigit_textify _ (Nat.mod_lt data (by norm_num : 0 < 16))).1,
      Nat.shiftRight_eq_div_pow]
    rw [show (2 : Nat) ^ 4 = 16 from rfl, show (16 : Nat) ^ (k + 1) = 16 * 16 ^ k by
      rw [pow_succ, Nat.mul_comm], Nat.mod_mul]
    ring

theorem textify_ne_zero : ∀ X : List Nat, ∀ c ∈ textify X, c ≠ 0 := by
  intro X
  induction X with
  | nil => intro c hc; cases hc
  | cons d ds ih =>
    intro c hc
    rw [textify, List.mem_append, List.mem_cons] at hc
    rcases hc with (h | h) | h
    · rw [h]; norm_num
    · exact textifyNode_ne_zero _ _ c h
    · exact ih c h

theorem hexFold_textify : ∀ X : List Nat, Words X →
    hexFold (textify X).reverse 0 = value X := by
  intro X
  induction X with
  | nil => intro _; rfl
  | cons d ds ih =>
    intro hw
    obtain ⟨hd, hds⟩ := words_cons.1 hw
    simp only [textify, List.reverse_cons, List.reverse_append, hexFold_append, ih hds,
      hexFold_textifyNode, List.append_assoc]
    have h32 : ∀ V, hexFold [32] V = V := fun V => rfl
    rw [h32, value, show (16 : Nat) ^ 16 = WORD by decide, Nat.mod_eq_of_lt hd]
    ring

/-- The string written by `intToString` for a chain that is not zero: the digits of the
nodes from the last to the first, then the terminator. -/
theorem intToString_cons (d : Nat) (ds : List Nat) :
    intToString (d :: ds) = ((textify ds).reverse ++ (textifyNode 16 d).reverse) ++ 0 :: [] := by
  simp [intToString, textify]

/-! ## Claim C6: the round trip through hexadecimal text -/

/-- C6: for every canonical chain `x`, `intFromString(intToString(x))` is the chain `x`
itself, node for node; the zero chain is written as `"0"`. -/
theorem C6_hex_roundtrip (X : List Nat) (hX : Canonical X) :
    intFromString (intToString X) = X ∧ cstr (intToString []) = [48] := by
  refine ⟨?_, by decide⟩
  cases X with
  | nil => decide
  | cons d ds =>
    rw [intToString_cons]
    have hs : ∀ c ∈ (textify ds).reverse ++ (textifyNode 16 d).reverse, c ≠ 0 := by
      intro c hc
      rcases List.mem_append.1 hc with h | h
      · exact textify_ne_zero ds c (List.mem_reverse.1 h)
      · exact textifyNode_ne_zero 16 d c (List.mem_reverse.1 h)
    obtain ⟨hcan, hv⟩ := intFromString_spec _ [] hs
    apply canonical_unique _ _ hcan hX
    obtain ⟨hd, hds⟩ := words_cons.1 hX.1
    rw [hv, hexFold_append, hexFold_textify ds hds, hexFold_textifyNode, value,
      show (16 : Nat) ^ 16 = WORD by decide, Nat.mod_eq_of_lt hd]
    ring

theorem C6_hex_roundtrip_witness :
    Canonical [0xDEADBEEF, 1] ∧ intFromString (intToString [0xDEADBEEF, 1]) = [0xDEADBEEF, 1] :=
  ⟨by decide, (C6_hex_roundtrip [0xDEADBEEF, 1] (by decide)).1⟩

/-! ## Claims C2, C3, C4: the borrow defect seen from `intModExp`, `intDiv`, `intAdd`/`intSub` -/

/-- C2, the two examples of the claim: `intModExp(2, 10, 1000)` returns `24` and
`intModExp(5, 117, 19)` returns `1`. -/
theorem intModExp_examples :
    intModExp [2] [10] [1000] = Outcome.ret ([24], [1000]) ∧
    intModExp [5] [117] [19] = Outcome.ret ([1], [19]) := by
  constructor <;> decide!

/-- C2 fails on the code: for `X = 4 * 2^64 + 2^63 - 1`, `Y = 1`, `Z = 5` (all canonical,
`Z > 0`) `intModExp` returns the zero chain, while `X^Y mod Z = 1`. -/
theorem C2_intModExp_wrong :
    Canonical [2 ^ 63 - 1, 4] ∧ Canonical [1] ∧ Canonical [5] ∧ 0 < value [5] ∧
    intModExp [2 ^ 63 - 1, 4] [1] [5] = Outcome.ret ([], [5]) ∧
    value [] ≠ value [2 ^ 63 - 1, 4] ^ value [1] % value [5] := by
  refine ⟨by decide, by decide, by decide, by decide, by decide!, by decide⟩

/-- C3 fails on the code: for `x = 2^66` and `y = 2^65 + 1`, `intDiv` returns the quotient
`1` and leaves the remainder `2^64 - 1` in `X`, so that `x ≠ q * y + r`. -/
theorem C3_intDiv_wrong :
    Canonical [0, 4] ∧ Canonical [1, 2] ∧ 0 < value [1, 2] ∧
    intDiv [0, 4] [1, 2] = Outcome.ret ([1], [2 ^ 64 - 1], [1, 2]) ∧
    value [0, 4] ≠ value [1] * value [1, 2] + value [2 ^ 64 - 1] := by
  refine ⟨by decide, by decide, by decide, by decide!, by decide⟩

/-- C4 fails on the code: for `x = 4 * 2^64 + (2^64 - 1)` and `y = 2^64`, `intAdd` leaves
`x + y` in `X` and the following `intSub` leaves `3 * 2^64 + (2^64 - 1)`, not `x`. -/
theorem C4_add_sub_wrong :
    Canonical [2 ^ 64 - 1, 4] ∧ Canonical [0, 1] ∧
    value (intAdd [2 ^ 64 - 1, 4] [0, 1]) = value [2 ^ 64 - 1, 4] + value [0, 1] ∧
    intSub (intAdd [2 ^ 64 - 1, 4] [0, 1]) [0, 1] = Outcome.ret [2 ^ 64 - 1, 3] ∧
    value [2 ^ 64 - 1, 3] ≠ value [2 ^ 64 - 1, 4] := by
  refine ⟨by decide, by decide, by decide, by decide, by decide⟩

/-! ## Claim C1: the ElGamal round trip -/

theorem key_exponential : intModExp [10] [7] [16210220612075905069] =
    Outcome.ret ([10000000], [16210220612075905069]) := by decide!

theorem enc_scrambleCipher : intModExp [10] [3] [16210220612075905069] =
    Outcome.ret ([1000], [16210220612075905069]) := by decide!

theorem enc_scrambledExponential : intModExp [10000000] [3] [16210220612075905069] =
    Outcome.ret ([11176542663369790791], [16210220612075905069]) := by decide!

/-- The reduction of `IntWord * ScrambledExponential` in `encryptWord` goes wrong: the
product is `9792725545996255231 + 6393949885902600239 * 2^64`, whose remainder modulo the
prime is `11968787433941147364`. -/
theorem enc_wordCipher :
    intMod (intMult [10553134427870362505] [11176542663369790791]) [16210220612075905069] =
      Outcome.ret ([9732263972307500817], [16210220612075905069]) ∧
    value (intMult [10553134427870362505] [11176542663369790791]) % 16210220612075905069 =
      11968787433941147364 := by
  constructor
  · decide!
  · decide

theorem dec_cipher : intModExp [1000] [7] [16210220612075905069] =
    Outcome.ret ([11176542663369790791], [16210220612075905069]) := by decide!

theorem dec_cipherInverse :
    intModExp [11176542663369790791] [16210220612075905067] [16210220612075905069] =
      Outcome.ret ([4498102240352726367], [16210220612075905069]) := by decide!

theorem dec_plaintext :
    intMod (intMult [9732263972307500817] [4498102240352726367]) [16210220612075905069] =
      Outcome.ret ([2158042456141420337], [16210220612075905069]) := by decide!

/-- C1 fails on the code.  Key: the prime `p = 2^2 * 3^39 + 1`, the primitive root
`g = 10`, the secret `x = 7`, `h = intModExp(g, x, p) = 10^7`.  For the block
`M = 10553134427870362505 < p` and the ephemeral `k = 3`, `encryptWord` produces
`c1 = 1000` and `c2 = 9732263972307500817`, and `decryptWord` recovers
`2158042456141420337`, which is not `M`. -/
theorem C1_roundtrip_wrong :
    Nat.Prime 16210220612075905069 ∧
    orderOf ((10 : Nat) : ZMod 16210220612075905069) = 16210220612075905069 - 1 ∧
    value [7] < 16210220612075905069 ∧
    intModExp [10] [7] [16210220612075905069] =
      Outcome.ret ([10000000], [16210220612075905069]) ∧
    value [10553134427870362505] < 16210220612075905069 ∧
    encryptBlock [16210220612075905069] [10] [10000000] [10553134427870362505] [3] =
      Outcome.ret ([1000], [9732263972307500817], [16210220612075905069]) ∧
    decryptBlock [16210220612075905069] [7] [1000] [9732263972307500817] =
      Outcome.ret [2158042456141420337] ∧
    value [2158042456141420337] ≠ value [10553134427870362505] := by
  refine ⟨keyPrime_prime, keyPrime_root, by decide, key_exponential, by decide, ?_, ?_,
    by decide⟩
  · unfold encryptBlock
    rw [enc_scrambleCipher, Outcome.ret_bind, enc_scrambledExponential, Outcome.ret_bind,
      enc_wordCipher.1, Outcome.ret_bind]
  · unfold decryptBlock
    rw [show intDecrement [16210220612075905069] = Outcome.ret [16210220612075905068] by decide,
      Outcome.ret_bind,
      show intDecrement [16210220612075905068] = Outcome.ret [16210220612075905067] by decide,
      Outcome.ret_bind, dec_cipher, Outcome.ret_bind, dec_cipherInverse, Outcome.ret_bind,
      dec_plaintext, Outcome.ret_bind]

/-! ## Claim C9: a prime rejected by `intIsPrime` -/


theorem rejected_bits_a : modExpBits 32 319374737000643696
    [16]
    [1] [1277498948002574787, 4] =
    Outcome.ret ([16124410283673851940, 497641703632202935, 6],
      [13333196350499150580, 7682888171696201163, 9], [1277498948002574787, 4]) := by
  decide!

theorem rejected_bits_b : modExpBits 32 (319374737000643696 >>> 32)
    [16124410283673851940, 497641703632202935, 6]
    [13333196350499150580, 7682888171696201163, 9] [1277498948002574787, 4] =
    Outcome.ret ([306219405617605561, 1755253335137993684, 1],
      [13757390013534673633, 1368034279142162672, 8], [1277498948002574787, 4]) := by
  decide!

theorem rejected_bits_c : modExpBits 32 1
    [306219405617605561, 1755253335137993684, 1]
    [13757390013534673633, 1368034279142162672, 8] [1277498948002574787, 4] =
    Outcome.ret ([6925075966417818745, 7847239556998996693, 1],
      [9678618683040728256, 12525356255229009667, 2], [1277498948002574787, 4]) := by
  decide!

theorem rejected_bits_d : modExpBits 32 (1 >>> 32)
    [6925075966417818745, 7847239556998996693, 1]
    [9678618683040728256, 12525356255229009667, 2] [1277498948002574787, 4] =
    Outcome.ret ([14449194268168654564, 4733135253035298748, 2],
      [9678618683040728256, 12525356255229009667, 2], [1277498948002574787, 4]) := by
  decide!

theorem rejected_modExp : intModExp [16] [319374737000643696, 1] [1277498948002574787, 4] =
    Outcome.ret ([319374737000643697, 1], [1277498948002574787, 4]) := by
  unfold intModExp modExpNodes modExpNodes INT_SIZE
  rw [modExpBits_chain 32 32 _ _ _ _ _ _ rejected_bits_a rejected_bits_b, Outcome.ret_bind,
    modExpBits_chain 32 32 _ _ _ _ _ _ rejected_bits_c rejected_bits_d, Outcome.ret_bind]
  decide

/-- C9 fails on the code: `X = 75064475242840781251 = 4 * 2^64 + 1277498948002574787` is
prime, and with the first witness `16` (the calls of `rand()` return `0, 0, 0, 16, 0, 0,
0, 0`) `intIsPrime(X)` returns `0` in its first round.  `intIsEven` reads the last node of
the chain, the most significant one, so the loop halves `X - 1` twice, down to the even
number `(X - 3) / 4`, and the round raises the witness to that power. -/
theorem C9_prime_rejected :
    Nat.Prime 75064475242840781251 ∧
    Canonical [1277498948002574787, 4] ∧
    value [1277498948002574787, 4] = 75064475242840781251 ∧
    oddPartLoop 128 [1277498948002574786, 4] 0 =
      Outcome.ret ([319374737000643696, 1], 2) ∧
    intIsPrime sixteenSources 1 [1277498948002574787, 4] 0 = Outcome.ret (0, 8) := by
  refine ⟨rejectedPrime_prime, by decide, by decide, by decide, ?_⟩
  unfold intIsPrime
  rw [show intDecrement [1277498948002574787, 4] = Outcome.ret [1277498948002574786, 4] by
      decide, Outcome.ret_bind,
    show intDecrement [1277498948002574786, 4] = Outcome.ret [1277498948002574785, 4] by
      decide, Outcome.ret_bind,
    show oddPartLoop (INT_SIZE * [1277498948002574786, 4].length) [1277498948002574786, 4] 0 =
      Outcome.ret ([319374737000643696, 1], 2) by decide, Outcome.ret_bind,
    show PRIME_CONFIDENCE = 49 + 1 from rfl, primeRounds,
    show intPseudoRandom sixteenSources 1 [1277498948002574785, 4] 0 =
      Outcome.ret ([16], [1277498948002574785, 4], 8) by decide!, Outcome.ret_bind,
    rejected_modExp, Outcome.ret_bind, if_neg (by decide),
    show squareLoop [1277498948002574786, 4] 2 [319374737000643697, 1]
        [1277498948002574787, 4] = Outcome.ret (false, [1277498948002574787, 4]) by decide!,
    Outcome.ret_bind]
  rfl

/-! ## Claims C8 and C10: `intIsPrime` accepts 23 -/

theorem hbs_randMax : highestBitSignificance 2147483647 = 31 := by decide!

theorem five_randCalls (b : Nat) : randCalls (fiveSources b) = 4 := by
  show INT_SIZE / highestBitSignificance 2147483647 +
    INT_SIZE % highestBitSignificance 2147483647 = 4
  rw [hbs_randMax]; decide

theorem five_nodes (b i : Nat) :
    pseudoNodes (fiveSources b) 1 i = [4611686029164806149] := by
  show loadRand (fiveSources b) (highestBitSignificance 2147483647)
    (randCalls (fiveSources b)) i 0 :: [] = _
  rw [hbs_randMax, five_randCalls]
  simp only [loadRand, fiveSources]
  decide

theorem five_witness (b i : Nat) :
    intPseudoRandom (fiveSources b) 1 [21] i = Outcome.ret ([19], [21], i + 4) := by
  rw [intPseudoRandom, show [21].length = 1 from rfl, five_nodes,
    show intMod (trim [4611686029164806149]) [21] = Outcome.ret ([19], [21]) by decide!,
    Outcome.ret_bind, if_neg (by decide), five_randCalls]

theorem five_rounds (b : Nat) : ∀ n i : Nat,
    primeRounds (fiveSources b) 1 [22] [11] 1 n [23] [21] i = Outcome.ret (1, i + 4 * n) := by
  intro n
  induction n with
  | zero => intro i; rfl
  | succ n ih =>
    intro i
    rw [primeRounds, five_witness, Outcome.ret_bind,
      show intModExp [19] [11] [23] = Outcome.ret ([22], [23]) by decide!, Outcome.ret_bind,
      if_pos (by decide), ih]
    show Outcome.ret (1, i + 4 + 4 * n) = Outcome.ret (1, i + 4 * (n + 1))
    congr 2
    omega

theorem five_isPrime (b i : Nat) :
    intIsPrime (fiveSources b) 1 [23] i = Outcome.ret (1, i + 200) := by
  unfold intIsPrime
  rw [show intDecrement [23] = Outcome.ret [22] by decide, Outcome.ret_bind,
    show intDecrement [22] = Outcome.ret [21] by decide, Outcome.ret_bind,
    show oddPartLoop (INT_SIZE * [22].length) [22] 0 = Outcome.ret ([11], 1) by decide,
    Outcome.ret_bind, five_rounds]
  rfl

/-! ## Claim C8: the range of `intMakePrime` -/

theorem makePrime_run : intMakePrime (fiveSources 88) 1 1 5 = Outcome.ret [23] := by
  unfold intMakePrime
  rw [if_neg (by decide),
    show drawCandidate (fiveSources 88) (intLShift (intIncrement []) (5 - 1)) 0 =
      Outcome.ret ([23], [16], 1) by decide!, Outcome.ret_bind]
  rw [makePrimeLoop]
  simp only [five_isPrime]
  decide


/-- C8 fails on the code: `intMakePrime(5)` returns `23` when `getrandom` delivers the
node `88 * 2^56` (so that the first candidate is `2 * 11 + 1`) and `rand()` returns `5`
(so that every witness of `intIsPrime` is `19`); `23` lies in `(2^4, 2^5)`, not in
`[2^5, 2^6)`.  `LowerBound` is one shifted left by `size - 1`, not by `size`. -/
theorem C8_makePrime_range :
    2 < 5 ∧ intMakePrime (fiveSources 88) 1 1 5 = Outcome.ret [23] ∧
    intLShift (intIncrement []) (5 - 1) = [2 ^ 4] ∧
    ¬ (2 ^ 5 ≤ value [23] ∧ value [23] < 2 ^ (5 + 1)) ∧
    (2 ^ (5 - 1) < value [23] ∧ value [23] < 2 ^ 5) := by
  refine ⟨by decide, makePrime_run, by decide, by decide, by decide⟩

/-! ## Claim C10: the root returned by `intFindPrimitiveRoot` -/

theorem findRoot_run : intFindPrimitiveRoot (fiveSources 8) 1 1 [23] = Outcome.ret [1] := by
  unfold intFindPrimitiveRoot
  rw [five_isPrime, Outcome.ret_bind, if_neg (by decide),
    show intDecrement [23] = Outcome.ret [22] by decide, Outcome.ret_bind,
    show intCryptoRandom (fiveSources 8) [22] 0 = Outcome.ret ([1], [22], 1) by decide!,
    Outcome.ret_bind,
    show intModExp [1] [22] [23] = Outcome.ret ([1], [23]) by decide!, Outcome.ret_bind]
  decide

/-- C10 fails on the code: for the prime `P = 23`, when `getrandom` delivers the node
`8 * 2^56` the first draw is `G = 1`, `intModExp(G, Phi, P)` is `1`, the loop is not
entered, and `intFindPrimitiveRoot` returns `1`, whose order modulo `23` is `1`, not `22`. -/
theorem C10_root_not_primitive :
    Nat.Prime 23 ∧ intFindPrimitiveRoot (fiveSources 8) 1 1 [23] = Outcome.ret [1] ∧
    orderOf ((value [1] : Nat) : ZMod 23) ≠ 23 - 1 := by
  refine ⟨by norm_num, findRoot_run, ?_⟩
  rw [show ((value [1] : Nat) : ZMod 23) = 1 by simp [value]]
  simp

/-! ## Claim C7: packing a block of bytes -/

/-- C7 fails on the code where plain `char` is signed: the block `"A\x80"` (bytes `0x41`,
`0x80`, no zero byte) is packed as `0x4080 * 2^48` and unpacked as the bytes `0x40`, `0x80`.
The byte `0x80` converts to `0xFFFFFF80`, and adding it takes one from the byte before. -/
theorem C7_bytes_roundtrip_wrong :
    (∀ b ∈ [65, 128], 1 ≤ b ∧ b ≤ 255) ∧
    intEncodeString true [65, 128] = [0x4080 * 2 ^ 48] ∧
    cstr (intDecodeString (intEncodeString true [65, 128])) = [64, 128] ∧
    cstr (intDecodeString (intEncodeString true [65, 128])) ≠ [65, 128] := by
  refine ⟨by decide, by decide, by decide, by decide⟩

/-- Where plain `char` is unsigned the same block comes back unchanged. -/
theorem C7_bytes_unsigned :
    cstr (intDecodeString (intEncodeString false [65, 128])) = [65, 128] := by
  decide

/-! ## `intLShift` -/

theorem lshiftNodes_eq_nil {n : Nat} {X : List Nat} {ov : Nat}
    (h : lshiftNodes n X ov = []) : X = [] ∧ ov = 0 := by
  cases X with
  | nil =>
    refine ⟨rfl, ?_⟩
    by_contra h0
    simp [lshiftNodes, h0] at h
  | cons d rest => simp [lshiftNodes] at h

theorem lshiftNodes_spec (n : Nat) (hn0 : 0 < n) (hn : n < 64) : ∀ (X : List Nat) (ov : Nat),
    Canonical X → ov < 2 ^ n →
    value (lshiftNodes n X ov) = value X * 2 ^ n + ov ∧ Canonical (lshiftNodes n X ov) := by
  have hpq : 2 ^ (64 - n) * 2 ^ n = WORD := by
    rw [← pow_add, WORD]; congr 1; omega
  have hp : 0 < 2 ^ n := pow_pos (by norm_num) n
  have hq : 0 < 2 ^ (64 - n) := pow_pos (by norm_num) _
  have hpW : 2 ^ n < WORD := by
    rw [WORD]; exact Nat.pow_lt_pow_right (by norm_num) hn
  intro X
  induction X with
  | nil =>
    intro ov _ hov
    unfold lshiftNodes
    by_cases h0 : ov = 0
    · subst h0; simp [value, canonical_nil]
    · rw [if_pos h0]
      refine ⟨by simp [value], words_cons.2 ⟨lt_trans hov hpW, words_nil⟩, ?_⟩
      simpa using h0
  | cons d rest ih =>
    intro ov hc hov
    have hd := (words_cons.1 hc.1).1
    have hdiv : d >>> (INT_SIZE - n) < 2 ^ n := by
      rw [Nat.shiftRight_eq_div_pow]
      show d / 2 ^ (64 - n) < 2 ^ n
      rw [Nat.div_lt_iff_lt_mul hq, Nat.mul_comm, hpq]; exact hd
    obtain ⟨ihv, ihc⟩ := ih (d >>> (INT_SIZE - n)) (canonical_tail hc) hdiv
    have hhead : ((d <<< n) % WORD + ov) % WORD = d % 2 ^ (64 - n) * 2 ^ n + ov := by
      rw [Nat.shiftLeft_eq, ← hpq, Nat.mul_mod_mul_right]
      apply Nat.mod_eq_of_lt
      have h2 : d % 2 ^ (64 - n) ≤ 2 ^ (64 - n) - 1 := by
        have := Nat.mod_lt d hq; omega
      calc d % 2 ^ (64 - n) * 2 ^ n + ov
          < (2 ^ (64 - n) - 1) * 2 ^ n + 2 ^ n :=
            Nat.add_lt_add_of_le_of_lt (Nat.mul_le_mul_right _ h2) hov
        _ = 2 ^ (64 - n) * 2 ^ n := by
            rw [Nat.sub_mul, Nat.one_mul]
            have : 2 ^ n ≤ 2 ^ (64 - n) * 2 ^ n := Nat.le_mul_of_pos_left _ hq
            omega
    have hlt : d % 2 ^ (64 - n) * 2 ^ n + ov < WORD := by
      rw [← hhead]; exact Nat.mod_lt _ WORD_pos
    rw [show lshiftNodes n (d :: rest) ov =
      ((d <<< n) % WORD + ov) % WORD :: lshiftNodes n rest (d >>> (INT_SIZE - n)) from rfl,
      hhead]
    refine ⟨?_, words_cons.2 ⟨hlt, ihc.1⟩, ?_⟩
    · rw [value, value, ihv, Nat.shiftRight_eq_div_pow]
      show d % 2 ^ (64 - n) * 2 ^ n + ov + WORD * (value rest * 2 ^ n + d / 2 ^ (64 - n)) = _
      have hdm := Nat.mod_add_div d (2 ^ (64 - n))
      conv_rhs => rw [← hdm]
      rw [← hpq]
      ring
    · apply getLast?_cons_rest
      · intro hnil
        obtain ⟨h1, h2⟩ := lshiftNodes_eq_nil hnil
        subst h1
        have hd0 : d ≠ 0 := by
          intro h; subst h; exact hc.2 rfl
        rw [Nat.shiftRight_eq_div_pow] at h2
        have hlt2 : d < 2 ^ (64 - n) := (Nat.div_eq_zero_iff hq).1 h2
        rw [Nat.mod_eq_of_lt hlt2]
        have hpos : 0 < d * 2 ^ n := Nat.mul_pos (Nat.pos_of_ne_zero hd0) hp
        omega
      · exact ihc.2

/-- `intLShift` multiplies by `2^n` and keeps the chain canonical. -/
theorem intLShift_spec (X : List Nat) (n : Nat) (hX : Canonical X) :
    value (intLShift X n) = value X * 2 ^ n ∧ Canonical (intLShift X n) := by
  have hl := intLShiftLarge_value X (n / INT_SIZE) hX.1
  have hlc := intLShiftLarge_canonical X (n / INT_SIZE) hX
  have hn : n = 64 * (n / 64) + n % 64 := (Nat.div_add_mod n 64).symm
  have hW : ∀ k, WORD ^ k = 2 ^ (64 * k) := by
    intro k; rw [WORD, pow_mul]
  unfold intLShift
  by_cases hq : n / INT_SIZE ≠ 0
  · simp only [if_pos hq]
    by_cases hr : n % INT_SIZE ≠ 0
    · simp only [if_pos hr]
      have hs := lshiftNodes_spec (n % INT_SIZE) (Nat.pos_of_ne_zero hr)
        (Nat.mod_lt _ (by decide)) _ 0 hlc (pow_pos (by norm_num) _)
      refine ⟨?_, hs.2⟩
      unfold intLShiftSmall
      rw [hs.1, hl.1, hW, Nat.add_zero, Nat.mul_assoc, ← pow_add]
      congr 2
      show 64 * (n / 64) + n % 64 = n
      omega
    · simp only [if_neg hr]
      refine ⟨?_, hlc⟩
      rw [hl.1, hW]
      congr 2
      have : n % 64 = 0 := by simpa [INT_SIZE] using hr
      show 64 * (n / 64) = n
      omega
  · simp only [if_neg hq]
    have hq0 : n / 64 = 0 := by simpa [INT_SIZE] using hq
    by_cases hr : n % INT_SIZE ≠ 0
    · simp only [if_pos hr]
      have hs := lshiftNodes_spec (n % INT_SIZE) (Nat.pos_of_ne_zero hr)
        (Nat.mod_lt _ (by decide)) _ 0 hX (pow_pos (by norm_num) _)
      refine ⟨?_, hs.2⟩
      unfold intLShiftSmall
      rw [hs.1, Nat.add_zero]
      congr 2
      show n % 64 = n
      omega
    · simp only [if_neg hr]
      have : n % 64 = 0 := by simpa [INT_SIZE] using hr
      have hn0 : n = 0 := by omega
      subst hn0
      exact ⟨by simp, hX⟩

/-! ## `intRShift` -/

theorem value_lt : ∀ X : List Nat, Words X → value X < WORD ^ X.length := by
  intro X
  induction X with
  | nil => intro _; simp [value]
  | cons x xs ih =>
    intro h
    have hx := (words_cons.1 h).1
    have hxs := ih (words_cons.1 h).2
    rw [value, List.length_cons, pow_succ]
    have h1 : value xs + 1 ≤ WORD ^ xs.length := hxs
    have h2 : WORD * (value xs + 1) ≤ WORD * WORD ^ xs.length := Nat.mul_le_mul_left _ h1
    rw [Nat.mul_comm (WORD ^ xs.length)]
    rw [Nat.mul_add, Nat.mul_one] at h2
    omega

theorem canonical_value_ge : ∀ X : List Nat, Canonical X → X ≠ [] →
    WORD ^ (X.length - 1) ≤ value X := by
  intro X
  induction X with
  | nil => intro _ h; exact absurd rfl h
  | cons x xs ih =>
    intro hc _
    cases xs with
    | nil =>
      have hx : x ≠ 0 := by
        intro h; subst h; exact hc.2 rfl
      simp only [List.length_singleton, Nat.sub_self, pow_zero, value]
      omega
    | cons y ys =>
      have h := ih (canonical_tail hc) (by simp)
      rw [value]
      simp only [List.length_cons, Nat.add_sub_cancel] at h ⊢
      rw [pow_succ, Nat.mul_comm]
      exact le_trans (Nat.mul_le_mul_left _ h) (Nat.le_add_left _ _)

/-- The number of nodes of a canonical chain is the number of base-`2^64` digits of its
value. -/
theorem canonical_length_le (X : List Nat) (hX : Canonical X) (k : Nat) :
    X.length ≤ k ↔ value X < WORD ^ k := by
  constructor
  · intro h
    exact lt_of_lt_of_le (value_lt X hX.1) (Nat.pow_le_pow_right WORD_pos h)
  · intro h
    by_contra hk
    have hne : X ≠ [] := by
      intro h0; subst h0; simp at hk
    have h1 := canonical_value_ge X hX hne
    have h2 : WORD ^ k ≤ WORD ^ (X.length - 1) := Nat.pow_le_pow_right WORD_pos (by omega)
    omega

theorem value_drop : ∀ (n : Nat) (X : List Nat), Words X →
    value (X.drop n) = value X / WORD ^ n := by
  intro n
  induction n with
  | zero => intro X _; simp
  | succ n ih =>
    intro X hX
    cases X with
    | nil => simp [value]
    | cons x xs =>
      have hx := (words_cons.1 hX).1
      rw [List.drop_succ_cons, ih xs (words_cons.1 hX).2, value, pow_succ, Nat.mul_comm _ WORD,
        ← Nat.div_div_eq_div_mul]
      congr 1
      rw [Nat.add_mul_div_left _ _ WORD_pos, Nat.div_eq_of_lt hx, Nat.zero_add]

theorem canonical_drop : ∀ (n : Nat) (X : List Nat), Canonical X → Canonical (X.drop n) := by
  intro n
  induction n with
  | zero => intro X h; simpa using h
  | succ n ih =>
    intro X hX
    cases X with
    | nil => simpa using hX
    | cons x xs => rw [List.drop_succ_cons]; exact ih xs (canonical_tail hX)

theorem intRShiftLarge_spec (X : List Nat) (n : Nat) (hX : Canonical X) :
    value (intRShiftLarge X n) = value X / WORD ^ n ∧ Canonical (intRShiftLarge X n) := by
  unfold intRShiftLarge
  by_cases h : n ≥ X.length
  · rw [if_pos h]
    refine ⟨?_, canonical_nil⟩
    have := (canonical_length_le X hX n).1 h
    rw [Nat.div_eq_of_lt this]; rfl
  · rw [if_neg h]
    exact ⟨value_drop n X hX.1, canonical_drop n X hX⟩

/-- `intRShift` divides by `2^n`, rounding down, and keeps the chain canonical. -/
theorem intRShift_spec (X : List Nat) (n : Nat) (hX : Canonical X) :
    value (intRShift X n) = value X / 2 ^ n ∧ Canonical (intRShift X n) := by
  have hW : WORD ^ (n / 64) * 2 ^ (n % 64) = 2 ^ n := by
    rw [WORD, ← pow_mul, ← pow_add]
    congr 1
    exact Nat.div_add_mod n 64
  have hl := intRShiftLarge_spec X (n / INT_SIZE) hX
  unfold intRShift
  by_cases h0 : X = []
  · rw [if_pos h0]; subst h0
    exact ⟨by simp [value], canonical_nil⟩
  · rw [if_neg h0]
    by_cases hq : n / INT_SIZE ≠ 0
    · simp only [if_pos hq]
      by_cases h1 : intRShiftLarge X (n / INT_SIZE) = []
      · rw [if_pos h1]
        refine ⟨?_, hl.2⟩
        have hv := hl.1
        rw [h1] at hv
        rw [h1]
        have hlt : value X < WORD ^ (n / 64) :=
          (Nat.div_eq_zero_iff (pow_pos WORD_pos _)).1 hv.symm
        have hle : WORD ^ (n / 64) ≤ 2 ^ n := by
          rw [← hW]; exact Nat.le_mul_of_pos_right _ (pow_pos (by norm_num) _)
        rw [Nat.div_eq_of_lt (lt_of_lt_of_le hlt hle)]; rfl
      · rw [if_neg h1]
        by_cases hr : n % INT_SIZE ≠ 0
        · rw [if_pos hr]
          have hs := rshiftNodes_spec (n % INT_SIZE) (Nat.pos_of_ne_zero hr)
            (Nat.mod_lt _ (by decide)) _ hl.2
          refine ⟨?_, hs.2⟩
          unfold intRShiftSmall
          rw [hs.1, hl.1, Nat.div_div_eq_div_mul]
          congr 1
        · rw [if_neg hr]
          refine ⟨?_, hl.2⟩
          rw [hl.1]
          have hr0 : n % 64 = 0 := by simpa [INT_SIZE] using hr
          rw [← hW, hr0, pow_zero, Nat.mul_one]; rfl
    · simp only [if_neg hq, if_neg h0]
      have hq0 : n / 64 = 0 := by simpa [INT_SIZE] using hq
      by_cases hr : n % INT_SIZE ≠ 0
      · rw [if_pos hr]
        have hs := rshiftNodes_spec (n % INT_SIZE) (Nat.pos_of_ne_zero hr)
          (Nat.mod_lt _ (by decide)) _ hX
        refine ⟨?_, hs.2⟩
        unfold intRShiftSmall
        rw [hs.1]
        congr 2
        show n % 64 = n
        omega
      · rw [if_neg hr]
        have hr0 : n % 64 = 0 := by simpa [INT_SIZE] using hr
        have hn0 : n = 0 := by omega
        subst hn0
        exact ⟨by simp, hX⟩

/-! ## Claims C13 and C14: the shifts -/

/-- Claim C13: for a canonical chain `X` and every shift count `n`, `intRShift(X, n)`
leaves the canonical chain of the value `floor(X / 2^n)`; a shift by `0` leaves `X` as it
is, the result `R` satisfies `R * 2^n <= X < (R + 1) * 2^n`, and the result is the zero
chain whenever `n` is at least the bit length of `X`. -/
theorem C13_intRShift (X : List Nat) (n : Nat) (hX : Canonical X) :
    value (intRShift X n) = value X / 2 ^ n ∧ Canonical (intRShift X n) ∧
    intRShift X 0 = X ∧
    value (intRShift X n) * 2 ^ n ≤ value X ∧
    value X < (value (intRShift X n) + 1) * 2 ^ n ∧
    (Nat.size (value X) ≤ n → intRShift X n = []) := by
  have h := intRShift_spec X n hX
  have hp : 0 < 2 ^ n := pow_pos (by norm_num) n
  refine ⟨h.1, h.2, ?_, ?_, ?_, ?_⟩
  · have h0 := intRShift_spec X 0 hX
    exact canonical_unique _ _ h0.2 hX (by rw [h0.1]; simp)
  · rw [h.1]; exact Nat.div_mul_le_self _ _
  · rw [h.1, Nat.mul_comm]; exact Nat.lt_mul_div_succ _ hp
  · intro hs
    apply canonical_value_zero _ h.2
    rw [h.1]
    exact Nat.div_eq_of_lt (Nat.size_le.1 hs)

theorem C13_intRShift_witness :
    Canonical [0xDEADBEEF, 5, 1] ∧
    value (intRShift [0xDEADBEEF, 5, 1] 70) = value [0xDEADBEEF, 5, 1] / 2 ^ 70 :=
  ⟨by decide, (C13_intRShift [0xDEADBEEF, 5, 1] 70 (by decide)).1⟩

/-- Claim C14: for a canonical chain `X` and every shift count `n`, `intLShift(X, n)`
leaves the canonical chain of the value `X * 2^n`; a shift by `0` leaves `X` as it is, and
`intRShift(X, n)` after it restores the chain `X`. -/
theorem C14_intLShift (X : List Nat) (n : Nat) (hX : Canonical X) :
    value (intLShift X n) = value X * 2 ^ n ∧ Canonical (intLShift X n) ∧
    intLShift X 0 = X ∧ intRShift (intLShift X n) n = X := by
  have h := intLShift_spec X n hX
  have hr := intRShift_spec (intLShift X n) n h.2
  refine ⟨h.1, h.2, ?_, ?_⟩
  · have h0 := intLShift_spec X 0 hX
    exact canonical_unique _ _ h0.2 hX (by rw [h0.1]; simp)
  · apply canonical_unique _ _ hr.2 hX
    rw [hr.1, h.1]
    exact Nat.mul_div_cancel _ (pow_pos (by norm_num) n)

theorem C14_intLShift_witness :
    Canonical [0xDEADBEEF, 2 ^ 63 + 5] ∧
    value (intLShift [0xDEADBEEF, 2 ^ 63 + 5] 70) = value [0xDEADBEEF, 2 ^ 63 + 5] * 2 ^ 70 ∧
    intRShift (intLShift [0xDEADBEEF, 2 ^ 63 + 5] 70) 70 = [0xDEADBEEF, 2 ^ 63 + 5] :=
  ⟨by decide, (C14_intLShift [0xDEADBEEF, 2 ^ 63 + 5] 70 (by decide)).1,
    (C14_intLShift [0xDEADBEEF, 2 ^ 63 + 5] 70 (by decide)).2.2.2⟩

/-! ## Claims C15 and C16: `intAdd` and `intScale` -/

/-- Claim C15: for canonical chains `X` and `Y`, `intAdd(X, Y)` leaves in `X` the
canonical chain of the value `X + Y`; it has `max(|X|, |Y|)` nodes, and one more exactly
when the sum does not fit in that many.  The chain `Y` is only read: no store of the loop
goes through `currentNodeY`, so `Y` is the same argument before and after. -/
theorem C15_intAdd (X Y : List Nat) (hX : Canonical X) (hY : Canonical Y) :
    value (intAdd X Y) = value X + value Y ∧ Canonical (intAdd X Y) ∧
    (intAdd X Y).length = max X.length Y.length +
      (if WORD ^ max X.length Y.length ≤ value X + value Y then 1 else 0) := by
  have hv := (intAdd_value X Y hX.1 hY.1).1
  have hc := intAdd_canonical X Y hX hY
  refine ⟨hv, hc, ?_⟩
  have hlen := canonical_length_le (intAdd X Y) hc
  have hxl := value_lt X hX.1
  have hyl := value_lt Y hY.1
  have hxm : WORD ^ X.length ≤ WORD ^ max X.length Y.length :=
    Nat.pow_le_pow_right WORD_pos (le_max_left _ _)
  have hym : WORD ^ Y.length ≤ WORD ^ max X.length Y.length :=
    Nat.pow_le_pow_right WORD_pos (le_max_right _ _)
  have hup : (intAdd X Y).length ≤ max X.length Y.length + 1 := by
    rw [hlen, hv, pow_succ]
    have : 2 ≤ WORD := by rw [WORD_eq]; norm_num
    have := Nat.mul_le_mul_left (WORD ^ max X.length Y.length) this
    omega
  have hlo : max X.length Y.length ≤ (intAdd X Y).length := by
    by_contra hlt
    have hlt2 : (intAdd X Y).length ≤ max X.length Y.length - 1 := by omega
    rw [hlen, hv] at hlt2
    rcases le_total X.length Y.length with hxy | hxy
    · rw [max_eq_right hxy] at hlt hlt2
      have hne : Y ≠ [] := by
        intro h0; subst h0; simp at hlt
      have := canonical_value_ge Y hY hne
      omega
    · rw [max_eq_left hxy] at hlt hlt2
      have hne : X ≠ [] := by
        intro h0; subst h0; simp at hlt
      have := canonical_value_ge X hX hne
      omega
  by_cases hbig : WORD ^ max X.length Y.length ≤ value X + value Y
  · rw [if_pos hbig]
    have : ¬ (intAdd X Y).length ≤ max X.length Y.length := by
      rw [hlen, hv]; omega
    omega
  · rw [if_neg hbig]
    have : (intAdd X Y).length ≤ max X.length Y.length := by
      rw [hlen, hv]; omega
    omega

theorem C15_intAdd_witness :
    Canonical [2 ^ 64 - 1, 2 ^ 64 - 1] ∧ Canonical [1] ∧
    intAdd [2 ^ 64 - 1, 2 ^ 64 - 1] [1] = [0, 0, 1] ∧
    value (intAdd [2 ^ 64 - 1, 2 ^ 64 - 1] [1]) = value [2 ^ 64 - 1, 2 ^ 64 - 1] + value [1] :=
  ⟨by decide, by decide, by decide,
    (C15_intAdd [2 ^ 64 - 1, 2 ^ 64 - 1] [1] (by decide) (by decide)).1⟩

/-- Claim C16: for a canonical chain `X` and every 64-bit scalar `s`, `intScale(X, s)`
leaves in `X` the canonical chain of the value `X * s`; the scalar `0` gives the zero
chain and the scalar `1` leaves `X` as it is. -/
theorem C16_intScale (X : List Nat) (s : Nat) (hX : Canonical X) (hs : s < WORD) :
    value (intScale X s) = value X * s ∧ Canonical (intScale X s) ∧
    intScale X 0 = [] ∧ intScale X 1 = X := by
  have h1 : (1 : Nat) < WORD := by rw [WORD_eq]; norm_num
  refine ⟨(intScale_value X s hX.1 hs).1, intScale_canonical X s hX hs, ?_, ?_⟩
  · apply canonical_value_zero _ (intScale_canonical X 0 hX WORD_pos)
    rw [(intScale_value X 0 hX.1 WORD_pos).1]; simp
  · apply canonical_unique _ _ (intScale_canonical X 1 hX h1) hX
    rw [(intScale_value X 1 hX.1 h1).1]; simp

theorem C16_intScale_witness :
    Canonical [2 ^ 64 - 1, 2 ^ 64 - 1, 7] ∧ 2 ^ 64 - 1 < WORD ∧
    value (intScale [2 ^ 64 - 1, 2 ^ 64 - 1, 7] (2 ^ 64 - 1)) =
      value [2 ^ 64 - 1, 2 ^ 64 - 1, 7] * (2 ^ 64 - 1) :=
  ⟨by decide, by decide,
    (C16_intScale [2 ^ 64 - 1, 2 ^ 64 - 1, 7] (2 ^ 64 - 1) (by decide) (by decide)).1⟩

/-! ## Claim C17: `intSub` has no check of its operands -/

theorem subSentinel_cases (done : List Nat) (rz c : Nat) :
    subSentinel done rz c = Outcome.hang ∨ ∃ x r, subSentinel done rz c = Outcome.clobber x r := by
  unfold subSentinel
  by_cases h0 : c = 0
  · rw [if_pos h0]; exact Or.inr ⟨_, _, rfl⟩
  · rw [if_neg h0]
    by_cases h1 : (subStep rz rz c).2 = 0
    · rw [if_pos h1]; exact Or.inr ⟨_, _, rfl⟩
    · rw [if_neg h1]; exact Or.inl rfl

theorem subPastEnd_cases (done : List Nat) : ∀ (ys : List Nat) (rz c : Nat),
    subPastEnd done ys rz c = Outcome.hang ∨
      ∃ x r, subPastEnd done ys rz c = Outcome.clobber x r := by
  intro ys
  induction ys with
  | nil => intro rz c; exact subSentinel_cases done rz c
  | cons y ys ih => intro rz c; exact ih _ _

theorem subCarry_cases : ∀ (xs acc : List Nat) (c : Nat), SubEnds (subCarry acc xs c) := by
  intro xs
  induction xs with
  | nil =>
    intro acc c
    cases c with
    | zero => exact Or.inl ⟨_, rfl⟩
    | succ c => exact Or.inr (subSentinel_cases _ _ _)
  | cons x xs ih =>
    intro acc c
    cases c with
    | zero => exact Or.inl ⟨_, rfl⟩
    | succ c => exact ih _ _

theorem subLoop_cases : ∀ (ys xs acc : List Nat) (c : Nat), SubEnds (subLoop acc xs ys c) := by
  intro ys
  induction ys with
  | nil =>
    intro xs acc c
    have h : subLoop acc xs [] c = subCarry acc xs c := by
      cases xs <;> rfl
    rw [h]; exact subCarry_cases xs acc c
  | cons y ys ih =>
    intro xs acc c
    cases xs with
    | nil => exact Or.inr (subPastEnd_cases _ _ _ _)
    | cons x xs => exact ih _ _ _

/-- Counterexample to claim C17 as stated: `X = 5 * 2^64 + 1` is below
`Y = 5 * 2^64 + 2`, and `intSub(X, Y)` returns with the chain of
`(2^64 - 2) * 2^64 + 2^64 - 1` left in `X`. -/
theorem C17_intSub_returns_below :
    Canonical [1, 5] ∧ Canonical [2, 5] ∧ value [1, 5] < value [2, 5] ∧
    intSub [1, 5] [2, 5] = Outcome.ret [2 ^ 64 - 1, 2 ^ 64 - 2] := by
  decide

/-- Claim C17 as amended: `intSub(X, Y)` makes no check of `X >= Y` and never aborts; for
every `X` and `Y`, with `X < Y` as well, the call returns with some chain left in `X`,
returns after a store into the shared terminator, or does not return. -/
theorem C17_intSub_never_aborts (X Y : List Nat) :
    intSub X Y ≠ Outcome.abort ∧
    ((∃ R, intSub X Y = Outcome.ret R) ∨ intSub X Y = Outcome.hang ∨
      ∃ x r, intSub X Y = Outcome.clobber x r) := by
  have h : SubEnds (intSub X Y) := subLoop_cases Y X [] 0
  refine ⟨?_, h⟩
  rcases h with ⟨R, h⟩ | h | ⟨x, r, h⟩ <;> rw [h] <;> simp

/-! ## Claim C18: a zero divisor or modulus -/

/-- Claim C18: for every `X`, `intMod(X, 0)` and `intDiv(X, 0)` stop on the assertion
`Y->next != &rootZero`, and for every `X` and every exponent `Y`, zero as well,
`intModExp(X, Y, 0)` stops on the same assertion in its first call of `intMod`; no value
is returned. -/
theorem C18_zero_divisor_aborts (X Y : List Nat) :
    intMod X [] = Outcome.abort ∧ intDiv X [] = Outcome.abort ∧
    intModExp X Y [] = Outcome.abort := by
  refine ⟨by simp [intMod], by simp [intDiv], ?_⟩
  cases Y with
  | nil => simp [intModExp, modExpNodes, Outcome.bind, intMod]
  | cons y ys =>
    have h : modExpBits INT_SIZE y X [1] [] = Outcome.abort := by
      show modExpBits (63 + 1) y X [1] [] = Outcome.abort
      simp [modExpBits, intMod, Outcome.bind]
    simp [intModExp, modExpNodes, h, Outcome.bind]

/-! ## Claims C19 and C20: `intCryptoRandom` -/

/-- Claim C19, where the code departs from it: for the bound `X = 2 * 2^64 + 1` and
random bytes that make the nodes `0` and `3 * 2^62`, the draw is `3 * 2^64` after the
shift by `62`, and `intMod` of it by `X` never returns: the borrow of `intSub` is `2`
after the first node and `1` after the second, and the loop stays on `rootZero`. -/
theorem C19_cryptoRandom_hangs :
    Canonical [1, 2] ∧ 0 < value [1, 2] ∧
    intCryptoRandomNodes stuckSources 2 0 = [0, 3 * 2 ^ 62] ∧
    intRShift [0, 3 * 2 ^ 62] 62 = [0, 3] ∧
    intSub [0, 3] [1, 2] = Outcome.hang ∧
    intCryptoRandom stuckSources [1, 2] 0 = Outcome.hang := by
  refine ⟨by decide, by decide, by decide!, by decide!, by decide!, by decide!⟩

theorem failedCall_sources (delivered : Nat → Nat → Nat) :
    callSources (fun i => failedCall (delivered i)) =
      ⟨2147483647, fun _ => 0, fun _ j => if j = 7 then 0x28 else 0⟩ := by
  have hb : ∀ i j, (failedCall (delivered i)).buffer j = if j = 7 then 0x28 else 0 := by
    intro i j
    have h : ¬ ((j : Int) < -1) := by omega
    simp [GetrandomCall.buffer, failedCall, h]
  unfold callSources
  simp only [hb]

/-- Claim C20, where the code departs from it: when the call of `getrandom` fails
(returns `-1` and stores nothing), `intCryptoRandom` with the bound `16` does not abort:
whatever bytes the kernel had to give, it returns the value `5` built from the bytes that
were in the array `randomData` before the call. -/
theorem C20_failed_getrandom_returns (delivered : Nat → Nat → Nat) :
    (failedCall (delivered 0)).status = -1 ∧
    intCryptoRandom (callSources (fun i => failedCall (delivered i))) [16] 0 =
      Outcome.ret ([5], [16], 1) := by
  refine ⟨rfl, ?_⟩
  rw [failedCall_sources]
  decide!

/-! ## Canonical results of `intSub` -/

theorem words_reverse {X : List Nat} (h : Words X) : Words X.reverse := by
  intro d hd
  exact h d (List.mem_reverse.1 hd)

theorem trim_last : ∀ X : List Nat, (trim X).getLast? ≠ some 0 := by
  intro X
  induction X with
  | nil => simp [trim]
  | cons d ds ih =>
    unfold trim
    cases h : trim ds with
    | nil =>
      by_cases h0 : d = 0
      · simp [h0]
      · simp [h0]
    | cons t ts =>
      rw [h] at ih
      show (d :: t :: ts).getLast? ≠ some 0
      rw [getLast?_cons_ne_nil (by simp)]
      exact ih

theorem trim_words : ∀ X : List Nat, Words X → Words (trim X) := by
  intro X
  induction X with
  | nil => intro h; exact h
  | cons d ds ih =>
    intro h
    have hd := (words_cons.1 h).1
    have hds := ih (words_cons.1 h).2
    unfold trim
    cases h1 : trim ds with
    | nil =>
      by_cases h0 : d = 0
      · simp [h0, words_nil]
      · simp only [h0, if_false]
        exact words_cons.2 ⟨hd, words_nil⟩
    | cons t ts =>
      rw [h1] at hds
      exact words_cons.2 ⟨hd, hds⟩

theorem trim_canonical (X : List Nat) (h : Words X) : Canonical (trim X) :=
  ⟨trim_words X h, trim_last X⟩

theorem subStep_lt (x y c : Nat) : (subStep x y c).1 < WORD :=
  Nat.mod_lt _ WORD_pos

theorem canonical_append {A X : List Nat} (hA : Words A) (hX : Canonical X) (hne : X ≠ []) :
    Canonical (A ++ X) := by
  refine ⟨words_append.2 ⟨hA, hX.1⟩, ?_⟩
  rw [List.getLast?_append_of_ne_nil _ hne]
  exact hX.2

theorem subCarry_ret_canonical : ∀ (xs acc : List Nat) (c : Nat) (R : List Nat),
    Words acc → Canonical xs → subCarry acc xs c = Outcome.ret R → Canonical R := by
  intro xs
  induction xs with
  | nil =>
    intro acc c R hacc _ h
    cases c with
    | zero =>
      have h2 : Outcome.ret (trim acc.reverse) = Outcome.ret R := h
      injection h2 with h3
      rw [← h3]; exact trim_canonical _ (words_reverse hacc)
    | succ c =>
      have h2 : subSentinel acc.reverse 0 (c + 1) = Outcome.ret R := h
      rcases subSentinel_cases acc.reverse 0 (c + 1) with h3 | ⟨x, r, h3⟩ <;>
        rw [h3] at h2 <;> cases h2
  | cons x xs ih =>
    intro acc c R hacc hxs h
    cases c with
    | zero =>
      have h2 : Outcome.ret (acc.reverse ++ x :: xs) = Outcome.ret R := h
      injection h2 with h3
      rw [← h3]; exact canonical_append (words_reverse hacc) hxs (by simp)
    | succ c =>
      exact ih _ _ R (words_cons.2 ⟨subStep_lt _ _ _, hacc⟩) (canonical_tail hxs) h

theorem subLoop_ret_canonical : ∀ (ys xs acc : List Nat) (c : Nat) (R : List Nat),
    Words acc → Canonical xs → subLoop acc xs ys c = Outcome.ret R → Canonical R := by
  intro ys
  induction ys with
  | nil =>
    intro xs acc c R hacc hxs h
    have h1 : subLoop acc xs [] c = subCarry acc xs c := by
      cases xs <;> rfl
    rw [h1] at h
    exact subCarry_ret_canonical xs acc c R hacc hxs h
  | cons y ys ih =>
    intro xs acc c R hacc hxs h
    cases xs with
    | nil =>
      have h2 : subPastEnd acc.reverse (y :: ys) 0 c = Outcome.ret R := h
      rcases subPastEnd_cases acc.reverse (y :: ys) 0 c with h3 | ⟨x, r, h3⟩ <;>
        rw [h3] at h2 <;> cases h2
    | cons x xs =>
      exact ih _ _ _ R (words_cons.2 ⟨subStep_lt _ _ _, hacc⟩) (canonical_tail hxs) h

/-- Whatever `intSub` returns on a canonical `X` is canonical. -/
theorem intSub_ret_canonical (X Y R : List Nat) (hX : Canonical X)
    (h : intSub X Y = Outcome.ret R) : Canonical R :=
  subLoop_ret_canonical Y X [] 0 R words_nil hX h

/-! ## Canonical results of `intMod`, `intDiv` and `intModExp` -/

theorem Outcome.bind_eq_ret {α β : Type} {o : Outcome α} {f : α → Outcome β} {b : β}
    (h : o.bind f = Outcome.ret b) : ∃ a, o = Outcome.ret a ∧ f a = Outcome.ret b := by
  cases o with
  | ret a => exact ⟨a, rfl, h⟩
  | hang => cases h
  | clobber x rz => cases h
  | abort => cases h
  | fuel => cases h

theorem intRShiftSmall_one_canonical (Y : List Nat) (hY : Canonical Y) :
    Canonical (intRShiftSmall Y 1) :=
  (rshiftNodes_spec 1 (by norm_num) (by norm_num) Y hY).2

theorem modLoop_ret_canonical : ∀ (e : Nat) (X Y : List Nat) (r : List Nat × List Nat),
    Canonical X → Canonical Y → modLoop e X Y = Outcome.ret r →
    Canonical r.1 ∧ Canonical r.2 := by
  intro e
  induction e with
  | zero =>
    intro X Y r hX hY h
    have h2 : Outcome.ret (X, Y) = Outcome.ret r := h
    injection h2 with h3
    rw [← h3]; exact ⟨hX, hY⟩
  | succ e ih =>
    intro X Y r hX hY h
    have hY1 := intRShiftSmall_one_canonical Y hY
    rw [modLoop] at h
    by_cases hc : intFineCompare X (intRShiftSmall Y 1) < 2
    · rw [if_pos hc] at h
      obtain ⟨X1, h1, h2⟩ := Outcome.bind_eq_ret h
      exact ih X1 _ r (intSub_ret_canonical X _ X1 hX h1) hY1 h2
    · rw [if_neg hc] at h
      exact ih X _ r hX hY1 h

theorem intMod_ret_canonical (X Y : List Nat) (r : List Nat × List Nat)
    (hX : Canonical X) (hY : Canonical Y) (h : intMod X Y = Outcome.ret r) :
    Canonical r.1 ∧ Canonical r.2 := by
  unfold intMod at h
  by_cases h0 : Y = []
  · rw [if_pos h0] at h; cases h
  · rw [if_neg h0] at h
    by_cases h1 : intCompare X Y < 0
    · rw [if_pos h1] at h
      injection h with h3
      rw [← h3]; exact ⟨hX, hY⟩
    · rw [if_neg h1] at h
      exact modLoop_ret_canonical _ X _ r hX (intLShift_spec Y _ hY).2 h

theorem divLoop_ret_canonical : ∀ (e : Nat) (X Y P Q : List Nat)
    (r : List Nat × List Nat × List Nat),
    Canonical X → Canonical Y → Canonical P → Canonical Q →
    divLoop e X Y P Q = Outcome.ret r →
    Canonical r.1 ∧ Canonical r.2.1 ∧ Canonical r.2.2 := by
  intro e
  induction e with
  | zero =>
    intro X Y P Q r hX hY _ hQ h
    have h2 : Outcome.ret (Q, X, Y) = Outcome.ret r := h
    injection h2 with h3
    rw [← h3]; exact ⟨hQ, hX, hY⟩
  | succ e ih =>
    intro X Y P Q r hX hY hP hQ h
    have hY1 := (intRShift_spec Y 1 hY).2
    have hP1 := (intRShift_spec P 1 hP).2
    rw [divLoop] at h
    by_cases hc : intFineCompare X (intRShift Y 1) < 2
    · rw [if_pos hc] at h
      obtain ⟨X1, h1, h2⟩ := Outcome.bind_eq_ret h
      exact ih X1 _ _ _ r (intSub_ret_canonical X _ X1 hX h1) hY1 hP1
        (intAdd_canonical _ _ hQ hP1) h2
    · rw [if_neg hc] at h
      exact ih X _ _ _ r hX hY1 hP1 hQ h

theorem intDiv_ret_canonical (X Y : List Nat) (r : List Nat × List Nat × List Nat)
    (hX : Canonical X) (hY : Canonical Y) (h : intDiv X Y = Outcome.ret r) :
    Canonical r.1 ∧ Canonical r.2.1 ∧ Canonical r.2.2 := by
  unfold intDiv at h
  by_cases h0 : Y = []
  · rw [if_pos h0] at h; cases h
  · rw [if_neg h0] at h
    by_cases hx0 : X = []
    · rw [if_pos hx0] at h
      injection h with h3
      rw [← h3]; exact ⟨canonical_nil, hX, hY⟩
    · rw [if_neg hx0] at h
      by_cases h1 : intCompare X Y < 0
      · rw [if_pos h1] at h
        injection h with h3
        rw [← h3]; exact ⟨canonical_nil, hX, hY⟩
      · rw [if_neg h1] at h
        exact divLoop_ret_canonical _ X _ _ _ r hX (intLShift_spec Y _ hY).2
          (intLShift_spec [1] _ (by decide)).2 canonical_nil h

theorem modExpBits_ret_canonical : ∀ (k bits : Nat) (W R Z : List Nat)
    (r : List Nat × List Nat × List Nat),
    Canonical W → Canonical R → Canonical Z →
    modExpBits k bits W R Z = Outcome.ret r →
    Canonical r.1 ∧ Canonical r.2.1 ∧ Canonical r.2.2 := by
  intro k
  induction k with
  | zero =>
    intro bits W R Z r hW hR hZ h
    have h2 : Outcome.ret (W, R, Z) = Outcome.ret r := h
    injection h2 with h3
    rw [← h3]; exact ⟨hW, hR, hZ⟩
  | succ k ih =>
    intro bits W R Z r hW hR hZ h
    rw [modExpBits] at h
    obtain ⟨wz, h1, h2⟩ := Outcome.bind_eq_ret h
    have hwz := intMod_ret_canonical W Z wz hW hZ h1
    by_cases hb : bits &&& 1 ≠ 0
    · rw [if_pos hb] at h2
      obtain ⟨rz, h3, h4⟩ := Outcome.bind_eq_ret h2
      have hrz := intMod_ret_canonical R wz.2 rz hR hwz.2 h3
      exact ih _ _ _ _ r (intMult_canonical _ _ hwz.1 hwz.1)
        (intMult_canonical _ _ hrz.1 hwz.1) hrz.2 h4
    · rw [if_neg hb] at h2
      exact ih _ _ _ _ r (intMult_canonical _ _ hwz.1 hwz.1) hR hwz.2 h2

theorem modExpNodes_ret_canonical : ∀ (Y W R Z : List Nat)
    (r : List Nat × List Nat × List Nat),
    Canonical W → Canonical R → Canonical Z →
    modExpNodes Y W R Z = Outcome.ret r →
    Canonical r.1 ∧ Canonical r.2.1 ∧ Canonical r.2.2 := by
  intro Y
  induction Y with
  | nil =>
    intro W R Z r hW hR hZ h
    have h2 : Outcome.ret (W, R, Z) = Outcome.ret r := h
    injection h2 with h3
    rw [← h3]; exact ⟨hW, hR, hZ⟩
  | cons y ys ih =>
    intro W R Z r hW hR hZ h
    rw [modExpNodes] at h
    obtain ⟨s, h1, h2⟩ := Outcome.bind_eq_ret h
    have hs := modExpBits_ret_canonical _ _ W R Z s hW hR hZ h1
    exact ih _ _ _ r hs.1 hs.2.1 hs.2.2 h2

theorem intModExp_ret_canonical (X Y Z : List Nat) (r : List Nat × List Nat)
    (hX : Canonical X) (hZ : Canonical Z) (h : intModExp X Y Z = Outcome.ret r) :
    Canonical r.1 ∧ Canonical r.2 := by
  unfold intModExp at h
  obtain ⟨s, h1, h2⟩ := Outcome.bind_eq_ret h
  have hs := modExpNodes_ret_canonical Y X [1] Z s hX (by decide) hZ h1
  exact intMod_ret_canonical _ _ r hs.2.1 hs.2.2 h2

/-! ## Canonical results of `intFromString` and `intEncodeString` -/

theorem fromStringLoop_terminator : ∀ (s chain : List Nat) (nibble : Nat),
    fromStringLoop (s ++ [0]) chain nibble = fromStringLoop s chain nibble := by
  intro s
  induction s with
  | nil => intro chain nibble; simp [fromStringLoop]
  | cons c cs ih =>
    intro chain nibble
    show fromStringLoop (c :: (cs ++ [0])) chain nibble = fromStringLoop (c :: cs) chain nibble
    simp only [fromStringLoop, ih]

theorem buffer_split (buffer : List Nat) :
    (∀ c ∈ buffer, c ≠ 0) ∨
      ∃ s rest, buffer = s ++ 0 :: rest ∧ ∀ c ∈ s, c ≠ 0 := by
  induction buffer with
  | nil => exact Or.inl (by simp)
  | cons b bs ih =>
    by_cases hb : b = 0
    · exact Or.inr ⟨[], bs, by simp [hb], by simp⟩
    · rcases ih with h | ⟨s, rest, h1, h2⟩
      · refine Or.inl ?_
        intro c hc
        rcases List.mem_cons.1 hc with h3 | h3
        · rw [h3]; exact hb
        · exact h c h3
      · refine Or.inr ⟨b :: s, rest, by simp [h1], ?_⟩
        intro c hc
        rcases List.mem_cons.1 hc with h3 | h3
        · rw [h3]; exact hb
        · exact h2 c h3

/-- The chain built by `intFromString` from any buffer is canonical. -/
theorem intFromString_canonical (buffer : List Nat) : Canonical (intFromString buffer) := by
  rcases buffer_split buffer with h | ⟨s, rest, h1, h2⟩
  · have h3 := (intFromString_spec buffer [] h).1
    unfold intFromString at h3 ⊢
    rw [fromStringLoop_terminator] at h3
    exact h3
  · rw [h1]; exact (intFromString_spec s rest h2).1

theorem encodeNode_lt (charSigned : Bool) : ∀ (j : Nat) (buffer : List Nat) (data : Nat),
    data < WORD → (encodeNode charSigned j buffer data).1 < WORD := by
  intro j
  induction j with
  | zero => intro buffer data h; exact h
  | succ j ih =>
    intro buffer data h
    rw [encodeNode]
    by_cases h0 : charToU32 charSigned (buffer.headD 0) = 0
    · rw [if_pos h0]; exact Nat.mod_lt _ WORD_pos
    · rw [if_neg h0]; exact ih _ _ (Nat.mod_lt _ WORD_pos)

theorem encodeLoop_words (charSigned : Bool) : ∀ (k : Nat) (buffer : List Nat),
    Words (encodeLoop charSigned k buffer) := by
  intro k
  induction k with
  | zero => intro buffer; exact words_nil
  | succ k ih =>
    intro buffer
    rw [encodeLoop]
    refine words_cons.2 ⟨encodeNode_lt charSigned _ _ 0 WORD_pos, ?_⟩
    by_cases h : (encodeNode charSigned (INT_SIZE / 8) buffer 0).2.2 = true
    · rw [if_pos h]; exact ih _
    · rw [if_neg h]; exact words_nil

/-- The chain built by `intEncodeString` from any buffer is canonical. -/
theorem intEncodeString_canonical (charSigned : Bool) (buffer : List Nat) :
    Canonical (intEncodeString charSigned buffer) :=
  trim_canonical _ (encodeLoop_words charSigned _ buffer)

/-! ## `intFineCompare` on chains that are not both zero -/

theorem compareCode_add (a b t : Nat) : compareCode (a + t) (b + t) = compareCode a b := by
  unfold compareCode
  by_cases h1 : a = b
  · simp [h1]
  · have h2 : a + t ≠ b + t := by omega
    rw [if_neg h1, if_neg h2]
    by_cases h3 : a > b
    · have h4 : a + t > b + t := by omega
      rw [if_pos h3, if_pos h4]
    · have h4 : ¬ a + t > b + t := by omega
      rw [if_neg h3, if_neg h4]

theorem compareCode_gt {a b : Nat} (h : a > b) : compareCode a b = 1 := by
  unfold compareCode
  have h1 : a ≠ b := by omega
  rw [if_neg h1, if_pos h]

theorem compareCode_lt {a b : Nat} (h : a < b) : compareCode a b = 2 := by
  unfold compareCode
  have h1 : a ≠ b := by omega
  have h2 : ¬ a > b := by omega
  rw [if_neg h1, if_neg h2]

/-- A difference in a digit outweighs the digits below it. -/
theorem compareCode_digit (p lx ly x y : Nat) (hx : lx < p) (hy : ly < p) :
    (if x > y then 1 else if x < y then 2 else compareCode lx ly) =
      compareCode (lx + p * x) (ly + p * y) := by
  by_cases h1 : x > y
  · rw [if_pos h1]
    have h2 : p * (y + 1) ≤ p * x := Nat.mul_le_mul_left p h1
    rw [Nat.mul_add, Nat.mul_one] at h2
    exact (compareCode_gt (by omega)).symm
  · rw [if_neg h1]
    by_cases h2 : x < y
    · rw [if_pos h2]
      have h3 : p * (x + 1) ≤ p * y := Nat.mul_le_mul_left p h2
      rw [Nat.mul_add, Nat.mul_one] at h3
      exact (compareCode_lt (by omega)).symm
    · rw [if_neg h2]
      have h3 : x = y := by omega
      subst h3
      exact (compareCode_add lx ly _).symm

theorem fineLoop_spec : ∀ (X Y : List Nat), X.length = Y.length → X ≠ [] →
    Words X → Words Y → X.getLast? = Y.getLast? →
    ∀ (k lx ly : Nat), lx < WORD ^ k → ly < WORD ^ k →
    fineLoop X Y (compareCode lx ly) =
      compareCode (lx + WORD ^ k * value X) (ly + WORD ^ k * value Y) := by
  intro X
  induction X with
  | nil => intro Y _ h; exact absurd rfl h
  | cons x xs ih =>
    intro Y hlen _ hX hY hlast k lx ly hlx hly
    cases Y with
    | nil => simp at hlen
    | cons y ys =>
      have hlen2 : xs.length = ys.length := by simpa using hlen
      cases xs with
      | nil =>
        have hys : ys = [] := List.length_eq_zero.1 hlen2.symm
        subst hys
        have hxy : x = y := by simpa using hlast
        subst hxy
        exact (compareCode_add lx ly _).symm
      | cons x1 xs1 =>
        have hyne : ys ≠ [] := by
          intro h0; subst h0; simp at hlen2
        have hxw := (words_cons.1 hX).1
        have hyw := (words_cons.1 hY).1
        show fineLoop (x1 :: xs1) ys
          (if x > y then 1 else if x < y then 2 else compareCode lx ly) = _
        rw [compareCode_digit (WORD ^ k) lx ly x y hlx hly]
        have hb : ∀ l d, l < WORD ^ k → d < WORD → l + WORD ^ k * d < WORD ^ (k + 1) := by
          intro l d hl hd
          have h1 : WORD ^ k * (d + 1) ≤ WORD ^ k * WORD := Nat.mul_le_mul_left _ hd
          rw [Nat.mul_add, Nat.mul_one] at h1
          rw [pow_succ]
          omega
        have hl2 : (x1 :: xs1).getLast? = ys.getLast? := by
          rw [getLast?_cons_ne_nil (by simp), getLast?_cons_ne_nil hyne] at hlast
          exact hlast
        rw [ih ys hlen2 (by simp) (words_cons.1 hX).2 (words_cons.1 hY).2 hl2 (k + 1) _ _
          (hb lx x hlx hxw) (hb ly y hly hyw)]
        show _ = compareCode (lx + WORD ^ k * (x + WORD * value (x1 :: xs1)))
          (ly + WORD ^ k * (y + WORD * value ys))
        congr 1 <;> rw [pow_succ] <;> ring

/-- The value of a chain seen from its last node. -/
theorem value_dropLast (X : List Nat) (hne : X ≠ []) :
    value X = value X.dropLast + WORD ^ (X.length - 1) * X.getLastD 0 := by
  have h := List.dropLast_append_getLast hne
  have h2 : X.getLastD 0 = X.getLast hne := by
    cases X with
    | nil => exact absurd rfl hne
    | cons x xs => rw [List.getLastD_cons, List.getLast_eq_getLastD]
  conv_lhs => rw [← h]
  rw [value_append, List.length_dropLast, h2]
  simp [value]

theorem words_dropLast {X : List Nat} (h : Words X) : Words X.dropLast := by
  intro d hd
  exact h d (List.mem_of_mem_dropLast hd)

/-- With the same number of nodes, the chain with the greater last node is greater. -/
theorem value_lt_of_last_lt (X Y : List Nat) (hX : Words X) (hlen : X.length = Y.length)
    (hne : X ≠ []) (h : X.getLastD 0 < Y.getLastD 0) : value X < value Y := by
  have hYne : Y ≠ [] := by
    intro h0; subst h0
    exact hne (List.length_eq_zero.1 hlen)
  rw [value_dropLast X hne, value_dropLast Y hYne, ← hlen]
  have h1 := value_lt X.dropLast (words_dropLast hX)
  rw [List.length_dropLast] at h1
  have h2 : WORD ^ (X.length - 1) * (X.getLastD 0 + 1) ≤ WORD ^ (X.length - 1) * Y.getLastD 0 :=
    Nat.mul_le_mul_left _ h
  rw [Nat.mul_add, Nat.mul_one] at h2
  omega

theorem value_lt_of_length_lt (X Y : List Nat) (hX : Canonical X) (hY : Canonical Y)
    (h : X.length < Y.length) : value X < value Y := by
  have h1 := (canonical_length_le X hX X.length).1 (le_refl _)
  have h2 : ¬ value Y < WORD ^ X.length := by
    intro h3
    have := (canonical_length_le Y hY X.length).2 h3
    omega
  omega

theorem getLastD_eq_of_ne_nil (X : List Nat) (a b : Nat) (hne : X ≠ []) :
    X.getLastD a = X.getLastD b := by
  cases X with
  | nil => exact absurd rfl hne
  | cons x xs => simp [List.getLastD]

/-- `intFineCompare` orders canonical chains by their values, whatever the addresses of
the two heads, unless both chains are zero. -/
theorem intFineCompareAt_spec (ax ay : Nat) (X Y : List Nat) (hX : Canonical X)
    (hY : Canonical Y) (hne : X ≠ [] ∨ Y ≠ []) :
    intFineCompareAt ax ay X Y = compareCode (value X) (value Y) := by
  have hone : ∀ Z : List Nat, intHeadCompare ax ay X Y = 1 →
      (if intHeadCompare ax ay X Y ≠ 0 then intHeadCompare ax ay X Y else
        fineLoop X Z (intHeadCompare ax ay X Y)) = 1 := by
    intro Z h; rw [h]; rfl
  have htwo : ∀ Z : List Nat, intHeadCompare ax ay X Y = 2 →
      (if intHeadCompare ax ay X Y ≠ 0 then intHeadCompare ax ay X Y else
        fineLoop X Z (intHeadCompare ax ay X Y)) = 2 := by
    intro Z h; rw [h]; rfl
  unfold intFineCompareAt
  by_cases h1 : X.length > Y.length
  · have hv := value_lt_of_length_lt Y X hY hX h1
    rw [compareCode_gt hv]
    apply hone
    unfold intHeadCompare
    rw [if_pos h1]
  · by_cases h2 : Y.length > X.length
    · have hv := value_lt_of_length_lt X Y hX hY h2
      rw [compareCode_lt hv]
      apply htwo
      unfold intHeadCompare
      rw [if_neg h1, if_pos h2]
    · have hlen : X.length = Y.length := by omega
      have hXne : X ≠ [] := by
        rcases hne with h | h
        · exact h
        · intro h0; subst h0
          exact h (List.length_eq_zero.1 hlen.symm)
      have hYne : Y ≠ [] := by
        intro h0; subst h0
        exact hXne (List.length_eq_zero.1 hlen)
      have hax : lastData ax X = X.getLastD 0 := getLastD_eq_of_ne_nil X ax 0 hXne
      have hay : lastData ay Y = Y.getLastD 0 := getLastD_eq_of_ne_nil Y ay 0 hYne
      by_cases h3 : X.getLastD 0 > Y.getLastD 0
      · have hv := value_lt_of_last_lt Y X hY.1 hlen.symm hYne h3
        rw [compareCode_gt hv]
        apply hone
        unfold intHeadCompare
        rw [if_neg h1, if_neg h2, hax, hay, if_pos h3]
      · by_cases h4 : Y.getLastD 0 > X.getLastD 0
        · have hv := value_lt_of_last_lt X Y hX.1 hlen hXne h4
          rw [compareCode_lt hv]
          apply htwo
          unfold intHeadCompare
          rw [if_neg h1, if_neg h2, hax, hay, if_neg h3, if_pos h4]
        · have hh : intHeadCompare ax ay X Y = 0 := by
            unfold intHeadCompare
            rw [if_neg h1, if_neg h2, hax, hay, if_neg h3, if_neg h4]
          have hl : X.getLast? = Y.getLast? := by
            have e1 : X.getLastD 0 = Y.getLastD 0 := by omega
            cases X with
            | nil => exact absurd rfl hXne
            | cons x xs =>
              cases Y with
              | nil => exact absurd rfl hYne
              | cons y ys =>
                rw [List.getLastD_cons, List.getLastD_cons, List.getLastD_eq_getLast?,
                  List.getLastD_eq_getLast?] at e1
                rw [List.getLast?_cons, List.getLast?_cons]
                exact congrArg some e1
          have hs := fineLoop_spec X Y hlen hXne hX.1 hY.1 hl 0 0 0 (by simp) (by simp)
          have hc : compareCode 0 0 = 0 := rfl
          rw [hc] at hs
          rw [hh, if_neg (by simp), hs]
          simp

theorem intFineCompare_spec (X Y : List Nat) (hX : Canonical X) (hY : Canonical Y) :
    intFineCompare X Y = compareCode (value X) (value Y) := by
  by_cases hne : X ≠ [] ∨ Y ≠ []
  · exact intFineCompareAt_spec 0 0 X Y hX hY hne
  · have h1 : X = [] := by
      by_contra h; exact hne (Or.inl h)
    have h2 : Y = [] := by
      by_contra h; exact hne (Or.inr h)
    subst h1; subst h2
    decide

/-! ## How `intSub` ends when `X >= Y` -/

/-- A pass of `intSub` whose word of `X` is not below that of `Y` leaves a carry of at
most `1`. -/
theorem subStep_carry_le (x y c : Nat) (h : y ≤ x) : (subStep x y c).2 ≤ 1 := by
  unfold subStep
  have h1 : ¬ x < y := by omega
  simp only [if_neg h1, zero_add]
  split <;> omega

theorem subSentinel_one (done : List Nat) : subSentinel done 0 1 = Outcome.hang := by
  have h : (subStep 0 0 1).2 = 1 := by decide
  unfold subSentinel
  rw [if_neg (by norm_num), h, if_neg (by norm_num)]

theorem subCarry_ends : ∀ (xs acc : List Nat) (c : Nat), Words acc → Canonical xs →
    (c ≤ 1 ∨ xs ≠ []) →
    (∃ R, subCarry acc xs c = Outcome.ret R ∧ Canonical R) ∨
      subCarry acc xs c = Outcome.hang := by
  intro xs
  induction xs with
  | nil =>
    intro acc c hacc _ hc
    have hc1 : c ≤ 1 := by
      rcases hc with h | h
      · exact h
      · exact absurd rfl h
    cases c with
    | zero => exact Or.inl ⟨_, rfl, trim_canonical _ (words_reverse hacc)⟩
    | succ c =>
      have h0 : c = 0 := by omega
      subst h0
      exact Or.inr (subSentinel_one _)
  | cons x xs ih =>
    intro acc c hacc hxs _
    cases c with
    | zero =>
      exact Or.inl ⟨_, rfl, canonical_append (words_reverse hacc) hxs (by simp)⟩
    | succ c =>
      exact ih _ _ (words_cons.2 ⟨subStep_lt _ _ _, hacc⟩) (canonical_tail hxs)
        (Or.inl (subStep_carry_le x 0 (c + 1) (Nat.zero_le x)))

theorem subLoop_ends : ∀ (ys xs acc : List Nat) (c : Nat), Words acc → Canonical xs →
    (ys.length < xs.length ∨
      (ys.length = xs.length ∧ (ys = [] → c ≤ 1) ∧ ys.getLastD 0 ≤ xs.getLastD 0)) →
    (∃ R, subLoop acc xs ys c = Outcome.ret R ∧ Canonical R) ∨
      subLoop acc xs ys c = Outcome.hang := by
  intro ys
  induction ys with
  | nil =>
    intro xs acc c hacc hxs h
    have h1 : subLoop acc xs [] c = subCarry acc xs c := by
      cases xs <;> rfl
    rw [h1]
    apply subCarry_ends xs acc c hacc hxs
    rcases h with h | ⟨_, h, _⟩
    · right; intro h0; subst h0; simp at h
    · left; exact h rfl
  | cons y ys ih =>
    intro xs acc c hacc hxs h
    cases xs with
    | nil =>
      rcases h with h | ⟨h, _⟩ <;> simp at h
    | cons x xs =>
      show (∃ R, subLoop ((subStep x y c).1 :: acc) xs ys (subStep x y c).2 = Outcome.ret R ∧
        Canonical R) ∨ subLoop ((subStep x y c).1 :: acc) xs ys (subStep x y c).2 = Outcome.hang
      apply ih _ _ _ (words_cons.2 ⟨subStep_lt _ _ _, hacc⟩) (canonical_tail hxs)
      rcases h with h | ⟨h1, _, h3⟩
      · left; simpa using h
      · right
        have hlen : ys.length = xs.length := by simpa using h1
        refine ⟨hlen, ?_, ?_⟩
        · intro h0
          subst h0
          have hx0 : xs = [] := List.length_eq_zero.1 hlen.symm
          subst hx0
          exact subStep_carry_le x y c (by simpa using h3)
        · cases ys with
          | nil =>
            have hx0 : xs = [] := List.length_eq_zero.1 hlen.symm
            subst hx0
            simp
          | cons y1 ys1 =>
            cases xs with
            | nil => simp at hlen
            | cons x1 xs1 =>
              rw [List.getLastD_cons, List.getLastD_cons] at h3
              rw [List.getLastD_cons, List.getLastD_cons]
              rw [List.getLastD_eq_getLast?, List.getLastD_eq_getLast?] at h3 ⊢
              rw [List.getLast?_cons, List.getLast?_cons] at h3
              simpa using h3

/-- For canonical `X >= Y`, `intSub(X, Y)` returns with a canonical chain left in `X`, or
it does not return; it never stores into `rootZero`. -/
theorem intSub_ends (X Y : List Nat) (hX : Canonical X) (hY : Canonical Y)
    (h : value Y ≤ value X) :
    (∃ R, intSub X Y = Outcome.ret R ∧ Canonical R) ∨ intSub X Y = Outcome.hang := by
  apply subLoop_ends Y X [] 0 words_nil hX
  by_cases h1 : Y.length < X.length
  · exact Or.inl h1
  · right
    have h2 : Y.length = X.length := by
      by_contra h3
      have := value_lt_of_length_lt X Y hX hY (by omega)
      omega
    refine ⟨h2, fun _ => Nat.zero_le 1, ?_⟩
    by_contra h3
    have hXne : X ≠ [] := by
      intro h0; subst h0
      have := List.length_eq_zero.1 h2
      subst this
      simp at h3
    have := value_lt_of_last_lt X Y hX.1 h2.symm hXne (by omega)
    omega

/-! ## How `intMod`, `intDiv` and `intModExp` end -/

theorem compareCode_lt_two {a b : Nat} (h : compareCode a b < 2) : b ≤ a := by
  by_contra h1
  rw [compareCode_lt (by omega : a < b)] at h
  omega

theorem Outcome.hang_bind {α β : Type} (f : α → Outcome β) :
    (Outcome.hang : Outcome α).bind f = Outcome.hang := rfl

theorem modLoop_ends : ∀ (e : Nat) (X Y : List Nat), Canonical X → Canonical Y →
    (∃ R Y1, modLoop e X Y = Outcome.ret (R, Y1) ∧ Canonical R ∧ Canonical Y1 ∧
      value Y1 = value Y / 2 ^ e) ∨ modLoop e X Y = Outcome.hang := by
  intro e
  induction e with
  | zero =>
    intro X Y hX hY
    exact Or.inl ⟨X, Y, rfl, hX, hY, by simp⟩
  | succ e ih =>
    intro X Y hX hY
    have hs := rshiftNodes_spec 1 (by norm_num) (by norm_num) Y hY
    have hY1 : Canonical (intRShiftSmall Y 1) := hs.2
    have hv1 : value (intRShiftSmall Y 1) = value Y / 2 ^ 1 := hs.1
    have hpow : value Y / 2 ^ 1 / 2 ^ e = value Y / 2 ^ (e + 1) := by
      rw [Nat.div_div_eq_div_mul, ← pow_add, Nat.add_comm]
    have step : ∀ X1, Canonical X1 →
        (∃ R Y2, modLoop e X1 (intRShiftSmall Y 1) = Outcome.ret (R, Y2) ∧ Canonical R ∧
          Canonical Y2 ∧ value Y2 = value Y / 2 ^ (e + 1)) ∨
          modLoop e X1 (intRShiftSmall Y 1) = Outcome.hang := by
      intro X1 hX1
      rcases ih X1 _ hX1 hY1 with ⟨R, Y2, h1, h2, h3, h4⟩ | h1
      · exact Or.inl ⟨R, Y2, h1, h2, h3, by rw [h4, hv1, hpow]⟩
      · exact Or.inr h1
    rw [modLoop]
    by_cases hc : intFineCompare X (intRShiftSmall Y 1) < 2
    · rw [if_pos hc]
      rw [intFineCompare_spec X _ hX hY1] at hc
      rcases intSub_ends X _ hX hY1 (compareCode_lt_two hc) with ⟨X1, h1, h2⟩ | h1
      · rw [h1, Outcome.ret_bind]; exact step X1 h2
      · rw [h1]; exact Or.inr rfl
    · rw [if_neg hc]; exact step X hX

/-- For canonical `X` and `Y != 0`, `intMod(X, Y)` returns with a canonical chain left in
`X` and `Y` as it was, or it does not return. -/
theorem intMod_ends (X Y : List Nat) (hX : Canonical X) (hY : Canonical Y) (h0 : Y ≠ []) :
    (∃ R, intMod X Y = Outcome.ret (R, Y) ∧ Canonical R) ∨ intMod X Y = Outcome.hang := by
  unfold intMod
  rw [if_neg h0]
  by_cases h1 : intCompare X Y < 0
  · rw [if_pos h1]; exact Or.inl ⟨X, rfl, hX⟩
  · rw [if_neg h1]
    have hl := intLShift_spec Y (intCompare X Y + 2).toNat hY
    rcases modLoop_ends (intCompare X Y + 2).toNat X _ hX hl.2 with ⟨R, Y1, h2, h3, h4, h5⟩ | h2
    · left
      have hY1 : Y1 = Y := by
        apply canonical_unique _ _ h4 hY
        rw [h5, hl.1]
        exact Nat.mul_div_cancel _ (pow_pos (by norm_num) _)
      rw [hY1] at h2
      exact ⟨R, h2, h3⟩
    · exact Or.inr h2

theorem divLoop_ends : ∀ (e : Nat) (X Y P Q : List Nat), Canonical X → Canonical Y →
    Canonical P → Canonical Q →
    (∃ Q1 R Y1, divLoop e X Y P Q = Outcome.ret (Q1, R, Y1) ∧ Canonical Q1 ∧ Canonical R ∧
      Canonical Y1 ∧ value Y1 = value Y / 2 ^ e) ∨ divLoop e X Y P Q = Outcome.hang := by
  intro e
  induction e with
  | zero =>
    intro X Y P Q hX hY _ hQ
    exact Or.inl ⟨Q, X, Y, rfl, hQ, hX, hY, by simp⟩
  | succ e ih =>
    intro X Y P Q hX hY hP hQ
    have hs := intRShift_spec Y 1 hY
    have hP1 := (intRShift_spec P 1 hP).2
    have hpow : value Y / 2 ^ 1 / 2 ^ e = value Y / 2 ^ (e + 1) := by
      rw [Nat.div_div_eq_div_mul, ← pow_add, Nat.add_comm]
    have step : ∀ X1 Q0, Canonical X1 → Canonical Q0 →
        (∃ Q1 R Y2, divLoop e X1 (intRShift Y 1) (intRShift P 1) Q0 = Outcome.ret (Q1, R, Y2) ∧
          Canonical Q1 ∧ Canonical R ∧ Canonical Y2 ∧ value Y2 = value Y / 2 ^ (e + 1)) ∨
          divLoop e X1 (intRShift Y 1) (intRShift P 1) Q0 = Outcome.hang := by
      intro X1 Q0 hX1 hQ0
      rcases ih X1 _ _ Q0 hX1 hs.2 hP1 hQ0 with ⟨Q1, R, Y2, h1, h2, h3, h4, h5⟩ | h1
      · exact Or.inl ⟨Q1, R, Y2, h1, h2, h3, h4, by rw [h5, hs.1, hpow]⟩
      · exact Or.inr h1
    rw [divLoop]
    by_cases hc : intFineCompare X (intRShift Y 1) < 2
    · rw [if_pos hc]
      rw [intFineCompare_spec X _ hX hs.2] at hc
      rcases intSub_ends X _ hX hs.2 (compareCode_lt_two hc) with ⟨X1, h1, h2⟩ | h1
      · rw [h1, Outcome.ret_bind]; exact step X1 _ h2 (intAdd_canonical _ _ hQ hP1)
      · rw [h1]; exact Or.inr rfl
    · rw [if_neg hc]; exact step X Q hX hQ

/-- For canonical `X` and `Y != 0`, `intDiv(X, Y)` returns a canonical quotient, with a
canonical chain left in `X` and `Y` as it was, or it does not return. -/
theorem intDiv_ends (X Y : List Nat) (hX : Canonical X) (hY : Canonical Y) (h0 : Y ≠ []) :
    (∃ Q R, intDiv X Y = Outcome.ret (Q, R, Y) ∧ Canonical Q ∧ Canonical R) ∨
      intDiv X Y = Outcome.hang := by
  unfold intDiv
  rw [if_neg h0]
  by_cases hx0 : X = []
  · rw [if_pos hx0]; exact Or.inl ⟨[], X, rfl, canonical_nil, hX⟩
  · rw [if_neg hx0]
    by_cases h1 : intCompare X Y < 0
    · rw [if_pos h1]; exact Or.inl ⟨[], X, rfl, canonical_nil, hX⟩
    · rw [if_neg h1]
      have hl := intLShift_spec Y (intCompare X Y + 2).toNat hY
      rcases divLoop_ends (intCompare X Y + 2).toNat X _ _ [] hX hl.2
        (intLShift_spec [1] _ (by decide)).2 canonical_nil with
        ⟨Q1, R, Y1, h2, h3, h4, h5, h6⟩ | h2
      · left
        have hY1 : Y1 = Y := by
          apply canonical_unique _ _ h5 hY
          rw [h6, hl.1]
          exact Nat.mul_div_cancel _ (pow_pos (by norm_num) _)
        rw [hY1] at h2
        exact ⟨Q1, R, h2, h3, h4⟩
      · exact Or.inr h2

theorem modExpBits_ends : ∀ (k bits : Nat) (W R Z : List Nat), Canonical W → Canonical R →
    Canonical Z → Z ≠ [] →
    (∃ W1 R1, modExpBits k bits W R Z = Outcome.ret (W1, R1, Z) ∧ Canonical W1 ∧
      Canonical R1) ∨ modExpBits k bits W R Z = Outcome.hang := by
  intro k
  induction k with
  | zero =>
    intro bits W R Z hW hR _ _
    exact Or.inl ⟨W, R, rfl, hW, hR⟩
  | succ k ih =>
    intro bits W R Z hW hR hZ h0
    rw [modExpBits]
    rcases intMod_ends W Z hW hZ h0 with ⟨W1, h1, h2⟩ | h1
    · rw [h1, Outcome.ret_bind]
      by_cases hb : bits &&& 1 ≠ 0
      · rw [if_pos hb]
        rcases intMod_ends R Z hR hZ h0 with ⟨R1, h3, h4⟩ | h3
        · rw [h3, Outcome.ret_bind]
          exact ih _ _ _ _ (intMult_canonical _ _ h2 h2) (intMult_canonical _ _ h4 h2) hZ h0
        · rw [h3]; exact Or.inr rfl
      · rw [if_neg hb]
        exact ih _ _ _ _ (intMult_canonical _ _ h2 h2) hR hZ h0
    · rw [h1]; exact Or.inr rfl

theorem modExpNodes_ends : ∀ (Y W R Z : List Nat), Canonical W → Canonical R →
    Canonical Z → Z ≠ [] →
    (∃ W1 R1, modExpNodes Y W R Z = Outcome.ret (W1, R1, Z) ∧ Canonical W1 ∧
      Canonical R1) ∨ modExpNodes Y W R Z = Outcome.hang := by
  intro Y
  induction Y with
  | nil =>
    intro W R Z hW hR _ _
    exact Or.inl ⟨W, R, rfl, hW, hR⟩
  | cons y ys ih =>
    intro W R Z hW hR hZ h0
    rw [modExpNodes]
    rcases modExpBits_ends INT_SIZE y W R Z hW hR hZ h0 with ⟨W1, R1, h1, h2, h3⟩ | h1
    · rw [h1, Outcome.ret_bind]; exact ih _ _ _ h2 h3 hZ h0
    · rw [h1]; exact Or.inr rfl

/-- For canonical `X` and `Z != 0`, and any exponent, `intModExp(X, Y, Z)` returns a
canonical chain, with `Z` as it was, or it does not return. -/
theorem intModExp_ends (X Y Z : List Nat) (hX : Canonical X) (hZ : Canonical Z)
    (h0 : Z ≠ []) :
    (∃ R, intModExp X Y Z = Outcome.ret (R, Z) ∧ Canonical R) ∨
      intModExp X Y Z = Outcome.hang := by
  unfold intModExp
  rcases modExpNodes_ends Y X [1] Z hX (by decide) hZ h0 with ⟨W1, R1, h1, _, h3⟩ | h1
  · rw [h1, Outcome.ret_bind]; exact intMod_ends R1 Z h3 hZ h0
  · rw [h1]; exact Or.inr rfl

/-! ## Claim C11: the order given by `intFineCompare` -/

theorem compareCode_iff (a b : Nat) :
    (compareCode a b = 0 ↔ a = b) ∧ (compareCode a b = 1 ↔ a > b) ∧
    (compareCode a b = 2 ↔ a < b) := by
  rcases Nat.lt_trichotomy a b with h | h | h
  · rw [compareCode_lt h]
    exact ⟨by constructor <;> intro h1 <;> omega, by constructor <;> intro h1 <;> omega,
      by constructor <;> intro _ <;> first | rfl | exact h⟩
  · subst h
    have h0 : compareCode a a = 0 := by simp [compareCode]
    rw [h0]
    exact ⟨by constructor <;> intro _ <;> rfl, by constructor <;> intro h1 <;> omega,
      by constructor <;> intro h1 <;> omega⟩
  · rw [compareCode_gt h]
    exact ⟨by constructor <;> intro h1 <;> omega,
      by constructor <;> intro _ <;> first | rfl | exact h,
      by constructor <;> intro h1 <;> omega⟩

/-- Claim C11, with the case where the code departs from it: for canonical chains `X` and
`Y` that are not both zero, `intFineCompare(X, Y)` is `0` exactly when `X = Y`, `1` exactly
when `X > Y` and `2` exactly when `X < Y`; for two zero chains held in distinct objects, at
the addresses `ax` and `ay`, it is not `0`: it is `2` when `ax < ay` and `1` when
`ay < ax`, the order of the two addresses. -/
theorem C11_intFineCompare (ax ay : Nat) (X Y : List Nat) (hX : Canonical X)
    (hY : Canonical Y) (h : ax ≠ ay) :
    (X ≠ [] ∨ Y ≠ [] →
      (intFineCompareAt ax ay X Y = 0 ↔ value X = value Y) ∧
      (intFineCompareAt ax ay X Y = 1 ↔ value X > value Y) ∧
      (intFineCompareAt ax ay X Y = 2 ↔ value X < value Y)) ∧
    intFineCompareAt ax ay [] [] ≠ 0 ∧
    (ax < ay → intFineCompareAt ax ay [] [] = 2) ∧
    (ay < ax → intFineCompareAt ax ay [] [] = 1) := by
  refine ⟨?_, ?_⟩
  · intro hne
    rw [intFineCompareAt_spec ax ay X Y hX hY hne]
    exact compareCode_iff _ _
  · have key : intHeadCompare ax ay [] [] =
        if ax > ay then 1 else if ay > ax then 2 else 0 := by
      simp [intHeadCompare, lastData]
    unfold intFineCompareAt
    rw [key]
    rcases Nat.lt_or_gt_of_ne h with hlt | hgt
    · have h1 : ¬ ax > ay := by omega
      simp [h1, hlt]
    · have h1 : ¬ ax < ay := by omega
      simp [hgt, h1]

theorem C11_intFineCompare_witness :
    Canonical [] ∧ value ([] : List Nat) = value ([] : List Nat) ∧
    intFineCompareAt 4096 8192 [] [] = 2 ∧ intFineCompareAt 8192 4096 [] [] = 1 :=
  ⟨by decide, rfl,
    (C11_intFineCompare 4096 8192 [] [] (by decide) (by decide) (by decide)).2.2.1 (by decide),
    (C11_intFineCompare 8192 4096 [] [] (by decide) (by decide) (by decide)).2.2.2 (by decide)⟩

/-! ## Claim C12: canonical form is kept -/

/-- Claim C12: for canonical chains `X`, `Y`, `Z`, a 64-bit scalar `s`, a shift count `n`
and any buffer, the chain left or returned by `intAdd`, `intLShift`, `intRShift`,
`intScale`, `intMult`, `intFromString` and `intEncodeString` is canonical.  `intSub` with
`X >= Y`, `intMod` and `intDiv` with `Y != 0` and `intModExp` with `Z != 0` return with
canonical chains (and the divisor or modulus as it was), or they do not return; no call
leaves a chain that is not canonical.  A canonical chain has no zero node at its end and is
the empty chain exactly when its value is zero. -/
theorem C12_canonical_kept (X Y Z : List Nat) (s n : Nat) (buffer : List Nat)
    (charSigned : Bool) (hX : Canonical X) (hY : Canonical Y) (hZ : Canonical Z)
    (hs : s < WORD) :
    Canonical (intAdd X Y) ∧ Canonical (intLShift X n) ∧ Canonical (intRShift X n) ∧
    Canonical (intScale X s) ∧ Canonical (intMult X Y) ∧
    Canonical (intFromString buffer) ∧ Canonical (intEncodeString charSigned buffer) ∧
    (value Y ≤ value X →
      (∃ R, intSub X Y = Outcome.ret R ∧ Canonical R) ∨ intSub X Y = Outcome.hang) ∧
    (Y ≠ [] →
      (∃ R, intMod X Y = Outcome.ret (R, Y) ∧ Canonical R) ∨ intMod X Y = Outcome.hang) ∧
    (Y ≠ [] →
      (∃ Q R, intDiv X Y = Outcome.ret (Q, R, Y) ∧ Canonical Q ∧ Canonical R) ∨
        intDiv X Y = Outcome.hang) ∧
    (Z ≠ [] →
      (∃ R, intModExp X Y Z = Outcome.ret (R, Z) ∧ Canonical R) ∨
        intModExp X Y Z = Outcome.hang) ∧
    (∀ R, Canonical R → (R.getLast? ≠ some 0 ∧ (R = [] ↔ value R = 0))) := by
  refine ⟨intAdd_canonical X Y hX hY, (intLShift_spec X n hX).2, (intRShift_spec X n hX).2,
    intScale_canonical X s hX hs, intMult_canonical X Y hX hY, intFromString_canonical buffer,
    intEncodeString_canonical charSigned buffer, intSub_ends X Y hX hY,
    intMod_ends X Y hX hY, intDiv_ends X Y hX hY, intModExp_ends X Y Z hX hZ, ?_⟩
  intro R hR
  refine ⟨hR.2, ?_, canonical_value_zero R hR⟩
  intro h; rw [h]; rfl

theorem C12_canonical_kept_witness :
    Canonical [7, 3] ∧ Canonical [5, 1] ∧ Canonical [9] ∧ 6 < WORD ∧
    value [5, 1] ≤ value [7, 3] ∧
    intSub [7, 3] [5, 1] = Outcome.ret [2, 2] ∧
    intMod [7, 3] [5, 1] = Outcome.ret ([2 ^ 64 - 3], [5, 1]) ∧
    Canonical (intEncodeString true [72, 105, 0]) ∧
    ((∃ R, intSub [7, 3] [5, 1] = Outcome.ret R ∧ Canonical R) ∨
      intSub [7, 3] [5, 1] = Outcome.hang) :=
  ⟨by decide, by decide, by decide, by decide, by decide, by decide, by decide,
    (C12_canonical_kept [7, 3] [5, 1] [9] 6 3 [72, 105, 0] true (by decide) (by decide)
      (by decide) (by decide)).2.2.2.2.2.2.1,
    (C12_canonical_kept [7, 3] [5, 1] [9] 6 3 [72, 105, 0] true (by decide) (by decide)
      (by decide) (by decide)).2.2.2.2.2.2.2.1 (by decide)⟩

/-! ## Claim C30: `intDiv` leaves the remainder of `intMod` -/

theorem intRShift_one (Y : List Nat) : intRShift Y 1 = intRShiftSmall Y 1 := by
  unfold intRShift
  by_cases h : Y = []
  · subst h; rfl
  · rw [if_neg h]
    have h1 : ¬ (1 / INT_SIZE ≠ 0) := by decide
    have h2 : 1 % INT_SIZE ≠ 0 := by decide
    simp only [if_neg h1, if_neg h, if_pos h2]
    rfl

theorem divLoop_modLoop : ∀ (e : Nat) (X Y P Q : List Nat),
    (divLoop e X Y P Q).bind (fun r => Outcome.ret (r.2.1, r.2.2)) = modLoop e X Y := by
  intro e
  induction e with
  | zero => intro X Y P Q; rfl
  | succ e ih =>
    intro X Y P Q
    rw [divLoop, modLoop, intRShift_one Y]
    by_cases hc : intFineCompare X (intRShiftSmall Y 1) < 2
    · rw [if_pos hc, if_pos hc, Outcome.bind_assoc]
      congr 1
      funext X1
      exact ih _ _ _ _
    · rw [if_neg hc, if_neg hc]
      exact ih _ _ _ _

theorem intCompare_nil_left (Y : List Nat) (h : Y ≠ []) : intCompare [] Y < 0 := by
  unfold intCompare
  simp only [true_and, if_neg h, if_true]
  decide

/-- Claim C30: for every `X` and `Y`, the call `intDiv(X, Y)` ends as `intMod(X, Y)` does
(a return, an abort for `Y = 0`, or no return), and when they return the chains left in
`X` and in `Y` are the same chains: the remainder left by `intDiv` is the one left by
`intMod`, on the path for `X = 0`, on the path for `X` below `Y`, and after the loop. -/
theorem C30_same_remainder (X Y : List Nat) :
    (intDiv X Y).bind (fun r => Outcome.ret (r.2.1, r.2.2)) = intMod X Y ∧
    (∀ Q R Y1, intDiv X Y = Outcome.ret (Q, R, Y1) → intMod X Y = Outcome.ret (R, Y1)) ∧
    (∀ R Y1, intMod X Y = Outcome.ret (R, Y1) → ∃ Q, intDiv X Y = Outcome.ret (Q, R, Y1)) := by
  have key : (intDiv X Y).bind (fun r => Outcome.ret (r.2.1, r.2.2)) = intMod X Y := by
    unfold intDiv intMod
    by_cases h0 : Y = []
    · rw [if_pos h0, if_pos h0]; rfl
    · rw [if_neg h0, if_neg h0]
      by_cases hx : X = []
      · subst hx
        rw [if_pos rfl, if_pos (intCompare_nil_left Y h0)]; rfl
      · rw [if_neg hx]
        by_cases h1 : intCompare X Y < 0
        · rw [if_pos h1, if_pos h1]; rfl
        · rw [if_neg h1, if_neg h1]
          exact divLoop_modLoop _ _ _ _ _
  refine ⟨key, ?_, ?_⟩
  · intro Q R Y1 h
    rw [← key, h]; rfl
  · intro R Y1 h
    rw [← key] at h
    obtain ⟨r, h1, h2⟩ := Outcome.bind_eq_ret h
    injection h2 with h3
    refine ⟨r.1, ?_⟩
    rw [h1, ← h3]

/-! ## Claim C26: the divisor after `intMod` and `intDiv` -/

/-- Claim C26: for canonical `X` and `Y > 0`, `intMod(X, Y)` and `intDiv(X, Y)` either
return with `Y` holding exactly the nodes it had before the call, or do not return; this
holds on the early returns (`X` below `Y`, `X` zero) as after the loop that shifts `Y` up
and back. -/
theorem C26_divisor_kept (X Y : List Nat) (hX : Canonical X) (hY : Canonical Y)
    (h0 : Y ≠ []) :
    ((∃ R, intMod X Y = Outcome.ret (R, Y)) ∨ intMod X Y = Outcome.hang) ∧
    ((∃ Q R, intDiv X Y = Outcome.ret (Q, R, Y)) ∨ intDiv X Y = Outcome.hang) ∧
    (∀ r, intMod X Y = Outcome.ret r → r.2 = Y) ∧
    (∀ r, intDiv X Y = Outcome.ret r → r.2.2 = Y) ∧
    (intCompare X Y < 0 → intMod X Y = Outcome.ret (X, Y)) := by
  have hm := intMod_ends X Y hX hY h0
  have hd := intDiv_ends X Y hX hY h0
  refine ⟨?_, ?_, ?_, ?_, ?_⟩
  · rcases hm with ⟨R, h, _⟩ | h
    · exact Or.inl ⟨R, h⟩
    · exact Or.inr h
  · rcases hd with ⟨Q, R, h, _⟩ | h
    · exact Or.inl ⟨Q, R, h⟩
    · exact Or.inr h
  · intro r hr
    rcases hm with ⟨R, h, _⟩ | h
    · rw [h] at hr; injection hr with h1; rw [← h1]
    · rw [h] at hr; cases hr
  · intro r hr
    rcases hd with ⟨Q, R, h, _⟩ | h
    · rw [h] at hr; injection hr with h1; rw [← h1]
    · rw [h] at hr; cases hr
  · intro hc
    unfold intMod
    rw [if_neg h0, if_pos hc]

theorem C26_divisor_kept_witness :
    Canonical [7, 3] ∧ Canonical [5, 1] ∧
    intMod [7, 3] [5, 1] = Outcome.ret ([2 ^ 64 - 3], [5, 1]) ∧
    intDiv [7, 3] [5, 1] = Outcome.ret ([2], [2 ^ 64 - 3], [5, 1]) ∧
    ((∃ R, intMod [7, 3] [5, 1] = Outcome.ret (R, [5, 1])) ∨
      intMod [7, 3] [5, 1] = Outcome.hang) :=
  ⟨by decide, by decide, by decide, by decide,
    (C26_divisor_kept [7, 3] [5, 1] (by decide) (by decide) (by decide)).1⟩

/-! ## Claims C25 and C27: the parity test -/

/-- Claim C25, where the code departs from it: `intIsEven` tests the low bit of
`X->last->data`, the most significant node.  For a chain of one node that is the parity
of the value; the odd number `2 * 2^64 + 1` is reported even and the even number
`2^64 + 2` is reported odd. -/
theorem C25_intIsEven_last_node (addr d : Nat) :
    (intIsEven addr [d] = 1 ↔ value [d] % 2 = 0) ∧
    (intIsEven addr [1, 2] = 1 ∧ value [1, 2] % 2 = 1) ∧
    (intIsEven addr [2, 1] = 0 ∧ value [2, 1] % 2 = 0) := by
  refine ⟨?_, ⟨by simp [intIsEven, lastData], by decide⟩,
    ⟨by simp [intIsEven, lastData], by decide⟩⟩
  unfold intIsEven lastData
  simp only [List.getLastD_cons, List.getLastD_nil, Nat.and_one_is_mod, value,
    Nat.mul_zero, Nat.add_zero]
  by_cases h : d % 2 = 0
  · simp [h]
  · simp [h]

/-- Claim C27, where the code departs from it: for the odd number `X = 2^64 + 3` the
loop `while (intIsEven(OddPart))` at the start of `intIsPrime` ends at once, with
`twoExponent = 0` and `OddPart = X - 1 = 2^64 + 2`, which is even; the decomposition with
an odd part is `X - 1 = 2^1 * (2^63 + 1)`. -/
theorem C27_oddPart_even :
    Canonical [3, 1] ∧ value [3, 1] % 2 = 1 ∧ 3 ≤ value [3, 1] ∧
    intDecrement [3, 1] = Outcome.ret [2, 1] ∧
    oddPartLoop (INT_SIZE * [2, 1].length) [2, 1] 0 = Outcome.ret ([2, 1], 0) ∧
    value [2, 1] % 2 = 0 ∧ value [2, 1] = 2 ^ 1 * (2 ^ 63 + 1) := by
  refine ⟨by decide, by decide, by decide, by decide, by decide!, by decide, by decide⟩

/-! ## Claim C22: the number read by `intFromString` -/

theorem cstr_append_zero (s rest : List Nat) (hs : ∀ c ∈ s, c ≠ 0) :
    cstr (s ++ 0 :: rest) = s := by
  unfold cstr
  induction s with
  | nil => simp
  | cons c cs ih =>
    have hc : c ≠ 0 := hs c (List.mem_cons_self _ _)
    have h2 : ∀ d ∈ cs, d ≠ 0 := fun d hd => hs d (List.mem_cons_of_mem _ hd)
    show List.takeWhile (· ≠ 0) (c :: (cs ++ 0 :: rest)) = c :: cs
    rw [List.takeWhile_cons_of_pos (by simpa using hc), ih h2]

theorem cstr_of_no_zero (s : List Nat) (hs : ∀ c ∈ s, c ≠ 0) : cstr s = s := by
  unfold cstr
  induction s with
  | nil => rfl
  | cons c cs ih =>
    have hc : c ≠ 0 := hs c (List.mem_cons_self _ _)
    have h2 : ∀ d ∈ cs, d ≠ 0 := fun d hd => hs d (List.mem_cons_of_mem _ hd)
    rw [List.takeWhile_cons_of_pos (by simpa using hc), ih h2]

/-- The value read by `intFromString` from any buffer. -/
theorem intFromString_value (buffer : List Nat) :
    value (intFromString buffer) = hexFold (cstr buffer) 0 := by
  rcases buffer_split buffer with h | ⟨s, rest, h1, h2⟩
  · have h3 := (intFromString_spec buffer [] h).2
    unfold intFromString at h3 ⊢
    rw [fromStringLoop_terminator] at h3
    rw [h3, cstr_of_no_zero buffer h]
  · rw [h1, cstr_append_zero s rest h2]
    exact (intFromString_spec s rest h2).2

theorem hexFold_spec : ∀ (s : List Nat) (V : Nat),
    hexFold s V = (specHexChars s).foldl (fun v c => 16 * v + specHexValue c) V := by
  intro s
  induction s with
  | nil => intro V; rfl
  | cons c cs ih =>
    intro V
    unfold specHexChars at ih ⊢
    rw [hexFold]
    unfold hexDigit
    by_cases h1 : 48 ≤ c ∧ c ≤ 57
    · have hf : decide ((48 ≤ c ∧ c ≤ 57) ∨ (65 ≤ c ∧ c ≤ 70)) = true := by
        simp [h1]
      have hv : specHexValue c = c - 48 := by
        unfold specHexValue; rw [if_pos h1.2]
      rw [if_pos h1]
      simp only [List.filter_cons, hf, if_true, List.foldl_cons, hv]
      exact ih _
    · rw [if_neg h1]
      by_cases h2 : 65 ≤ c ∧ c ≤ 70
      · have hf : decide ((48 ≤ c ∧ c ≤ 57) ∨ (65 ≤ c ∧ c ≤ 70)) = true := by
          simp [h2]
        have hv : specHexValue c = c - 55 := by
          unfold specHexValue; rw [if_neg (by omega)]
        rw [if_pos h2]
        simp only [List.filter_cons, hf, if_true, List.foldl_cons, hv]
        exact ih _
      · have hf : decide ((48 ≤ c ∧ c ≤ 57) ∨ (65 ≤ c ∧ c ≤ 70)) = false := by
          simp only [decide_eq_false_iff_not]
          intro h; rcases h with h | h
          · exact h1 h
          · exact h2 h
        rw [if_neg h2]
        simp only [List.filter_cons, hf, Bool.false_eq_true, if_false]
        exact ih _

/-- Claim C22: for every buffer, `intFromString` returns the canonical chain of the
big-endian hexadecimal number formed by the characters of `[0-9A-F]` before the
terminator, taken in order; every other character is skipped, a leading `0` changes
nothing, a string with no such character gives the zero chain, and `"DEADBEEF"` gives
`0xDEADBEEF`. -/
theorem C22_intFromString (buffer : List Nat) :
    Canonical (intFromString buffer) ∧
    value (intFromString buffer) = specHexNumber (cstr buffer) ∧
    (specHexChars (cstr buffer) = [] → intFromString buffer = []) ∧
    intFromString (48 :: buffer) = intFromString buffer ∧
    intFromString [68, 69, 65, 68, 66, 69, 69, 70, 0] = [0xDEADBEEF] ∧
    intFromString [32, 100, 69, 97, 68, 45, 66, 101, 69, 102, 0] = [0xEDBE] := by
  have hv : ∀ b, value (intFromString b) = specHexNumber (cstr b) := by
    intro b
    rw [intFromString_value, hexFold_spec]; rfl
  refine ⟨intFromString_canonical buffer, hv buffer, ?_, ?_, by decide, by decide⟩
  · intro h
    apply canonical_value_zero _ (intFromString_canonical buffer)
    rw [hv, specHexNumber, h]; rfl
  · apply canonical_unique _ _ (intFromString_canonical _) (intFromString_canonical _)
    rw [intFromString_value, intFromString_value]
    have h : cstr (48 :: buffer) = 48 :: cstr buffer := by
      unfold cstr
      rw [List.takeWhile_cons_of_pos (by decide)]
    rw [h]
    rfl

/-! ## `highestBitSignificance` is the bit length -/

theorem and_top_bit (x : Nat) (hx : x < WORD) :
    x &&& 0x8000000000000000 ≠ 0 ↔ 2 ^ 63 ≤ x := by
  have h63 : (0x8000000000000000 : Nat) = 2 ^ 63 := by norm_num
  rw [h63]
  constructor
  · intro h
    by_contra hlt
    apply h
    apply Nat.eq_of_testBit_eq
    intro i
    rw [Nat.testBit_and, Nat.zero_testBit, Nat.testBit_two_pow]
    by_cases hi : 63 = i
    · subst hi
      rw [Nat.testBit_lt_two_pow (by omega)]; rfl
    · simp [hi]
  · intro h h0
    have h1 : (x &&& 2 ^ 63).testBit 63 = true := by
      rw [Nat.testBit_and, Nat.testBit_two_pow_self, Bool.and_true, Nat.testBit_to_div_mod]
      have hW : x < 2 ^ 64 := hx
      have : x / 2 ^ 63 = 1 := by omega
      rw [this]; rfl
    rw [h0, Nat.zero_testBit] at h1
    cases h1

theorem hbsLoop_spec : ∀ (k y h : Nat), 0 < y → y < WORD → 64 - Nat.size y < k →
    64 - Nat.size y ≤ h → hbsLoop k y h = h - (64 - Nat.size y) := by
  intro k
  induction k with
  | zero => intro y h _ _ hk; omega
  | succ k ih =>
    intro y h hy hyW hk hh
    rw [hbsLoop]
    by_cases htop : y &&& 0x8000000000000000 ≠ 0
    · rw [if_pos htop]
      have h1 : 63 < Nat.size y := Nat.lt_size.2 ((and_top_bit y hyW).1 htop)
      omega
    · rw [if_neg htop]
      have hlt : y < 2 ^ 63 := by
        by_contra h1
        exact htop ((and_top_bit y hyW).2 (by omega))
      have hs : Nat.size y ≤ 63 := Nat.size_le.2 hlt
      have hpos : 0 < Nat.size y := Nat.size_pos.2 hy
      have hy2 : (y <<< 1) % WORD = y <<< 1 := by
        apply Nat.mod_eq_of_lt
        rw [Nat.shiftLeft_eq, WORD_eq]; omega
      have hsz : Nat.size (y <<< 1) = Nat.size y + 1 := Nat.size_shiftLeft (by omega) 1
      rw [hy2, ih (y <<< 1) (h - 1) (by rw [Nat.shiftLeft_eq]; omega)
        (by rw [Nat.shiftLeft_eq, WORD_eq]; omega) (by rw [hsz]; omega) (by rw [hsz]; omega),
        hsz]
      omega

/-- `highestBitSignificance(x)` is the bit length of a nonzero 64-bit word. -/
theorem highestBitSignificance_eq (x : Nat) (h0 : 0 < x) (hx : x < WORD) :
    highestBitSignificance x = Nat.size x := by
  have hs : Nat.size x ≤ 64 := Nat.size_le.2 hx
  have hpos : 0 < Nat.size x := Nat.size_pos.2 h0
  unfold highestBitSignificance
  rw [hbsLoop_spec 64 x INT_SIZE h0 hx (by omega) (by unfold INT_SIZE; omega)]
  unfold INT_SIZE
  omega

theorem canonical_last_pos {X : List Nat} (hX : Canonical X) (hne : X ≠ []) :
    0 < X.getLastD 0 ∧ X.getLastD 0 < WORD := by
  cases X with
  | nil => exact absurd rfl hne
  | cons x xs =>
    rw [List.getLastD_cons, List.getLastD_eq_getLast?]
    have h2 := hX.2
    rw [List.getLast?_cons] at h2
    have hm : (xs.getLast?.getD x) ∈ x :: xs := by
      cases h : xs.getLast? with
      | none => simp
      | some a =>
        simp only [Option.getD_some]
        exact List.mem_cons_of_mem _ (List.mem_of_getLast?_eq_some h)
    refine ⟨?_, hX.1 _ hm⟩
    apply Nat.pos_of_ne_zero
    intro h0
    apply h2
    rw [h0]

/-! ## Claim C24: the exponent zero -/

theorem intCompare_one_lt (Z : List Nat) (hZ : Canonical Z) (hne : Z ≠ [])
    (h1 : value Z ≠ 1) : intCompare [1] Z < 0 := by
  have hl := canonical_last_pos hZ hne
  have hh := highestBitSignificance_eq _ hl.1 hl.2
  have hone : highestBitSignificance (([1] : List Nat).getLastD 0) = 1 := by decide
  unfold intCompare
  rw [if_neg (by simp), if_neg (by simp), if_neg hne, hone, hh]
  have hlen : 1 ≤ Z.length := by
    cases Z with
    | nil => exact absurd rfl hne
    | cons z zs => simp
  by_cases h2 : Z.length = 1
  · have hz : 2 ≤ Z.getLastD 0 := by
      cases Z with
      | nil => exact absurd rfl hne
      | cons z zs =>
        have hzs : zs = [] := by
          simpa using h2
        subst hzs
        simp only [value, Nat.mul_zero, Nat.add_zero] at h1
        simp only [List.getLastD_cons, List.getLastD_nil] at hl ⊢
        omega
    have hs : 1 < Nat.size (Z.getLastD 0) := Nat.lt_size.2 (by simpa using hz)
    simp only [INT_SIZE, h2, List.length_singleton]
    omega
  · have hs : 0 < Nat.size (Z.getLastD 0) := Nat.size_pos.2 hl.1
    simp only [INT_SIZE, List.length_singleton]
    push_cast
    omega

/-- Claim C24: for every `X` and every canonical modulus `n >= 1`, `intModExp(X, 0, n)`
returns the chain of `1` when `n > 1` and the zero chain when `n = 1`, and leaves the
modulus as it was. -/
theorem C24_modExp_zero_exponent (X Z : List Nat) (hZ : Canonical Z) (h0 : Z ≠ []) :
    intModExp X [] Z = Outcome.ret (if value Z = 1 then [] else [1], Z) ∧
    (1 < value Z → ∃ R, intModExp X [] Z = Outcome.ret (R, Z) ∧ value R = 1) ∧
    (value Z = 1 → intModExp X [] Z = Outcome.ret ([], Z)) := by
  have key : intModExp X [] Z = Outcome.ret (if value Z = 1 then [] else [1], Z) := by
    have h : intModExp X [] Z = intMod [1] Z := rfl
    rw [h]
    by_cases h1 : value Z = 1
    · have hz : Z = [1] := canonical_unique Z [1] hZ (by decide) (by rw [h1]; rfl)
      subst hz
      decide
    · rw [if_neg h1]
      unfold intMod
      rw [if_neg h0, if_pos (intCompare_one_lt Z hZ h0 h1)]
  refine ⟨key, ?_, ?_⟩
  · intro h1
    refine ⟨[1], ?_, by decide⟩
    rw [key, if_neg (by omega)]
  · intro h1
    rw [key, if_pos h1]

theorem C24_modExp_zero_exponent_witness :
    Canonical [7, 3] ∧ ([7, 3] : List Nat) ≠ [] ∧
    intModExp [12345, 6] [] [7, 3] = Outcome.ret ([1], [7, 3]) ∧
    intModExp [12345, 6] [] [1] = Outcome.ret ([], [1]) :=
  ⟨by decide, by decide,
    (C24_modExp_zero_exponent [12345, 6] [7, 3] (by decide) (by decide)).1,
    (C24_modExp_zero_exponent [12345, 6] [1] (by decide) (by decide)).1⟩

/-! ## Claim C28: the restart of `intPseudoRandom` -/

theorem loadRand_lt (S : Sources) (w : Nat) : ∀ (j i data : Nat), data < WORD →
    loadRand S w j i data < WORD := by
  intro j
  induction j with
  | zero => intro i data h; exact h
  | succ j ih => intro i data _; exact ih _ _ (Nat.mod_lt _ WORD_pos)

theorem pseudoNodes_words (S : Sources) : ∀ (k i : Nat), Words (pseudoNodes S k i) := by
  intro k
  induction k with
  | zero => intro i; exact words_nil
  | succ k ih =>
    intro i
    exact words_cons.2 ⟨loadRand_lt S _ _ _ 0 WORD_pos, ih _⟩

/-- `intMagnitude(Y) < 4` says that `Y` is below `16`: the magnitude of a nonzero chain
is its bit length less one. -/
theorem intMagnitude_lt_four (Y : List Nat) (hY : Canonical Y) :
    intMagnitude Y < 4 ↔ value Y < 16 := by
  by_cases hne : Y = []
  · subst hne
    constructor
    · intro _; decide
    · intro _; decide
  · have hl := canonical_last_pos hY hne
    have hh := highestBitSignificance_eq _ hl.1 hl.2
    have hone : highestBitSignificance (([1] : List Nat).getLastD 0) = 1 := by decide
    unfold intMagnitude intCompare
    rw [if_neg (by simp [hne]), if_neg hne, if_neg (by simp), hone, hh]
    by_cases h1 : Y.length = 1
    · cases Y with
      | nil => exact absurd rfl hne
      | cons d ds =>
        have hds : ds = [] := by simpa using h1
        subst hds
        have hsz : Nat.size d ≤ 4 ↔ d < 2 ^ 4 := Nat.size_le
        simp only [INT_SIZE, List.length_singleton, List.getLastD_cons, List.getLastD_nil,
          value, Nat.mul_zero, Nat.add_zero]
        constructor
        · intro h; have := hsz.1 (by omega); omega
        · intro h; have := hsz.2 (by omega); omega
    · have hlen : 2 ≤ Y.length := by
        cases Y with
        | nil => exact absurd rfl hne
        | cons d ds =>
          cases ds with
          | nil => exact absurd rfl h1
          | cons e es => simp
      have hv := canonical_value_ge Y hY hne
      have hW : WORD ^ 1 ≤ WORD ^ (Y.length - 1) := Nat.pow_le_pow_right WORD_pos (by omega)
      rw [pow_one] at hW
      have hWe := WORD_eq
      simp only [INT_SIZE, List.length_singleton]
      constructor
      · intro h; push_cast at h; omega
      · intro h; omega

/-- Counterexample to claim C28 as stated.  With the bound `100` the first reduced sample
is `8`, of bit length `4`, and it is not returned: the function starts again and returns
the next sample, `20`.  With the bound `[4, 2^64 - 2, 1]` and the sample
`[3, 2^64 - 2, 2]` the value returned, `[2^64 - 1, 2^64 - 2, 1]`, is not below the bound:
the reduction goes through the borrow of `intSub`. -/
theorem C28_sample_eight_restarted :
    trim (pseudoNodes eightSources 1 0) = [8] ∧
    intMod [8] [100] = Outcome.ret ([8], [100]) ∧
    2 ^ 3 ≤ value [8] ∧ value [8] < 2 ^ 4 ∧ value [8] < value [100] ∧
    intMagnitude [8] = 3 ∧
    intPseudoRandom eightSources 2 [100] 0 = Outcome.ret ([20], [100], 8) ∧
    trim (pseudoNodes aboveSources 3 0) = [3, 2 ^ 64 - 2, 2] ∧
    intPseudoRandom aboveSources 1 [4, 2 ^ 64 - 2, 1] 0 =
      Outcome.ret ([2 ^ 64 - 1, 2 ^ 64 - 2, 1], [4, 2 ^ 64 - 2, 1], 12) ∧
    value [4, 2 ^ 64 - 2, 1] ≤ value [2 ^ 64 - 1, 2 ^ 64 - 2, 1] := by
  refine ⟨by decide!, by decide!, by decide, by decide, by decide, by decide!, by decide!,
    by decide!, by decide!, by decide⟩

/-- Claim C28 as amended: `intPseudoRandom(X)` starts again exactly when
`intMagnitude(Y) < 4` for the reduced sample `Y`, that is when `Y < 16` (bit length below
`5`): when the reduction returns, the sample `Y` is returned if and only if `Y >= 16`,
and otherwise the function is called again on `X`; when the reduction does not return,
neither does `intPseudoRandom`. -/
theorem C28_pseudoRandom_restart (S : Sources) (fuel : Nat) (X : List Nat) (i : Nat)
    (hX : Canonical X) (h0 : X ≠ []) :
    (∃ Y, intMod (trim (pseudoNodes S X.length i)) X = Outcome.ret (Y, X) ∧ Canonical Y ∧
      (intMagnitude Y < 4 ↔ value Y < 16) ∧
      (value Y < 16 → intPseudoRandom S (fuel + 1) X i =
        intPseudoRandom S fuel X (i + X.length * randCalls S)) ∧
      (16 ≤ value Y → intPseudoRandom S (fuel + 1) X i =
        Outcome.ret (Y, X, i + X.length * randCalls S))) ∨
    (intMod (trim (pseudoNodes S X.length i)) X = Outcome.hang ∧
      intPseudoRandom S (fuel + 1) X i = Outcome.hang) := by
  have hs : Canonical (trim (pseudoNodes S X.length i)) :=
    trim_canonical _ (pseudoNodes_words S _ _)
  rcases intMod_ends _ X hs hX h0 with ⟨Y, h1, h2⟩ | h1
  · left
    have hm := intMagnitude_lt_four Y h2
    refine ⟨Y, h1, h2, hm, ?_, ?_⟩
    · intro hv
      rw [intPseudoRandom, h1, Outcome.ret_bind, if_pos (hm.2 hv)]
    · intro hv
      have hn : ¬ intMagnitude Y < 4 := fun h => by
        have := hm.1 h
        omega
      rw [intPseudoRandom, h1, Outcome.ret_bind, if_neg hn]
  · right
    refine ⟨h1, ?_⟩
    rw [intPseudoRandom, h1]
    rfl

theorem C28_pseudoRandom_restart_witness :
    Canonical [100] ∧ ([100] : List Nat) ≠ [] ∧
    ((∃ Y, intMod (trim (pseudoNodes eightSources [100].length 0)) [100] =
        Outcome.ret (Y, [100]) ∧ Canonical Y ∧
      (intMagnitude Y < 4 ↔ value Y < 16) ∧
      (value Y < 16 → intPseudoRandom eightSources (1 + 1) [100] 0 =
        intPseudoRandom eightSources 1 [100] (0 + [100].length * randCalls eightSources)) ∧
      (16 ≤ value Y → intPseudoRandom eightSources (1 + 1) [100] 0 =
        Outcome.ret (Y, [100], 0 + [100].length * randCalls eightSources))) ∨
    (intMod (trim (pseudoNodes eightSources [100].length 0)) [100] = Outcome.hang ∧
      intPseudoRandom eightSources (1 + 1) [100] 0 = Outcome.hang)) :=
  ⟨by decide, by decide,
    C28_pseudoRandom_restart eightSources 1 [100] 0 (by decide) (by decide)⟩

/-! ## The nodes made by `intEncodeString` -/

theorem charToU32_small (charSigned : Bool) (b : Nat) (h : b ≤ 127) :
    charToU32 charSigned b = b := by
  unfold charToU32
  have h1 : b % 256 = b := Nat.mod_eq_of_lt (by omega)
  rw [h1, if_neg (by omega)]

theorem charToU32_ne_zero (charSigned : Bool) (b : Nat) (h1 : 1 ≤ b) (h2 : b ≤ 255) :
    charToU32 charSigned b ≠ 0 := by
  unfold charToU32
  have h3 : b % 256 = b := Nat.mod_eq_of_lt (by omega)
  rw [h3]
  split <;> omega

/-- Eight bytes of `0x01..0x7F` fill a node with their big-endian number. -/
theorem encodeNode_group (charSigned : Bool) : ∀ (j : Nat) (g rest : List Nat) (data : Nat),
    g.length = j → (∀ b ∈ g, 1 ≤ b ∧ b ≤ 127) → (data + 1) * 256 ^ j ≤ WORD →
    encodeNode charSigned j (g ++ rest) data =
      (g.foldl (fun v b => 256 * v + b) data, rest, true) := by
  intro j
  induction j with
  | zero =>
    intro g rest data hlen _ _
    have hg : g = [] := List.length_eq_zero.1 hlen
    subst hg
    rfl
  | succ j ih =>
    intro g rest data hlen hb hd
    cases g with
    | nil => simp at hlen
    | cons b g1 =>
      have hb1 := hb b (List.mem_cons_self _ _)
      have hc := charToU32_small charSigned b hb1.2
      have hpos : 0 < 256 ^ j := pow_pos (by norm_num) j
      have hdat : (data * 256 + 256) * 256 ^ j ≤ WORD := by
        have : (data * 256 + 256) * 256 ^ j = (data + 1) * 256 ^ (j + 1) := by
          rw [pow_succ]; ring
        rw [this]; exact hd
      have hstep : (data * 256 + b + 1) * 256 ^ j ≤ WORD :=
        le_trans (Nat.mul_le_mul_right _ (by omega)) hdat
      have hlt : data * 256 + b < WORD := by
        have h1 : (data * 256 + b + 1) * 1 ≤ (data * 256 + b + 1) * 256 ^ j :=
          Nat.mul_le_mul_left _ hpos
        omega
      show encodeNode charSigned (j + 1) (b :: (g1 ++ rest)) data = _
      rw [encodeNode]
      simp only [List.headD_cons, List.tail_cons]
      have hb0 : ¬ b = 0 := by omega
      rw [hc, if_neg hb0, Nat.shiftLeft_eq]
      have e1 : (data * 2 ^ 8 % WORD + b) % WORD = 256 * data + b := by
        have h2 : data * 2 ^ 8 = data * 256 := by norm_num
        have h3 : data * 256 < WORD := by omega
        rw [h2, Nat.mod_eq_of_lt h3, Nat.mod_eq_of_lt hlt]
        ring
      rw [e1, ih g1 rest (256 * data + b) (by simpa using hlen)
        (fun c hc2 => hb c (List.mem_cons_of_mem _ hc2))
        (by rw [Nat.mul_comm 256 data]; exact hstep)]
      rfl

theorem specBigEndian_bounds (g : List Nat) (hlen : g.length = 8)
    (hb : ∀ b ∈ g, 1 ≤ b ∧ b ≤ 127) : 0 < specBigEndian g ∧ specBigEndian g < WORD := by
  match g, hlen with
  | [b0, b1, b2, b3, b4, b5, b6, b7], _ =>
    have h0 := hb b0 (by simp)
    have h1 := hb b1 (by simp)
    have h2 := hb b2 (by simp)
    have h3 := hb b3 (by simp)
    have h4 := hb b4 (by simp)
    have h5 := hb b5 (by simp)
    have h6 := hb b6 (by simp)
    have h7 := hb b7 (by simp)
    simp only [specBigEndian, List.foldl_cons, List.foldl_nil, WORD_eq]
    omega

theorem trim_append_zero : ∀ X : List Nat, trim (X ++ [0]) = trim X := by
  intro X
  induction X with
  | nil => rfl
  | cons d ds ih =>
    show trim (d :: (ds ++ [0])) = trim (d :: ds)
    rw [trim, trim, ih]

theorem trim_eq_self : ∀ X : List Nat, X.getLast? ≠ some 0 → trim X = X := by
  intro X
  induction X with
  | nil => intro _; rfl
  | cons d ds ih =>
    intro h
    cases ds with
    | nil =>
      have hd : d ≠ 0 := by
        intro h0; subst h0; exact h rfl
      simp [trim, hd]
    | cons e es =>
      have h2 : (e :: es).getLast? ≠ some 0 := by
        rw [getLast?_cons_ne_nil (by simp)] at h
        exact h
      rw [trim, ih h2]

theorem encodeLoop_groups (charSigned : Bool) : ∀ (groups : List (List Nat)) (k : Nat)
    (rest : List Nat), groups.length < k →
    (∀ g ∈ groups, g.length = 8 ∧ ∀ b ∈ g, 1 ≤ b ∧ b ≤ 127) →
    encodeLoop charSigned k (groups.flatten ++ 0 :: rest) =
      groups.map specBigEndian ++ [0] := by
  intro groups
  induction groups with
  | nil =>
    intro k rest hk _
    cases k with
    | zero => simp at hk
    | succ k =>
      have h : encodeNode charSigned (INT_SIZE / 8) (0 :: rest) 0 = (0, rest, false) := by
        cases charSigned <;> rfl
      show encodeLoop charSigned (k + 1) (0 :: rest) = [0]
      rw [encodeLoop, h]
      rfl
  | cons g gs ih =>
    intro k rest hk hg
    cases k with
    | zero => simp at hk
    | succ k =>
      have hg1 := hg g (List.mem_cons_self _ _)
      have h : encodeNode charSigned (INT_SIZE / 8) (g ++ (gs.flatten ++ 0 :: rest)) 0 =
          (specBigEndian g, gs.flatten ++ 0 :: rest, true) :=
        encodeNode_group charSigned 8 g _ 0 hg1.1 hg1.2 (by rw [WORD_eq]; norm_num)
      have hb : (g :: gs).flatten ++ 0 :: rest = g ++ (gs.flatten ++ 0 :: rest) := by
        simp
      rw [hb, encodeLoop, h]
      simp only [if_true, List.map_cons, List.cons_append]
      rw [ih k rest (by simpa using hk) (fun g2 hg2 => hg g2 (List.mem_cons_of_mem _ hg2))]

theorem flatten_length_le (groups : List (List Nat))
    (hg : ∀ g ∈ groups, g.length = 8) : groups.length ≤ groups.flatten.length := by
  induction groups with
  | nil => simp
  | cons g gs ih =>
    have h1 := hg g (List.mem_cons_self _ _)
    have h2 := ih (fun g2 hg2 => hg g2 (List.mem_cons_of_mem _ hg2))
    simp only [List.flatten_cons, List.length_append, List.length_cons]
    omega

theorem value_map_single (g : List Nat) : value ([g].map specBigEndian) = specBigEndian g := by
  simp [value]

/-! ## Claim C29: the number packed from a block of `8 m` bytes -/

/-- Counterexample to claim C29 as stated: for the block of sixteen bytes, eight of `0x01`
then eight of `0x02`, the first eight bytes fill the first, least significant node, so the
value is not the big-endian number of the block (which has the first byte on top). -/
theorem C29_sixteen_bytes :
    intEncodeString true [1, 1, 1, 1, 1, 1, 1, 1, 2, 2, 2, 2, 2, 2, 2, 2, 0] =
      [0x0101010101010101, 0x0202020202020202] ∧
    value (intEncodeString true [1, 1, 1, 1, 1, 1, 1, 1, 2, 2, 2, 2, 2, 2, 2, 2, 0]) =
      0x02020202020202020101010101010101 ∧
    specBigEndian [1, 1, 1, 1, 1, 1, 1, 1, 2, 2, 2, 2, 2, 2, 2, 2] =
      0x01010101010101010202020202020202 ∧
    value (intEncodeString true [1, 1, 1, 1, 1, 1, 1, 1, 2, 2, 2, 2, 2, 2, 2, 2, 0]) ≠
      specBigEndian [1, 1, 1, 1, 1, 1, 1, 1, 2, 2, 2, 2, 2, 2, 2, 2] := by
  refine ⟨by decide, by decide, by decide, by decide⟩

/-- Claim C29 as amended: for a block of `m` groups of eight bytes, all in `0x01..0x7F`,
followed by the terminator, `intEncodeString` returns the chain whose `k`-th node, least
significant first, is the big-endian base-256 number of the `k`-th group: the bytes are
most significant first inside each node, and the first eight bytes make the least
significant node.  For one group the value is the big-endian number of the block. -/
theorem C29_encode_groups (charSigned : Bool) (groups : List (List Nat)) (rest : List Nat)
    (hg : ∀ g ∈ groups, g.length = 8 ∧ ∀ b ∈ g, 1 ≤ b ∧ b ≤ 127) :
    intEncodeString charSigned (groups.flatten ++ 0 :: rest) = groups.map specBigEndian ∧
    (∀ g, groups = [g] →
      value (intEncodeString charSigned (groups.flatten ++ 0 :: rest)) =
        specBigEndian groups.flatten) := by
  have key : intEncodeString charSigned (groups.flatten ++ 0 :: rest) =
      groups.map specBigEndian := by
    unfold intEncodeString
    have hlen : groups.length < (groups.flatten ++ 0 :: rest).length + 1 := by
      have := flatten_length_le groups (fun g h => (hg g h).1)
      simp only [List.length_append, List.length_cons]
      omega
    rw [encodeLoop_groups charSigned groups _ rest hlen hg, trim_append_zero]
    apply trim_eq_self
    intro h
    obtain ⟨g, hg1, hg2⟩ := List.mem_map.1 (List.mem_of_getLast?_eq_some h)
    have := (specBigEndian_bounds g (hg g hg1).1 (hg g hg1).2).1
    omega
  refine ⟨key, ?_⟩
  intro g h
  rw [key, h, value_map_single]
  simp

theorem C29_encode_groups_witness :
    (∀ g ∈ [[72, 101, 108, 108, 111, 44, 32, 119], [111, 114, 108, 100, 33, 33, 33, 33]],
      g.length = 8 ∧ ∀ b ∈ g, 1 ≤ b ∧ b ≤ 127) ∧
    intEncodeString true
      ([[72, 101, 108, 108, 111, 44, 32, 119], [111, 114, 108, 100, 33, 33, 33, 33]].flatten
        ++ 0 :: []) =
      [[72, 101, 108, 108, 111, 44, 32, 119], [111, 114, 108, 100, 33, 33, 33, 33]].map
        specBigEndian :=
  ⟨by decide,
    (C29_encode_groups true
      [[72, 101, 108, 108, 111, 44, 32, 119], [111, 114, 108, 100, 33, 33, 33, 33]] []
      (by decide)).1⟩

/-! ## Claim C23: the size of a packed block -/

theorem trim_length_cons (d : Nat) (ds : List Nat) :
    (trim (d :: ds)).length ≤ 1 + (trim ds).length := by
  rw [trim]
  cases h : trim ds with
  | nil =>
    by_cases h0 : d = 0
    · simp [h0]
    · simp [h0]
  | cons t ts => simp; omega

/-- A pass of the inner loop of `intEncodeString` that meets the terminator before the
node is full ends the outer loop. -/
theorem encodeNode_short (charSigned : Bool) : ∀ (j : Nat) (block rest : List Nat)
    (data : Nat), block.length < j → (∀ b ∈ block, 1 ≤ b ∧ b ≤ 255) →
    (encodeNode charSigned j (block ++ 0 :: rest) data).2.2 = false ∧
    (block = [] → data = 0 → (encodeNode charSigned j (block ++ 0 :: rest) data).1 = 0) := by
  intro j
  induction j with
  | zero => intro block rest data h; simp at h
  | succ j ih =>
    intro block rest data hlen hb
    cases block with
    | nil =>
      have hz : charToU32 charSigned 0 = 0 := by cases charSigned <;> rfl
      have he : encodeNode charSigned (j + 1) (0 :: rest) data =
          ((data <<< (8 * (j + 1))) % WORD, rest, false) := by
        rw [encodeNode]
        simp only [List.headD_cons, List.tail_cons, hz, if_true]
      show (encodeNode charSigned (j + 1) (0 :: rest) data).2.2 = false ∧
        (_ → data = 0 → (encodeNode charSigned (j + 1) (0 :: rest) data).1 = 0)
      rw [he]
      refine ⟨rfl, ?_⟩
      intro _ hd
      subst hd
      simp
    | cons b bs =>
      have hb1 := hb b (List.mem_cons_self _ _)
      have hne := charToU32_ne_zero charSigned b hb1.1 hb1.2
      have he : encodeNode charSigned (j + 1) (b :: (bs ++ 0 :: rest)) data =
          encodeNode charSigned j (bs ++ 0 :: rest)
            (((data <<< 8) % WORD + charToU32 charSigned b) % WORD) := by
        rw [encodeNode]
        simp only [List.headD_cons, List.tail_cons, if_neg hne]
      show (encodeNode charSigned (j + 1) (b :: (bs ++ 0 :: rest)) data).2.2 = false ∧ _
      rw [he]
      refine ⟨(ih bs rest _ (by simpa using hlen)
        (fun c hc => hb c (List.mem_cons_of_mem _ hc))).1, ?_⟩
      intro h; cases h

/-- A pass of the inner loop of `intEncodeString` over `j` bytes that are not zero takes
exactly these bytes and leaves the outer loop running. -/
theorem encodeNode_full (charSigned : Bool) : ∀ (j : Nat) (block rest : List Nat)
    (data : Nat), j ≤ block.length → (∀ b ∈ block, 1 ≤ b ∧ b ≤ 255) →
    (encodeNode charSigned j (block ++ 0 :: rest) data).2 =
      (block.drop j ++ 0 :: rest, true) := by
  intro j
  induction j with
  | zero => intro block rest data _ _; rfl
  | succ j ih =>
    intro block rest data hlen hb
    cases block with
    | nil => simp at hlen
    | cons b bs =>
      have hb1 := hb b (List.mem_cons_self _ _)
      have hne := charToU32_ne_zero charSigned b hb1.1 hb1.2
      show (encodeNode charSigned (j + 1) (b :: (bs ++ 0 :: rest)) data).2 = _
      rw [encodeNode]
      simp only [List.headD_cons, List.tail_cons, if_neg hne, List.drop_succ_cons]
      exact ih bs rest _ (by simpa using hlen) (fun c hc => hb c (List.mem_cons_of_mem _ hc))

theorem encodeLoop_length (charSigned : Bool) : ∀ (k : Nat) (block rest : List Nat),
    block.length / 8 < k → (∀ b ∈ block, 1 ≤ b ∧ b ≤ 255) →
    (trim (encodeLoop charSigned k (block ++ 0 :: rest))).length ≤
      (block.length + 7) / 8 := by
  intro k
  induction k with
  | zero => intro block rest h; simp at h
  | succ k ih =>
    intro block rest hk hb
    rw [encodeLoop]
    by_cases h8 : block.length < 8
    · have hs := encodeNode_short charSigned (INT_SIZE / 8) block rest 0
        (show block.length < INT_SIZE / 8 from h8) hb
      rw [hs.1]
      simp only [Bool.false_eq_true, if_false]
      by_cases h0 : block = []
      · rw [hs.2 h0 rfl]
        subst h0
        simp [trim]
      · have hpos : 0 < block.length := List.length_pos.2 h0
        have h1 := trim_length_cons (encodeNode charSigned (INT_SIZE / 8)
          (block ++ 0 :: rest) 0).1 []
        have h2 : (trim ([] : List Nat)).length = 0 := rfl
        omega
    · have hf := encodeNode_full charSigned (INT_SIZE / 8) block rest 0
        (by unfold INT_SIZE; omega) hb
      have hf1 : (encodeNode charSigned (INT_SIZE / 8) (block ++ 0 :: rest) 0).2.1 =
          block.drop 8 ++ 0 :: rest := by rw [hf]; rfl
      have hf2 : (encodeNode charSigned (INT_SIZE / 8) (block ++ 0 :: rest) 0).2.2 = true := by
        rw [hf]
      rw [hf2, hf1]
      simp only [if_true]
      have hd : (block.drop 8).length = block.length - 8 := List.length_drop 8 block
      have h1 := ih (block.drop 8) rest (by rw [hd]; omega)
        (fun c hc => hb c (List.mem_of_mem_drop hc))
      have h2 := trim_length_cons (encodeNode charSigned (INT_SIZE / 8)
        (block ++ 0 :: rest) 0).1 (encodeLoop charSigned k (block.drop 8 ++ 0 :: rest))
      rw [hd] at h1
      omega

/-- The value packed from a block of `B` bytes is below `2^(64 * ceil(B / 8))`. -/
theorem intEncodeString_lt (charSigned : Bool) (block rest : List Nat)
    (hb : ∀ b ∈ block, 1 ≤ b ∧ b ≤ 255) :
    value (intEncodeString charSigned (block ++ 0 :: rest)) <
      2 ^ (64 * ((block.length + 7) / 8)) := by
  have hc := intEncodeString_canonical charSigned (block ++ 0 :: rest)
  have hl : (intEncodeString charSigned (block ++ 0 :: rest)).length ≤
      (block.length + 7) / 8 := by
    unfold intEncodeString
    apply encodeLoop_length charSigned _ block rest _ hb
    simp only [List.length_append, List.length_cons]
    omega
  have h := (canonical_length_le _ hc _).1 hl
  rw [WORD, ← pow_mul] at h
  exact h

/-- Counterexample to claim C23 as stated: the block of the single byte `A` satisfies
`B * 8 = 8 < 16 = bitlen(p)` for the 16-bit prime `p = 65521`, with `B = floor(16 / 16)`
as in the driver, and packs to `0x41 * 2^56`, which is not below `p`: a group of fewer
than eight bytes is shifted to the top of its node. -/
theorem C23_one_byte_block :
    2 ^ 15 ≤ 65521 ∧ 65521 < 2 ^ 16 ∧ [65].length = 16 / 16 ∧ [65].length * 8 < 16 ∧
    intEncodeString true [65, 0] = [0x41 * 2 ^ 56] ∧
    intEncodeString false [65, 0] = [0x41 * 2 ^ 56] ∧
    ¬ value (intEncodeString true [65, 0]) < 65521 := by
  refine ⟨by decide, by decide, by decide, by decide, by decide, by decide, by decide⟩

/-- Claim C23 as amended: a block of `B` bytes, none of them zero, packs into
`ceil(B / 8)` nodes, so its value is below every modulus `p` with
`64 * ceil(B / 8) < bitlen(p)`; that is the claim as stated when `B` is a multiple of
eight, and it covers the block size `B = floor(bits / 16)` of the driver for a modulus of
`bits >= 65` bits. -/
theorem C23_encode_below (charSigned : Bool) (block rest : List Nat) (p : Nat)
    (hb : ∀ b ∈ block, 1 ≤ b ∧ b ≤ 255)
    (hp : 64 * ((block.length + 7) / 8) < Nat.size p) :
    value (intEncodeString charSigned (block ++ 0 :: rest)) < p ∧
    (block.length % 8 = 0 → 64 * ((block.length + 7) / 8) = block.length * 8) ∧
    (∀ bits, 65 ≤ bits → block.length = bits / 16 →
      64 * ((block.length + 7) / 8) < bits) := by
  refine ⟨?_, ?_, ?_⟩
  · exact lt_of_lt_of_le (intEncodeString_lt charSigned block rest hb) (Nat.lt_size.1 hp)
  · intro h; omega
  · intro bits h1 h2; omega

theorem C23_encode_below_witness :
    (∀ b ∈ [72, 105, 33], 1 ≤ b ∧ b ≤ 255) ∧
    2 ^ 64 ≤ 2 ^ 64 + 13 ∧
    value (intEncodeString true ([72, 105, 33] ++ 0 :: [])) < 2 ^ 64 + 13 :=
  ⟨by decide, by decide,
    (C23_encode_below true [72, 105, 33] [] (2 ^ 64 + 13) (by decide)
      (Nat.lt_size.2 (by decide))).1⟩

/-! ## Claim C21: the string written by `intToString` -/

theorem textifyNode_reverse : ∀ (k d : Nat),
    (textifyNode k d).reverse = specHexNumeral k d := by
  intro k
  induction k with
  | zero => intro d; rfl
  | succ k ih =>
    intro d
    rw [textifyNode, List.reverse_cons, ih, specHexNumeral, and_fifteen,
      Nat.shiftRight_eq_div_pow]
    rfl

theorem specHexChar_ne (v : Nat) (hv : v < 16) : specHexChar v ≠ 32 ∧ specHexChar v ≠ 0 := by
  unfold specHexChar
  split <;> omega

theorem specHexNumeral_chars : ∀ (k n : Nat), ∀ c ∈ specHexNumeral k n, c ≠ 32 ∧ c ≠ 0 := by
  intro k
  induction k with
  | zero => intro n c hc; cases hc
  | succ k ih =>
    intro n c hc
    rw [specHexNumeral, List.mem_append, List.mem_singleton] at hc
    rcases hc with h | h
    · exact ih _ c h
    · rw [h]; exact specHexChar_ne _ (Nat.mod_lt _ (by norm_num))

theorem specHexNumeral_length : ∀ (k n : Nat), (specHexNumeral k n).length = k := by
  intro k
  induction k with
  | zero => intro n; rfl
  | succ k ih => intro n; rw [specHexNumeral, List.length_append, ih]; rfl

theorem specHexNumeral_add_mul : ∀ (k d v : Nat),
    specHexNumeral k (d + 16 ^ k * v) = specHexNumeral k d := by
  intro k
  induction k with
  | zero => intro d v; rfl
  | succ k ih =>
    intro d v
    have h1 : (d + 16 ^ (k + 1) * v) / 16 = d / 16 + 16 ^ k * v := by
      rw [pow_succ, Nat.mul_comm (16 ^ k) 16, Nat.mul_assoc, Nat.add_mul_div_left _ _ (by norm_num)]
    have h2 : (d + 16 ^ (k + 1) * v) % 16 = d % 16 := by
      rw [pow_succ, Nat.mul_comm (16 ^ k) 16, Nat.mul_assoc, Nat.add_mul_mod_self_left]
    rw [specHexNumeral, specHexNumeral, h1, h2, ih]

theorem specHexNumeral_add : ∀ (b a n : Nat),
    specHexNumeral (a + b) n = specHexNumeral a (n / 16 ^ b) ++ specHexNumeral b n := by
  intro b
  induction b with
  | zero => intro a n; simp [specHexNumeral]
  | succ b ih =>
    intro a n
    show specHexNumeral (a + b + 1) n = _
    rw [specHexNumeral, ih, specHexNumeral, List.append_assoc, Nat.div_div_eq_div_mul,
      pow_succ, Nat.mul_comm (16 ^ b) 16]

theorem filter_specHexNumeral (k n : Nat) :
    (specHexNumeral k n).filter (fun c => decide (c ≠ 32)) = specHexNumeral k n := by
  apply List.filter_eq_self.2
  intro c hc
  simpa using (specHexNumeral_chars k n c hc).1

/-- The digits written by `textify`, read from the end and without the spaces, are the
numeral of the value with sixteen digits for each node. -/
theorem textify_digits : ∀ X : List Nat, Words X →
    (textify X).reverse.filter (fun c => decide (c ≠ 32)) =
      specHexNumeral (16 * X.length) (value X) := by
  intro X
  induction X with
  | nil => intro _; rfl
  | cons d ds ih =>
    intro hw
    obtain ⟨hd, hds⟩ := words_cons.1 hw
    have hlen : 16 * (d :: ds).length = 16 * ds.length + 16 := by
      rw [List.length_cons]; ring
    have hW : WORD = 16 ^ 16 := by decide
    have hdiv : value (d :: ds) / 16 ^ 16 = value ds := by
      rw [value, ← hW, Nat.add_mul_div_left _ _ WORD_pos, Nat.div_eq_of_lt hd, Nat.zero_add]
    have hlow : specHexNumeral 16 (value (d :: ds)) = specHexNumeral 16 d := by
      rw [value, hW]; exact specHexNumeral_add_mul 16 d (value ds)
    rw [hlen, specHexNumeral_add, hdiv, hlow, textify]
    simp only [List.reverse_cons, List.reverse_append, List.filter_append, ih hds,
      textifyNode_reverse, filter_specHexNumeral]
    simp

theorem specSpaced_snoc : ∀ (L : List (List Nat)) (x : List Nat),
    specSpaced (L ++ [x]) = (L.map (fun g => g ++ [32])).flatten ++ x := by
  intro L
  induction L with
  | nil => intro x; simp [specSpaced]
  | cons a L ih =>
    intro x
    cases L with
    | nil => simp [specSpaced]
    | cons b L1 =>
      have h := ih x
      simp only [List.cons_append] at h ⊢
      rw [specSpaced, h]
      simp

theorem textify_groups : ∀ X : List Nat,
    (textify X).reverse = (X.reverse.map (fun d => specHexNumeral 16 d ++ [32])).flatten := by
  intro X
  induction X with
  | nil => rfl
  | cons d ds ih =>
    rw [textify]
    simp only [List.reverse_cons, List.reverse_append, List.cons_append, List.map_append,
      List.flatten_append, ih, textifyNode_reverse]
    simp

/-- The string written by `intToString` for a chain that is not zero, up to its
terminator. -/
theorem cstr_intToString (d : Nat) (ds : List Nat) :
    cstr (intToString (d :: ds)) = (textify ds).reverse ++ specHexNumeral 16 d := by
  rw [intToString_cons, textifyNode_reverse]
  apply cstr_append_zero
  intro c hc
  rcases List.mem_append.1 hc with h | h
  · exact textify_ne_zero ds c (List.mem_reverse.1 h)
  · exact (specHexNumeral_chars 16 d c h).2

/-- Counterexample to claim C21 as stated: `intToString` writes the integer `0xDEADBEEF`
as `"00000000DEADBEEF"`, sixteen digits with eight leading zeros, not as `"DEADBEEF"`. -/
theorem C21_leading_zeros :
    Canonical [0xDEADBEEF] ∧
    cstr (intToString [0xDEADBEEF]) =
      [48, 48, 48, 48, 48, 48, 48, 48, 68, 69, 65, 68, 66, 69, 69, 70] ∧
    cstr (intToString [0xDEADBEEF]) ≠ [68, 69, 65, 68, 66, 69, 69, 70] ∧
    specHexNumeral 8 0xDEADBEEF = [68, 69, 65, 68, 66, 69, 69, 70] := by
  refine ⟨by decide, by decide, by decide, by decide⟩

/-- Claim C21 as amended: for every canonical chain `X` that is not zero, `intToString(X)`
is, up to its terminator, the groups of sixteen uppercase hexadecimal digits of the nodes
of `X`, the most significant node first, separated by exactly one space; with the spaces
removed it is the big-endian hexadecimal numeral of the value of `X` written with
`16 * |X|` digits, that is with fewer than sixteen leading zeros. -/
theorem C21_intToString (X : List Nat) (hX : Canonical X) (hne : X ≠ []) :
    cstr (intToString X) = specSpaced (X.reverse.map (specHexNumeral 16)) ∧
    (cstr (intToString X)).filter (fun c => decide (c ≠ 32)) =
      specHexNumeral (16 * X.length) (value X) ∧
    16 ^ (16 * (X.length - 1)) ≤ value X ∧ value X < 16 ^ (16 * X.length) := by
  have hW : WORD = 16 ^ 16 := by decide
  refine ⟨?_, ?_, ?_, ?_⟩
  · cases X with
    | nil => exact absurd rfl hne
    | cons d ds =>
      rw [cstr_intToString, textify_groups, List.reverse_cons, List.map_append,
        List.map_singleton, specSpaced_snoc]
      simp [List.map_map, Function.comp_def]
  · cases X with
    | nil => exact absurd rfl hne
    | cons d ds =>
      obtain ⟨hd, hds⟩ := words_cons.1 hX.1
      have hlen : 16 * (d :: ds).length = 16 * ds.length + 16 := by
        rw [List.length_cons]; ring
      have hdiv : value (d :: ds) / 16 ^ 16 = value ds := by
        rw [value, ← hW, Nat.add_mul_div_left _ _ WORD_pos, Nat.div_eq_of_lt hd, Nat.zero_add]
      have hlow : specHexNumeral 16 (value (d :: ds)) = specHexNumeral 16 d := by
        rw [value, hW]; exact specHexNumeral_add_mul 16 d (value ds)
      rw [cstr_intToString, List.filter_append, textify_digits ds hds, filter_specHexNumeral,
        hlen, specHexNumeral_add, hdiv, hlow]
  · have h := canonical_value_ge X hX hne
    rw [hW, ← pow_mul] at h
    exact h
  · have h := value_lt X hX.1
    rw [hW, ← pow_mul] at h
    exact h

theorem C21_intToString_witness :
    Canonical [0xDEADBEEF, 0x1F] ∧ ([0xDEADBEEF, 0x1F] : List Nat) ≠ [] ∧
    cstr (intToString [0xDEADBEEF, 0x1F]) =
      specSpaced ([0xDEADBEEF, 0x1F].reverse.map (specHexNumeral 16)) ∧
    specSpaced ([0xDEADBEEF, 0x1F].reverse.map (specHexNumeral 16)) =
      [48, 48, 48, 48, 48, 48, 48, 48, 48, 48, 48, 48, 48, 48, 49, 70, 32,
       48, 48, 48, 48, 48, 48, 48, 48, 68, 69, 65, 68, 66, 69, 69, 70] :=
  ⟨by decide, by decide,
    (C21_intToString [0xDEADBEEF, 0x1F] (by decide) (by decide)).1, by decide⟩

/-! ## `intMod` on a numerator of one node -/

theorem length_le_one_cases (X : List Nat) (h : X.length ≤ 1) : X = [] ∨ ∃ a, X = [a] := by
  cases X with
  | nil => exact Or.inl rfl
  | cons a xs =>
    cases xs with
    | nil => exact Or.inr ⟨a, rfl⟩
    | cons b ys => simp at h

theorem canonical_single {a : Nat} (h : Canonical [a]) : 0 < a ∧ a < WORD := by
  refine ⟨?_, (words_cons.1 h.1).1⟩
  apply Nat.pos_of_ne_zero
  intro h0; subst h0
  exact h.2 rfl

theorem canonical_single_of {a : Nat} (h0 : 0 < a) (h1 : a < WORD) : Canonical [a] := by
  refine ⟨words_cons.2 ⟨h1, words_nil⟩, ?_⟩
  simp only [List.getLast?_singleton, ne_eq, Option.some.injEq]
  omega

/-- A canonical chain whose value is a nonzero 64-bit word is the chain of that word. -/
theorem canonical_eq_single (Y : List Nat) (hY : Canonical Y) (h0 : 0 < value Y)
    (h1 : value Y < WORD) : Y = [value Y] :=
  canonical_unique Y [value Y] hY (canonical_single_of h0 h1) (by simp [value])

theorem subStep_exact (a b : Nat) (hb : 0 < b) (hab : b ≤ a) (ha : a < WORD) :
    subStep a b 0 = (a - b, 0) := by
  unfold subStep UINT_MAX
  have hW := WORD_eq
  have h1 : ¬ a < b := by omega
  have h2 : (b + 0) % WORD = b := Nat.mod_eq_of_lt (by omega)
  have h3 : (a + WORD - b) % WORD = a - b := by
    have : a + WORD - b = (a - b) + WORD := by omega
    rw [this, Nat.add_mod_right, Nat.mod_eq_of_lt (by omega)]
  simp only [h2, h3, if_neg h1]
  have h4 : ¬ a - b = 2 ^ 64 - 1 := by
    rw [WORD] at ha
    omega
  rw [if_neg h4]

/-- On chains of one node with `X >= Y > 0` the pass of `intSub` has no borrow and the
difference is exact. -/
theorem intSub_single (X Y : List Nat) (hX : Canonical X) (hlen : X.length ≤ 1)
    (hY : Canonical Y) (h0 : 0 < value Y) (h : value Y ≤ value X) :
    ∃ R, intSub X Y = Outcome.ret R ∧ Canonical R ∧ R.length ≤ 1 ∧
      value R = value X - value Y := by
  rcases length_le_one_cases X hlen with hx | ⟨a, hx⟩
  · subst hx
    simp [value] at h
    omega
  · subst hx
    have ha := canonical_single hX
    have hva : value [a] = a := by simp [value]
    rw [hva] at h ⊢
    have hYe := canonical_eq_single Y hY h0 (by omega)
    have hs := subStep_exact a (value Y) h0 h ha.2
    have hrun : intSub [a] [value Y] = Outcome.ret (trim [a - value Y]) := by
      show subLoop [(subStep a (value Y) 0).1] [] [] (subStep a (value Y) 0).2 = _
      rw [hs]
      rfl
    rw [hYe]
    have hvy : value [value Y] = value Y := by simp [value]
    rw [hvy]
    refine ⟨trim [a - value Y], hrun,
      trim_canonical _ (words_cons.2 ⟨by omega, words_nil⟩), ?_, ?_⟩
    · by_cases hz : a - value Y = 0
      · simp [trim, hz]
      · simp [trim, hz]
    · by_cases hz : a - value Y = 0
      · simp [trim, hz, value]
      · simp [trim, hz, value]

theorem modLoop_single : ∀ (e : Nat) (X Yc : List Nat) (vY : Nat), Canonical X →
    X.length ≤ 1 → Canonical Yc → 0 < vY → value Yc = vY * 2 ^ e → value X < value Yc →
    ∃ R Y1, modLoop e X Yc = Outcome.ret (R, Y1) ∧ Canonical R ∧ R.length ≤ 1 ∧
      value R = value X % vY ∧ Canonical Y1 ∧ value Y1 = vY := by
  intro e
  induction e with
  | zero =>
    intro X Yc vY hX hlen hYc _ hv hlt
    rw [pow_zero, Nat.mul_one] at hv
    refine ⟨X, Yc, rfl, hX, hlen, ?_, hYc, hv⟩
    rw [Nat.mod_eq_of_lt (by omega)]
  | succ e ih =>
    intro X Yc vY hX hlen hYc hpos hv hlt
    have hs := rshiftNodes_spec 1 (by norm_num) (by norm_num) Yc hYc
    have hY1 : Canonical (intRShiftSmall Yc 1) := hs.2
    have hv1 : value (intRShiftSmall Yc 1) = vY * 2 ^ e := by
      have h1 : value (intRShiftSmall Yc 1) = value Yc / 2 ^ 1 := hs.1
      rw [h1, hv, pow_succ, ← Nat.mul_assoc]
      exact Nat.mul_div_cancel _ (by norm_num)
    have hp : 0 < vY * 2 ^ e := Nat.mul_pos hpos (pow_pos (by norm_num) e)
    have h2 : value Yc = 2 * (vY * 2 ^ e) := by rw [hv, pow_succ]; ring
    rw [modLoop]
    by_cases hc : intFineCompare X (intRShiftSmall Yc 1) < 2
    · rw [if_pos hc]
      rw [intFineCompare_spec X _ hX hY1] at hc
      have hle := compareCode_lt_two hc
      obtain ⟨X1, hr, hc1, hl1, hval⟩ := intSub_single X _ hX hlen hY1 (by omega) hle
      rw [hr, Outcome.ret_bind]
      obtain ⟨R, Y2, h3, h4, h5, h6, h7, h8⟩ :=
        ih X1 _ vY hc1 hl1 hY1 hpos hv1 (by omega)
      refine ⟨R, Y2, h3, h4, h5, ?_, h7, h8⟩
      rw [h6, hval, hv1]
      rw [hv1] at hle
      have hsub : value X = (value X - vY * 2 ^ e) + 2 ^ e * vY := by
        rw [Nat.mul_comm (2 ^ e) vY]; omega
      conv_rhs => rw [hsub, Nat.add_mul_mod_self_right]
    · rw [if_neg hc]
      have hlt2 : value X < value (intRShiftSmall Yc 1) := by
        by_contra h3
        apply hc
        rw [intFineCompare_spec X _ hX hY1]
        rcases Nat.lt_or_eq_of_le (Nat.le_of_not_lt h3) with h4 | h4
        · rw [compareCode_gt h4]; norm_num
        · rw [h4]; simp [compareCode]
      exact ih X _ vY hX hlen hY1 hpos hv1 hlt2

theorem size_bounds (a : Nat) (h0 : 0 < a) :
    2 ^ (Nat.size a - 1) ≤ a ∧ a < 2 ^ Nat.size a := by
  refine ⟨?_, Nat.lt_size_self a⟩
  have hp : 0 < Nat.size a := Nat.size_pos.2 h0
  exact Nat.lt_size.1 (by omega)

theorem intCompare_single (a b : Nat) (ha : 0 < a) (haW : a < WORD) (hb : 0 < b)
    (hbW : b < WORD) : intCompare [a] [b] = (Nat.size a : Int) - (Nat.size b : Int) := by
  unfold intCompare
  rw [if_neg (by simp), if_neg (by simp), if_neg (by simp)]
  simp only [List.length_singleton, List.getLastD_cons, List.getLastD_nil, INT_SIZE]
  rw [highestBitSignificance_eq a ha haW, highestBitSignificance_eq b hb hbW]
  ring

/-- For a numerator of at most one node and a divisor of one node, `intMod` returns the
remainder and leaves the divisor as it was. -/
theorem intMod_single (X : List Nat) (b : Nat) (hX : Canonical X) (hlen : X.length ≤ 1)
    (hb : 0 < b) (hbW : b < WORD) :
    ∃ R, intMod X [b] = Outcome.ret (R, [b]) ∧ Canonical R ∧ R.length ≤ 1 ∧
      value R = value X % b := by
  have hB := canonical_single_of hb hbW
  have hvb : value [b] = b := by simp [value]
  unfold intMod
  rw [if_neg (by simp)]
  by_cases h1 : intCompare X [b] < 0
  · rw [if_pos h1]
    refine ⟨X, rfl, hX, hlen, ?_⟩
    rcases length_le_one_cases X hlen with hx | ⟨a, hx⟩
    · subst hx; simp [value]
    · subst hx
      have ha := canonical_single hX
      rw [intCompare_single a b ha.1 ha.2 hb hbW] at h1
      have hsa := size_bounds a ha.1
      have hsb := size_bounds b hb
      have hle : 2 ^ Nat.size a ≤ 2 ^ (Nat.size b - 1) :=
        Nat.pow_le_pow_right (by norm_num) (by omega)
      have hva : value [a] = a := by simp [value]
      rw [hva, Nat.mod_eq_of_lt (by omega)]
  · rw [if_neg h1]
    have hxne : X ≠ [] := by
      intro hx; subst hx
      exact h1 (intCompare_nil_left [b] (by simp))
    rcases length_le_one_cases X hlen with hx | ⟨a, hx⟩
    · exact absurd hx hxne
    · subst hx
      have ha := canonical_single hX
      rw [intCompare_single a b ha.1 ha.2 hb hbW] at h1 ⊢
      have hsa := size_bounds a ha.1
      have hsb := size_bounds b hb
      have hpb : 0 < Nat.size b := Nat.size_pos.2 hb
      have he : ((Nat.size a : Int) - (Nat.size b : Int) + 2).toNat =
          Nat.size a - Nat.size b + 2 := by omega
      rw [he]
      have hl := intLShift_spec [b] (Nat.size a - Nat.size b + 2) hB
      rw [hvb] at hl
      have hva : value [a] = a := by simp [value]
      have hbig : a < b * 2 ^ (Nat.size a - Nat.size b + 2) := by
        have h3 : 2 ^ (Nat.size b - 1) * 2 ^ (Nat.size a - Nat.size b + 2) ≤
            b * 2 ^ (Nat.size a - Nat.size b + 2) := Nat.mul_le_mul_right _ hsb.1
        rw [← pow_add] at h3
        have h4 : 2 ^ Nat.size a ≤
            2 ^ (Nat.size b - 1 + (Nat.size a - Nat.size b + 2)) :=
          Nat.pow_le_pow_right (by norm_num) (by omega)
        omega
      obtain ⟨R, Y1, h5, h6, h7, h8, h9, h10⟩ :=
        modLoop_single _ [a] _ b hX hlen hl.2 hb hl.1 (by rw [hva, hl.1]; exact hbig)
      have hY1 : Y1 = [b] := canonical_unique Y1 [b] h9 hB (by rw [h10, hvb])
      rw [hY1] at h5
      exact ⟨R, h5, h6, h7, h8⟩

/-! ## Claim C32: bounds of at most `16` -/

theorem trim_length_le : ∀ X : List Nat, (trim X).length ≤ X.length := by
  intro X
  induction X with
  | nil => simp [trim]
  | cons d ds ih =>
    have h := trim_length_cons d ds
    simp only [List.length_cons]
    omega

/-- For a bound of one node between `1` and `16`, `intPseudoRandom` accepts no sample:
whatever the number of restarts followed, the run has not returned. -/
theorem intPseudoRandom_small (S : Sources) (b : Nat) (h1 : 1 ≤ b) (h16 : b ≤ 16) :
    ∀ (fuel i : Nat), intPseudoRandom S fuel [b] i = Outcome.fuel := by
  have hbW : b < WORD := by rw [WORD_eq]; omega
  intro fuel
  induction fuel with
  | zero => intro i; rfl
  | succ fuel ih =>
    intro i
    have hs : Canonical (trim (pseudoNodes S [b].length i)) :=
      trim_canonical _ (pseudoNodes_words S _ _)
    have hl : (trim (pseudoNodes S [b].length i)).length ≤ 1 := by
      have h := trim_length_le (pseudoNodes S [b].length i)
      have h2 : (pseudoNodes S [b].length i).length = 1 := rfl
      omega
    obtain ⟨R, hr, hc, _, hv⟩ := intMod_single _ b hs hl h1 hbW
    have hlt : value R < 16 := by
      rw [hv]
      exact lt_of_lt_of_le (Nat.mod_lt _ h1) h16
    rw [intPseudoRandom, hr, Outcome.ret_bind, if_pos ((intMagnitude_lt_four R hc).2 hlt)]
    exact ih _

theorem intRShift_single (a : Nat) (ha : 0 < a) (haW : a < WORD) (h2 : 2 ≤ a) :
    intRShift [a] 1 = [a / 2] := by
  have hs := intRShift_spec [a] 1 (canonical_single_of ha haW)
  have hv : value (intRShift [a] 1) = a / 2 := by
    rw [hs.1]; simp [value]
  have h := canonical_eq_single _ hs.2 (by rw [hv]; omega) (by rw [hv]; omega)
  rw [h, hv]

/-- On a chain of one node the loop `while (intIsEven(OddPart))` ends. -/
theorem oddPartLoop_single : ∀ (k a s : Nat), 0 < a → a < 2 ^ k → a < WORD →
    ∃ r, oddPartLoop k [a] s = Outcome.ret r := by
  intro k
  induction k with
  | zero => intro a s h0 h1 _; simp at h1; omega
  | succ k ih =>
    intro a s h0 hk haW
    rw [oddPartLoop, if_neg (by simp)]
    by_cases he : intIsEven 0 [a] ≠ 0
    · rw [if_pos he]
      have hev : a % 2 = 0 := by
        by_contra h1
        apply he
        unfold intIsEven lastData
        simp only [List.getLastD_cons, List.getLastD_nil, Nat.and_one_is_mod]
        rw [if_pos h1]
      rw [intRShift_single a h0 haW (by omega)]
      exact ih (a / 2) (s + 1) (by omega) (by rw [pow_succ] at hk; omega) (by omega)
    · rw [if_neg he]
      exact ⟨_, rfl⟩

/-- The run of `intIsPrime(x)` for `3 <= x <= 18` stays in the first call of
`intPseudoRandom`, whose bound is `x - 2 <= 16`. -/
theorem intIsPrime_small (S : Sources) (fuel x i : Nat) (h3 : 3 ≤ x) (h18 : x ≤ 18) :
    intIsPrime S fuel [x] i = Outcome.fuel := by
  have hW := WORD_eq
  have hX : Canonical [x] := canonical_single_of (by omega) (by omega)
  have hX1 : Canonical [x - 1] := canonical_single_of (by omega) (by omega)
  have hv : ∀ a : Nat, value [a] = a := fun a => by simp [value]
  have hdec : ∀ a, 2 ≤ a → a ≤ 18 → intDecrement [a] = Outcome.ret [a - 1] := by
    intro a h2 ha
    have hA : Canonical [a] := canonical_single_of (by omega) (by omega)
    obtain ⟨R, hr, hc, _, hval⟩ :=
      intSub_single [a] [1] hA (by simp) (by decide) (by decide) (by rw [hv, hv]; omega)
    rw [hv, hv] at hval
    have hR := canonical_eq_single R hc (by omega) (by omega)
    unfold intDecrement
    rw [hr, hR, hval]
  obtain ⟨r, hr⟩ := oddPartLoop_single (INT_SIZE * [x - 1].length) (x - 1) 0 (by omega)
    (by
      have h : INT_SIZE * [x - 1].length = 64 := rfl
      rw [h]; omega) (by omega)
  have hx2 : x - 1 - 1 = x - 2 := by omega
  unfold intIsPrime
  rw [hdec x (by omega) h18, Outcome.ret_bind, hdec (x - 1) (by omega) (by omega),
    Outcome.ret_bind, hr, Outcome.ret_bind, hx2]
  show primeRounds S fuel [x - 1] r.1 r.2 (49 + 1) [x] [x - 2] i = Outcome.fuel
  rw [primeRounds, intPseudoRandom_small S (x - 2) (by omega) (by omega)]
  rfl

theorem loadBytes_lt (bytes : Nat → Nat) : ∀ (j data : Nat), data < WORD →
    loadBytes bytes j data < WORD := by
  intro j
  induction j with
  | zero => intro data h; exact h
  | succ j ih => intro data _; exact ih _ (Nat.mod_lt _ WORD_pos)

theorem cryptoNodes_words (S : Sources) : ∀ (k i : Nat), Words (cryptoNodes S k i) := by
  intro k
  induction k with
  | zero => intro i; exact words_nil
  | succ k ih =>
    intro i
    exact words_cons.2 ⟨loadBytes_lt _ _ 0 WORD_pos, ih _⟩

theorem increment_shift (X : List Nat) (hX : Canonical X) :
    Canonical (intIncrement (intLShift X 1)) ∧
    value (intIncrement (intLShift X 1)) = 2 * value X + 1 := by
  have hl := intLShift_spec X 1 hX
  have h1 : Canonical ([1] : List Nat) := by decide
  refine ⟨intAdd_canonical _ _ hl.2 h1, ?_⟩
  unfold intIncrement
  rw [(intAdd_value _ _ hl.2.1 h1.1).1, hl.1]
  simp [value]
  ring

/-- For a bound of one node, `intCryptoRandom` returns a canonical chain below the bound
and leaves the bound as it was. -/
theorem intCryptoRandom_single (S : Sources) (b i : Nat) (hb : 0 < b) (hbW : b < WORD) :
    ∃ R, intCryptoRandom S [b] i = Outcome.ret (R, [b], i + 1) ∧ Canonical R ∧
      value R < b := by
  have hs : Canonical (intCryptoRandomNodes S [b].length i) :=
    trim_canonical _ (cryptoNodes_words S _ _)
  have hl : (intCryptoRandomNodes S [b].length i).length ≤ 1 := by
    have h := trim_length_le (cryptoNodes S [b].length i)
    have h2 : (cryptoNodes S [b].length i).length = 1 := rfl
    unfold intCryptoRandomNodes
    omega
  have hr := intRShift_spec _ (INT_SIZE - highestBitSignificance (([b] : List Nat).getLastD 0)) hs
  have hl2 : (intRShift (intCryptoRandomNodes S [b].length i)
      (INT_SIZE - highestBitSignificance (([b] : List Nat).getLastD 0))).length ≤ 1 := by
    rw [canonical_length_le _ hr.2, hr.1]
    exact lt_of_le_of_lt (Nat.div_le_self _ _) ((canonical_length_le _ hs 1).1 hl)
  obtain ⟨R, h1, h2, _, h4⟩ := intMod_single _ b hr.2 hl2 hb hbW
  refine ⟨R, ?_, h2, by rw [h4]; exact Nat.mod_lt _ hb⟩
  unfold intCryptoRandom
  rw [if_neg (by simp), h1]
  rfl

theorem drawCandidate_single (S : Sources) (b i : Nat) (hb : 0 < b) (hbW : b < WORD) :
    ∃ C, drawCandidate S [b] i = Outcome.ret (C, [b], i + 1) ∧ Canonical C ∧
      value C < 2 * b := by
  obtain ⟨R, h1, h2, h3⟩ := intCryptoRandom_single S b i hb hbW
  have h := increment_shift R h2
  refine ⟨intIncrement (intLShift R 1), ?_, h.1, by rw [h.2]; omega⟩
  unfold drawCandidate
  rw [h1]
  rfl

/-- With bounds of at most `16` the loop of `intMakePrime` never leaves: a candidate
outside the range is replaced, and a candidate inside it is handed to `intIsPrime`, which
does not return. -/
theorem makePrimeLoop_small (S : Sources) (fuel L U : Nat) (hL : 2 ≤ L) (hL8 : L ≤ 8)
    (hU : 1 ≤ U) (hU16 : U ≤ 16) : ∀ (n : Nat) (st : PrimeSearch), Canonical st.X →
    value st.X < 16 → makePrimeLoop S fuel n [L] [U] st = Outcome.fuel := by
  have hW := WORD_eq
  have hv : ∀ a : Nat, value [a] = a := fun a => by simp [value]
  have hCL : Canonical [L] := canonical_single_of (by omega) (by omega)
  have hCU : Canonical [U] := canonical_single_of (by omega) (by omega)
  intro n
  induction n with
  | zero => intro st _ _; rfl
  | succ n ih =>
    intro st hX hlt
    have hnext : ∀ rcalls,
        (if st.isRandom then
          (intMod (intIncrement (intLShift st.X 1)) [U]).bind fun r =>
            makePrimeLoop S fuel n [L] r.2 ⟨r.1, false, st.calls, rcalls⟩
        else
          (drawCandidate S [L] st.calls).bind fun r =>
            makePrimeLoop S fuel n r.2.1 [U] ⟨r.1, true, r.2.2, rcalls⟩) = Outcome.fuel := by
      intro rcalls
      by_cases hr : st.isRandom = true
      · rw [if_pos hr]
        have hc := increment_shift st.X hX
        have hl : (intIncrement (intLShift st.X 1)).length ≤ 1 := by
          rw [canonical_length_le _ hc.1, hc.2, pow_one]
          omega
        obtain ⟨R, h1, h2, _, h4⟩ := intMod_single _ U hc.1 hl (by omega) (by omega)
        rw [h1, Outcome.ret_bind]
        apply ih _ h2
        show value R < 16
        rw [h4]
        exact lt_of_lt_of_le (Nat.mod_lt _ (by omega)) hU16
      · rw [if_neg hr]
        obtain ⟨C, h1, h2, h3⟩ := drawCandidate_single S L st.calls (by omega) (by omega)
        rw [h1, Outcome.ret_bind]
        apply ih _ h2
        show value C < 16
        omega
    rw [makePrimeLoop]
    by_cases hc : intFineCompare [L] st.X ≠ 2 ∨ intFineCompare st.X [U] ≠ 2
    · simp only [if_pos hc]
      exact hnext _
    · simp only [if_neg hc]
      have h1 : intFineCompare [L] st.X = 2 := by
        by_contra h; exact hc (Or.inl h)
      have h2 : intFineCompare st.X [U] = 2 := by
        by_contra h; exact hc (Or.inr h)
      rw [intFineCompare_spec _ _ hCL hX, hv] at h1
      rw [intFineCompare_spec _ _ hX hCU, hv] at h2
      have h3 : L < value st.X := ((compareCode_iff _ _).2.2).1 h1
      have hX1 := canonical_eq_single st.X hX (by omega) (by omega)
      rw [hX1, intIsPrime_small S fuel (value st.X) st.rcalls (by omega) (by omega)]
      rfl

/-- Claim C32: for every bound `b` with `1 <= b <= 16` and every stream of `rand()`, each
reduced sample is below `b`, so its `intMagnitude` is below `4` and `intPseudoRandom(b)`
calls itself again: whatever number of restarts is followed, the call has not returned.
Hence `intIsPrime(x)` returns no verdict for `3 <= x <= 18` (its first witness is drawn
below `x - 2`), and `intMakePrime(3)` and `intMakePrime(4)` do not return, whatever number
of candidates is followed. -/
theorem C32_small_bounds_never_return (S : Sources) (fuel n i b x : Nat)
    (hb1 : 1 ≤ b) (hb16 : b ≤ 16) (hx3 : 3 ≤ x) (hx18 : x ≤ 18) :
    intPseudoRandom S fuel [b] i = Outcome.fuel ∧
    (∀ Y, Canonical Y → value Y < b → intMagnitude Y < 4) ∧
    intIsPrime S fuel [x] i = Outcome.fuel ∧
    intMakePrime S fuel n 3 = Outcome.fuel ∧
    intMakePrime S fuel n 4 = Outcome.fuel := by
  have hW := WORD_eq
  refine ⟨intPseudoRandom_small S b hb1 hb16 fuel i, ?_,
    intIsPrime_small S fuel x i hx3 hx18, ?_, ?_⟩
  · intro Y hY hv
    exact (intMagnitude_lt_four Y hY).2 (by omega)
  · have hL : intLShift (intIncrement []) (3 - 1) = [4] := by decide
    have hU : intLShift [4] 1 = [8] := by decide
    obtain ⟨C, h1, h2, h3⟩ := drawCandidate_single S 4 0 (by omega) (by omega)
    unfold intMakePrime
    rw [if_neg (by decide), hL, hU, h1, Outcome.ret_bind]
    exact makePrimeLoop_small S fuel 4 8 (by omega) (by omega) (by omega) (by omega) n _ h2
      (by show value C < 16; omega)
  · have hL : intLShift (intIncrement []) (4 - 1) = [8] := by decide
    have hU : intLShift [8] 1 = [16] := by decide
    obtain ⟨C, h1, h2, h3⟩ := drawCandidate_single S 8 0 (by omega) (by omega)
    unfold intMakePrime
    rw [if_neg (by decide), hL, hU, h1, Outcome.ret_bind]
    exact makePrimeLoop_small S fuel 8 16 (by omega) (by omega) (by omega) (by omega) n _ h2
      (by show value C < 16; omega)

theorem C32_small_bounds_never_return_witness :
    (1 ≤ 16 ∧ 16 ≤ 16 ∧ 3 ≤ 18 ∧ 18 ≤ 18) ∧
    intPseudoRandom (fiveSources 0) 1000 [16] 0 = Outcome.fuel ∧
    intIsPrime (fiveSources 0) 1000 [18] 0 = Outcome.fuel ∧
    intMakePrime (fiveSources 0) 1000 1000 3 = Outcome.fuel ∧
    intMakePrime (fiveSources 0) 1000 1000 4 = Outcome.fuel :=
  ⟨by decide,
    (C32_small_bounds_never_return (fiveSources 0) 1000 1000 0 16 18 (by decide) (by decide)
      (by decide) (by decide)).1,
    (C32_small_bounds_never_return (fiveSources 0) 1000 1000 0 16 18 (by decide) (by decide)
      (by decide) (by decide)).2.2.1,
    (C32_small_bounds_never_return (fiveSources 0) 1000 1000 0 16 18 (by decide) (by decide)
      (by decide) (by decide)).2.2.2.1,
    (C32_small_bounds_never_return (fiveSources 0) 1000 1000 0 16 18 (by decide) (by decide)
      (by decide) (by decide)).2.2.2.2⟩

/-! ## Claim C31: the squaring loop once the witness is one -/

theorem Outcome.bind_congr {α β : Type} {o : Outcome α} {f g : α → Outcome β}
    (h : ∀ a, o = Outcome.ret a → f a = g a) : o.bind f = o.bind g := by
  cases o with
  | ret a => exact h a rfl
  | hang => rfl
  | clobber x rz => rfl
  | abort => rfl
  | fuel => rfl

theorem trim_cons_ne_zero (a : Nat) (t : List Nat) (ha : a ≠ 0) :
    ∃ t1, trim (a :: t) = a :: t1 := by
  rw [trim]
  cases trim t with
  | nil => exact ⟨[], by simp [ha]⟩
  | cons b bs => exact ⟨b :: bs, rfl⟩

/-- A chain returned by the carry loop of `intSub` starts with the first node already
written, when that node is not zero. -/
theorem subCarry_head : ∀ (xs acc : List Nat) (c : Nat) (R : List Nat) (a : Nat)
    (t : List Nat), acc.reverse = a :: t → a ≠ 0 → subCarry acc xs c = Outcome.ret R →
    ∃ t1, R = a :: t1 := by
  intro xs
  induction xs with
  | nil =>
    intro acc c R a t hacc ha h
    cases c with
    | zero =>
      have h2 : Outcome.ret (trim acc.reverse) = Outcome.ret R := h
      injection h2 with h3
      rw [← h3, hacc]
      exact trim_cons_ne_zero a t ha
    | succ c =>
      have h2 : subSentinel acc.reverse 0 (c + 1) = Outcome.ret R := h
      rcases subSentinel_cases acc.reverse 0 (c + 1) with h3 | ⟨x, r, h3⟩ <;>
        rw [h3] at h2 <;> cases h2
  | cons x xs ih =>
    intro acc c R a t hacc ha h
    cases c with
    | zero =>
      have h2 : Outcome.ret (acc.reverse ++ x :: xs) = Outcome.ret R := h
      injection h2 with h3
      rw [← h3, hacc]
      exact ⟨t ++ x :: xs, rfl⟩
    | succ c =>
      exact ih _ _ R a (t ++ [(subStep x 0 (c + 1)).1])
        (by rw [List.reverse_cons, hacc]; rfl) ha h

theorem subLoop_cons_cons (acc : List Nat) (x : Nat) (xs : List Nat) (y : Nat)
    (ys : List Nat) (c : Nat) :
    subLoop acc (x :: xs) (y :: ys) c =
      subLoop ((subStep x y c).1 :: acc) xs ys (subStep x y c).2 := rfl

theorem subLoop_nil_right (acc xs : List Nat) (c : Nat) :
    subLoop acc xs [] c = subCarry acc xs c := by
  cases xs <;> rfl

theorem subCarry_zero (acc xs : List Nat) :
    subCarry acc xs 0 =
      Outcome.ret (if xs = [] then trim acc.reverse else acc.reverse ++ xs) := by
  cases xs <;> rfl

/-- For `X >= 3`, whatever `intDecrement(X)` returns is not the chain of one. -/
theorem intDecrement_ne_one (X R : List Nat) (hX : Canonical X) (h3 : 3 ≤ value X)
    (h : intDecrement X = Outcome.ret R) : R ≠ [1] := by
  cases X with
  | nil => simp [value] at h3
  | cons x xs =>
    have hxW := (words_cons.1 hX.1).1
    unfold intDecrement intSub at h
    rw [subLoop_cons_cons, subLoop_nil_right] at h
    by_cases hx0 : x = 0
    · subst hx0
      rw [subStep_double_borrow] at h
      simp only [] at h
      obtain ⟨t1, ht⟩ := subCarry_head xs [UINT_MAX] 2 R UINT_MAX [] rfl (by decide) h
      rw [ht]
      intro h1
      injection h1 with h2 _
      exact absurd h2 (by decide)
    · rw [subStep_exact x 1 (by norm_num) (by omega) hxW] at h
      simp only [] at h
      rw [subCarry_zero] at h
      injection h with h4
      rw [← h4]
      cases xs with
      | nil =>
        have hv : value [x] = x := by simp [value]
        rw [hv] at h3
        have h5 : trim [x - 1] = [x - 1] := by
          have : x - 1 ≠ 0 := by omega
          simp [trim, this]
        simp only [if_true, List.reverse_cons, List.reverse_nil, List.nil_append]
        rw [h5]
        intro h6
        injection h6 with h7 _
        omega
      | cons y ys =>
        simp

theorem intMod_one (X : List Nat) (hX : Canonical X) (h0 : X ≠ []) (h1 : value X ≠ 1) :
    intMod [1] X = Outcome.ret ([1], X) := by
  unfold intMod
  rw [if_neg h0, if_pos (intCompare_one_lt X hX h0 h1)]

theorem intFineCompare_one_ne (XM1 : List Nat) (hM : Canonical XM1) (hne : XM1 ≠ [1]) :
    intFineCompare [1] XM1 ≠ 0 := by
  rw [intFineCompare_spec [1] XM1 (by decide) hM]
  intro h
  have h1 := ((compareCode_iff _ _).1).1 h
  exact hne (canonical_unique XM1 [1] hM (by decide) h1.symm)

theorem intFineCompare_eq_one (R : List Nat) (hR : Canonical R)
    (h : intFineCompare R [1] = 0) : R = [1] := by
  rw [intFineCompare_spec R [1] hR (by decide)] at h
  exact canonical_unique R [1] hR (by decide) (((compareCode_iff _ _).1).1 h)

/-- Once the witness is one the squaring loop runs out: one squared and reduced is one,
and one is not `XMinusOne`. -/
theorem squareLoop_one (XM1 X : List Nat) (hX : Canonical X) (h0 : X ≠ [])
    (h1 : value X ≠ 1) (hM : Canonical XM1) (hne : XM1 ≠ [1]) :
    ∀ e : Nat, squareLoop XM1 e [1] X = Outcome.ret (false, X) := by
  intro e
  induction e with
  | zero => rfl
  | succ e ih =>
    have hm : intMult [1] [1] = [1] := by decide
    rw [squareLoop, hm, intMod_one X hX h0 h1, Outcome.ret_bind,
      if_neg (intFineCompare_one_ne XM1 hM hne)]
    exact ih

theorem squareLoop_short_eq (XM1 X : List Nat) (hX : Canonical X) (h0 : X ≠ [])
    (h1 : value X ≠ 1) (hM : Canonical XM1) (hne : XM1 ≠ [1]) :
    ∀ (e : Nat) (W : List Nat), Canonical W →
    squareLoopShort XM1 e W X = squareLoop XM1 e W X ∧
    ((∃ b, squareLoop XM1 e W X = Outcome.ret (b, X)) ∨
      squareLoop XM1 e W X = Outcome.hang) := by
  intro e
  induction e with
  | zero => intro W _; exact ⟨rfl, Or.inl ⟨false, rfl⟩⟩
  | succ e ih =>
    intro W hW
    rw [squareLoopShort, squareLoop]
    rcases intMod_ends _ X (intMult_canonical W W hW hW) hX h0 with ⟨R, hr, hc⟩ | hr
    · rw [hr, Outcome.ret_bind, Outcome.ret_bind]
      show (if intFineCompare R [1] = 0 then Outcome.ret (false, X)
          else if intFineCompare R XM1 = 0 then Outcome.ret (true, X)
          else squareLoopShort XM1 e R X) =
          (if intFineCompare R XM1 = 0 then Outcome.ret (true, X)
          else squareLoop XM1 e R X) ∧
        ((∃ b, (if intFineCompare R XM1 = 0 then Outcome.ret (true, X)
          else squareLoop XM1 e R X) = Outcome.ret (b, X)) ∨
          (if intFineCompare R XM1 = 0 then Outcome.ret (true, X)
          else squareLoop XM1 e R X) = Outcome.hang)
      by_cases hone : intFineCompare R [1] = 0
      · have hR := intFineCompare_eq_one R hc hone
        subst hR
        rw [if_pos hone, if_neg (intFineCompare_one_ne XM1 hM hne),
          squareLoop_one XM1 X hX h0 h1 hM hne e]
        exact ⟨rfl, Or.inl ⟨false, rfl⟩⟩
      · rw [if_neg hone]
        by_cases hm : intFineCompare R XM1 = 0
        · rw [if_pos hm, if_pos hm]
          exact ⟨rfl, Or.inl ⟨true, rfl⟩⟩
        · rw [if_neg hm, if_neg hm]
          exact ih R hc
    · rw [hr]
      exact ⟨rfl, Or.inr rfl⟩

theorem intPseudoRandom_ret_canonical (S : Sources) : ∀ (fuel : Nat) (X : List Nat) (i : Nat)
    (r : List Nat × List Nat × Nat), Canonical X →
    intPseudoRandom S fuel X i = Outcome.ret r → Canonical r.1 ∧ Canonical r.2.1 := by
  intro fuel
  induction fuel with
  | zero => intro X i r _ h; cases h
  | succ fuel ih =>
    intro X i r hX h
    rw [intPseudoRandom] at h
    obtain ⟨m, h1, h2⟩ := Outcome.bind_eq_ret h
    have hm := intMod_ret_canonical _ X m (trim_canonical _ (pseudoNodes_words S _ _)) hX h1
    by_cases hc : intMagnitude m.1 < 4
    · rw [if_pos hc] at h2
      exact ih _ _ r hm.2 h2
    · rw [if_neg hc] at h2
      injection h2 with h3
      rw [← h3]
      exact hm

theorem primeRounds_short_eq (S : Sources) (fuel : Nat) (XM1 OddPart : List Nat)
    (twoExponent : Nat) (X : List Nat) (hX : Canonical X) (h0 : X ≠ [])
    (h1 : value X ≠ 1) (hM : Canonical XM1) (hne : XM1 ≠ [1]) :
    ∀ (confidence : Nat) (XMinusTwo : List Nat) (i : Nat), Canonical XMinusTwo →
    primeRoundsShort S fuel XM1 OddPart twoExponent confidence X XMinusTwo i =
      primeRounds S fuel XM1 OddPart twoExponent confidence X XMinusTwo i := by
  intro confidence
  induction confidence with
  | zero => intro XMinusTwo i _; rfl
  | succ confidence ih =>
    intro XMinusTwo i h2
    rw [primeRoundsShort, primeRounds]
    apply Outcome.bind_congr
    intro w hw
    have hwc := intPseudoRandom_ret_canonical S fuel XMinusTwo i w h2 hw
    rcases intModExp_ends w.1 OddPart X hwc.1 hX h0 with ⟨R, hr, _⟩ | hr
    · rw [hr, Outcome.ret_bind, Outcome.ret_bind]
      show (if intFineCompare R [1] = 0 ∨ intFineCompare R XM1 = 0 then
          primeRoundsShort S fuel XM1 OddPart twoExponent confidence X w.2.1 w.2.2
        else
          (squareLoopShort XM1 twoExponent R X).bind fun q =>
            if q.1 then
              primeRoundsShort S fuel XM1 OddPart twoExponent confidence q.2 w.2.1 w.2.2
            else Outcome.ret (0, w.2.2)) =
        (if intFineCompare R [1] = 0 ∨ intFineCompare R XM1 = 0 then
          primeRounds S fuel XM1 OddPart twoExponent confidence X w.2.1 w.2.2
        else
          (squareLoop XM1 twoExponent R X).bind fun q =>
            if q.1 then
              primeRounds S fuel XM1 OddPart twoExponent confidence q.2 w.2.1 w.2.2
            else Outcome.ret (0, w.2.2))
      by_cases hc : intFineCompare R [1] = 0 ∨ intFineCompare R XM1 = 0
      · rw [if_pos hc, if_pos hc]
        exact ih _ _ hwc.2
      · rw [if_neg hc, if_neg hc]
        have hR : Canonical R :=
          (intModExp_ret_canonical w.1 OddPart X (R, X) hwc.1 hX hr).1
        obtain ⟨hs, hend⟩ := squareLoop_short_eq XM1 X hX h0 h1 hM hne twoExponent R hR
        rw [hs]
        rcases hend with ⟨b, hb⟩ | hb
        · rw [hb, Outcome.ret_bind, Outcome.ret_bind]
          cases b with
          | true => exact ih _ _ hwc.2
          | false => rfl
        · rw [hb]; rfl
    · rw [hr]; rfl

/-- The function `intIsPrime` with the commented-out test put back returns what
`intIsPrime` returns, for every canonical `X >= 3` and every stream of `rand()`. -/
theorem intIsPrime_short_eq (S : Sources) (fuel : Nat) (X : List Nat) (i : Nat)
    (hX : Canonical X) (h3 : 3 ≤ value X) :
    intIsPrimeShort S fuel X i = intIsPrime S fuel X i := by
  have h0 : X ≠ [] := by
    intro h; subst h; simp [value] at h3
  unfold intIsPrimeShort intIsPrime
  apply Outcome.bind_congr
  intro XM1 hM
  apply Outcome.bind_congr
  intro XM2 hM2
  apply Outcome.bind_congr
  intro d _
  have hMc : Canonical XM1 := intSub_ret_canonical X [1] XM1 hX hM
  exact primeRounds_short_eq S fuel XM1 d.1 d.2 X hX h0 (by omega) hMc
    (intDecrement_ne_one X XM1 hX h3 hM) PRIME_CONFIDENCE XM2 i
    (intSub_ret_canonical XM1 [1] XM2 hMc hM2)

/-- Claim C31: for every canonical `X >= 3`, once the squared witness is one inside the
squaring loop the loop runs out and the round ends with the verdict `0`: one squared and
reduced stays one, and one is not `X - 1`.  So `intIsPrime` with the commented-out test
against one put back returns, for every `X >= 3` and every stream of `rand()`, what the
code returns (the same verdict, or no return in the same runs). -/
theorem C31_short_circuit_same (S : Sources) (fuel : Nat) (X : List Nat) (i : Nat)
    (hX : Canonical X) (h3 : 3 ≤ value X) :
    intIsPrimeShort S fuel X i = intIsPrime S fuel X i ∧
    (∀ XMinusOne e, intDecrement X = Outcome.ret XMinusOne →
      squareLoop XMinusOne e [1] X = Outcome.ret (false, X) ∧
      squareLoopShort XMinusOne (e + 1) [1] X = Outcome.ret (false, X)) := by
  have h0 : X ≠ [] := by
    intro h; subst h; simp [value] at h3
  refine ⟨intIsPrime_short_eq S fuel X i hX h3, ?_⟩
  intro XM1 e hM
  have hMc : Canonical XM1 := intSub_ret_canonical X [1] XM1 hX hM
  have hne := intDecrement_ne_one X XM1 hX h3 hM
  refine ⟨squareLoop_one XM1 X hX h0 (by omega) hMc hne e, ?_⟩
  have hm : intMult [1] [1] = [1] := by decide
  have hc : intFineCompare [1] [1] = 0 := by decide
  rw [squareLoopShort, hm, intMod_one X hX h0 (by omega), Outcome.ret_bind, if_pos hc]

theorem C31_short_circuit_same_witness :
    Canonical [561] ∧ 3 ≤ value [561] ∧
    intIsPrimeShort (fiveSources 0) 3 [561] 0 = intIsPrime (fiveSources 0) 3 [561] 0 ∧
    intDecrement [561] = Outcome.ret [560] ∧
    squareLoop [560] 4 [1] [561] = Outcome.ret (false, [561]) :=
  ⟨by decide, by decide,
    (C31_short_circuit_same (fiveSources 0) 3 [561] 0 (by decide) (by decide)).1,
    by decide,
    ((C31_short_circuit_same (fiveSources 0) 3 [561] 0 (by decide) (by decide)).2 [560] 4
      (by decide)).1⟩

end ElGamal
